import Mathlib

/-!
# Operation translator (`paddle/fluid/ir_adaptor/translator/op_translator.cc`)

A shallow embedding of the per-operation translation from legacy operation
descriptors to the target IR, followed by theorems about it.

Conventions of the embedding:

* The target block is a list of operations in append order.  An operation is
  identified by the position at which it was appended; every operation the
  translator creates is appended right after its creation, so the identity
  given to a new operation is the length of the block at that moment.
* A value handle (`ir::OpResult`) is `none` for the null handle and otherwise
  records owner, result position and type.  Handles are immutable.
* A C++ exception (`IR_THROW`, `IR_ENFORCE`, `std::out_of_range`) is
  `Failure.fatal`; behaviour the language leaves undefined (indexing an empty
  vector, reading the type of a null handle, indexing a vector type out of
  range) is `Failure.undefined`.  The state reached when the failure occurs is
  kept next to the failure.
* The lookup tables (`OpNameNormalizer`, `AttributeTranslator`,
  `TypeTranslator`) are process-wide singletons whose code lives in other
  files; they are passed in as the record `Tables`.
-/

namespace Paddle.Translator

/-! ## Data model -/

/-- Modelled from the spec: the element types (`phi::DataType`) the translator names. -/
inductive DataType where
  | UNDEFINED | BOOL | INT32 | INT64 | FLOAT32 | FLOAT64
  deriving DecidableEq, Repr

/-- Modelled from the spec: target value types (`ir::Type`): the null type, a dense
tensor type, some other non-aggregate type, or an aggregate (`ir::VectorType`). -/
inductive Ty where
  | null : Ty
  | dense (dtype : DataType) (dims : List Int) : Ty
  | other (tag : Nat) : Ty
  | vec (elems : List Ty) : Ty
  deriving Repr

mutual
/-- Decidable equality of types, by recursion over both arguments. -/
def Ty.decEq : (a b : Ty) → Decidable (a = b)
  | .null, .null => isTrue rfl
  | .dense a b, .dense c d =>
    if h : a = c ∧ b = d then isTrue (by rw [h.1, h.2])
    else isFalse (by intro e; cases e; exact h ⟨rfl, rfl⟩)
  | .other a, .other b =>
    if h : a = b then isTrue (by rw [h]) else isFalse (by intro e; cases e; exact h rfl)
  | .vec a, .vec b =>
    match Ty.decEqList a b with
    | isTrue h => isTrue (by rw [h])
    | isFalse h => isFalse (by intro e; cases e; exact h rfl)
  | .null, .dense _ _ => isFalse (by intro e; cases e)
  | .null, .other _ => isFalse (by intro e; cases e)
  | .null, .vec _ => isFalse (by intro e; cases e)
  | .dense _ _, .null => isFalse (by intro e; cases e)
  | .dense _ _, .other _ => isFalse (by intro e; cases e)
  | .dense _ _, .vec _ => isFalse (by intro e; cases e)
  | .other _, .null => isFalse (by intro e; cases e)
  | .other _, .dense _ _ => isFalse (by intro e; cases e)
  | .other _, .vec _ => isFalse (by intro e; cases e)
  | .vec _, .null => isFalse (by intro e; cases e)
  | .vec _, .dense _ _ => isFalse (by intro e; cases e)
  | .vec _, .other _ => isFalse (by intro e; cases e)
/-- Decidable equality of lists of types. -/
def Ty.decEqList : (a b : List Ty) → Decidable (a = b)
  | [], [] => isTrue rfl
  | a :: as, b :: bs =>
    match Ty.decEq a b, Ty.decEqList as bs with
    | isTrue h1, isTrue h2 => isTrue (by rw [h1, h2])
    | isFalse h1, _ => isFalse (by intro e; cases e; exact h1 rfl)
    | _, isFalse h2 => isFalse (by intro e; cases e; exact h2 rfl)
  | [], _ :: _ => isFalse (by intro e; cases e)
  | _ :: _, [] => isFalse (by intro e; cases e)
end

instance : DecidableEq Ty := Ty.decEq

/-- Modelled from the spec: the test `type.isa<ir::VectorType>()`; the null type is
not an aggregate. -/
def Ty.isVector : Ty → Bool
  | .vec _ => true
  | _ => false

/-- Result of a C++ conversion to `float`, kept symbolic: the source datum is
recorded, no floating-point arithmetic is performed. -/
inductive FloatData where
  | zero
  | ofFloat (bits : Nat)
  | ofDouble (bits : Nat)
  | ofInt32 (v : Int)
  | ofInt64 (v : Int)
  | ofBool (b : Bool)
  deriving DecidableEq, Repr

/-- Modelled from the spec: legacy attribute values (`paddle::framework::Attribute`);
`blank` is the default-constructed variant. -/
inductive LegacyAttr where
  | blank
  | boolean (b : Bool)
  | int (v : Int)
  | long (v : Int)
  | float (bits : Nat)
  | double (bits : Nat)
  | str (s : String)
  | ints (vs : List Int)
  | longs (vs : List Int)
  deriving DecidableEq, Repr

/-- Modelled from the spec: target attributes (`ir::Attribute`); `null` is the empty
attribute. -/
inductive Attribute where
  | null
  | BoolAttribute (b : Bool)
  | Int32Attribute (v : Int)
  | Int64Attribute (v : Int)
  | FloatAttribute (bits : Nat)
  | DoubleAttribute (bits : Nat)
  | StrAttribute (s : String)
  | IntArrayAttribute (vs : List Int)
  | ScalarData (d : FloatData)
  | DataTypeAttribute (d : DataType)
  | PlaceAttribute (cpu : Bool)
  deriving DecidableEq, Repr

abbrev AttributeMap := List (String × Attribute)

/-- Modelled from the spec: a non-null value handle, result `index` of the operation
`owner`, with the type it was created with. -/
structure Value where
  owner : Nat
  index : Nat
  type : Ty
  deriving DecidableEq, Repr

/-- The handle `ir::OpResult`; `none` is `ir::OpResult(nullptr)`. -/
abbrev OpResult := Option Value

/-- Modelled from the spec: a target operation node (`ir::Operation`): its identity,
the name of its kind, the values it consumes, its attribute map and the types of
its results. -/
structure Operation where
  id : Nat
  name : String
  operands : List OpResult
  attributes : AttributeMap
  output_types : List Ty
  deriving DecidableEq, Repr

/-- How a run of the translator can stop without a result: `fatal` is a thrown
C++ exception, `undefined` is behaviour the language leaves undefined. -/
inductive Failure where
  | fatal
  | undefined
  deriving DecidableEq, Repr

instance {ε α : Type} [DecidableEq ε] [DecidableEq α] : DecidableEq (Except ε α) :=
  fun a b =>
    match a, b with
    | .ok x, .ok y => if h : x = y then isTrue (by rw [h]) else isFalse (by intro e; cases e; exact h rfl)
    | .error x, .error y =>
      if h : x = y then isTrue (by rw [h]) else isFalse (by intro e; cases e; exact h rfl)
    | .ok _, .error _ => isFalse (by intro e; cases e)
    | .error _, .ok _ => isFalse (by intro e; cases e)

/-- Modelled from the spec: the defining info of a legacy variable
(`VariableDefiningInfo`, declared in `program_translator.h`): the value, whether it is an aggregate from which the
variable still has to be sliced, and the index inside that aggregate (`-1` when
not generated by an aggregate). -/
structure VariableDefiningInfo where
  value : OpResult := none
  generated_by_vector : Bool := false
  idx_in_vector : Int := -1
  deriving DecidableEq, Repr

/-- Modelled from the spec: the value environment (`TranslationContext`, an
`unordered_map<string, VariableDefiningInfo>`), as an association list with at
most one live entry per key: lookups take the first match. -/
abbrev TranslationContext := List (String × VariableDefiningInfo)

/-- Assignment `m[key] = value` on an association list: replace the first entry of
the key in place, or append a new entry. -/
def assign {β : Type} : List (String × β) → String → β → List (String × β)
  | [], key, value => [(key, value)]
  | (k, v) :: rest, key, value =>
    if key == k then (k, value) :: rest else (k, v) :: assign rest key value

/-- Modelled from the spec: a legacy variable descriptor (`VarDesc`). -/
structure VarDesc where
  name : String
  type : Nat
  dtype : Nat
  shape : List Int
  deriving DecidableEq, Repr

/-- Modelled from the spec: the legacy operation descriptor (`framework::OpDesc`,
declared in `op_desc.h`): type name, named groups of input variable names, named
groups of output variable names, attribute map, and the enclosing scopes
(innermost first) used for variable lookup. The groups are kept in iteration
order of the descriptor, which is the order of the group names. -/
structure OpDesc where
  type : String
  inputs : List (String × List String)
  outputs : List (String × List String)
  attrs : List (String × LegacyAttr)
  block : List (List VarDesc)
  deriving DecidableEq, Repr

/-- Modelled from the spec: `op_desc.HasInput(name)`. -/
def OpDesc.HasInput (d : OpDesc) (name : String) : Bool := (d.inputs.lookup name).isSome

/-- Modelled from the spec: `op_desc.Input(name, true)`, the names of that input
group; every call is guarded by `HasInput`. The descriptor of the spec has no
attribute that stands for variables, so that route of the accessor is left out. -/
def OpDesc.Input (d : OpDesc) (name : String) : List String := (d.inputs.lookup name).getD []

/-- Modelled from the spec: `op_desc.HasOutput(name)`. -/
def OpDesc.HasOutput (d : OpDesc) (name : String) : Bool := (d.outputs.lookup name).isSome

/-- Modelled from the spec: `op_desc.Output(name)`, the names of that output group;
every call is guarded by `HasOutput`. -/
def OpDesc.Output (d : OpDesc) (name : String) : List String := (d.outputs.lookup name).getD []

/-- Modelled from the spec: `op_desc.InputArgumentNames()`, the names of all input
groups, concatenated. -/
def OpDesc.InputArgumentNames (d : OpDesc) : List String := (d.inputs.map Prod.snd).flatten

/-- Modelled from the spec: `op_desc.OutputArgumentNames()`, the names of all output
groups, concatenated. -/
def OpDesc.OutputArgumentNames (d : OpDesc) : List String := (d.outputs.map Prod.snd).flatten

/-- Modelled from the spec: `op_desc.HasAttr(name)`. -/
def OpDesc.HasAttr (d : OpDesc) (name : String) : Bool := (d.attrs.lookup name).isSome

/-- Modelled from the spec: `op_desc.GetAttr(name)`; every call is guarded by
`HasAttr`. -/
def OpDesc.GetAttr (d : OpDesc) (name : String) : LegacyAttr := (d.attrs.lookup name).getD .blank

/-- Modelled from the spec: `op_desc.GetAttrIfExists<int>(name)`, the default `0` when the attribute is
absent, its value when it is an `int`, and an exception when it holds another
alternative. -/
def OpDesc.GetAttrIfExistsInt (d : OpDesc) (name : String) : Except Failure Int :=
  match d.attrs.lookup name with
  | none => .ok 0
  | some (.int v) => .ok v
  | some _ => .error .fatal

/-- Modelled from the spec: `op_desc.Block()->FindVarRecursive(name)`, the first
declaration of the name, searching the enclosing scopes from the innermost
outwards. -/
def OpDesc.FindVarRecursive (d : OpDesc) (name : String) : Option VarDesc :=
  d.block.findSome? (fun scope => scope.find? (fun v => v.name == name))

/-- Modelled from the spec: one input slot of a target operation schema
(`OpInputInfo`). -/
structure OpInputInfo where
  name : String
  type_name : String
  optional : Bool
  deriving DecidableEq, Repr

/-- Modelled from the spec: one attribute slot of a target operation schema
(`OpAttributeInfo`). -/
structure OpAttributeInfo where
  name : String
  type_name : String
  deriving DecidableEq, Repr

/-- Modelled from the spec: one output slot of a target operation schema
(`OpOutputInfo`). -/
structure OpOutputInfo where
  name : String
  type_name : String
  optional : Bool
  deriving DecidableEq, Repr

/-- Modelled from the spec: a registered operation kind with its schema (`ir::OpInfo`
together with what `OpYamlInfoInterface::get_op_info_` returns). -/
structure OpInfo where
  name : String
  input_infos : List OpInputInfo
  attr_infos : List OpAttributeInfo
  output_infos : List OpOutputInfo
  deriving DecidableEq, Repr

/-- Modelled from the spec: the operation-schema registry held by `ir::IrContext`. -/
structure IrContext where
  registry : List OpInfo
  deriving DecidableEq, Repr

/-- Modelled from the spec: `ctx->GetRegisteredOpInfo(name)`, the registered kind of
that name, if any. -/
def IrContext.GetRegisteredOpInfo (ctx : IrContext) (name : String) : Option OpInfo :=
  ctx.registry.find? (fun i => i.name == name)

/-- Modelled from the spec: the lookup tables consulted by the translator, taken as
parameters: the compatibility table (`OpNameNormalizer`), the attribute
conversion table (`AttributeTranslator`) and the type conversion table
(`TypeTranslator`, `none` when no conversion is registered for the type of the
variable). -/
structure Tables where
  op_normalizer : String → String
  GetLegacyArgName : String → String → String
  GetLegacyAttrName : String → String → String
  GetMutableAttributes : String → Option (List String)
  GetMutableAttributeInfos : String → String → List String
  attribute_translator : String → LegacyAttr → Attribute
  type_translator : VarDesc → Option Ty

/-- The state the translator mutates: the target block (`program->block()`) and
the value environment (`param_map`). -/
structure TransState where
  block : List Operation
  param_map : TranslationContext
  deriving DecidableEq, Repr

/-- `haystack.find(needle) != npos`. -/
def contains (haystack needle : String) : Bool :=
  haystack.data.tails.any (fun t => needle.data.isPrefixOf t)

/-! ## Name and aliasing resolution -/

/-- The constant `kTargetDialectPrefix`. -/
def kTargetDialectPrefix : String := "pd."

/-- The set `special_inplace_ops`. -/
def special_inplace_ops : List String := ["batch_norm"]

/-- Lexicographic comparison of character sequences, as `operator<` of
`std::string` compares; the order of code points is the order of their UTF-8
bytes. -/
def ltChars : List Char → List Char → Bool
  | _, [] => false
  | [], _ :: _ => true
  | a :: as, b :: bs =>
    if a.toNat < b.toNat then true
    else if b.toNat < a.toNat then false
    else ltChars as bs

/-- `a < b` on names (`operator<` of `std::string`). -/
def nameLt (a b : String) : Bool := ltChars a.data b.data

/-- `std::sort` on a vector of names: ascending, no element of the result is less
than an element before it. -/
def sort (names : List String) : List String :=
  names.insertionSort (fun a b => nameLt b a = false)

/-- The inner walk of `std::set_intersection` over the second range while the head
`a` of the first range stays put; `next` continues on the tail of the first range. -/
def set_intersection.walk (a : String) (next : List String → List String) :
    List String → List String
  | [] => []
  | b :: bs =>
    if nameLt a b then next (b :: bs)
    else if nameLt b a then set_intersection.walk a next bs
    else a :: next bs

/-- `std::set_intersection` on two sorted ranges, writing to a back inserter. -/
def set_intersection : List String → List String → List String
  | [], _ => []
  | a :: as, second => set_intersection.walk a (set_intersection as) second

/-- `IsInplace(op_desc)`. -/
def IsInplace (op_desc : OpDesc) : Bool :=
  if special_inplace_ops.contains op_desc.type then false
  else
    let input_names := op_desc.InputArgumentNames
    let output_names := op_desc.OutputArgumentNames
    if input_names.length = 0 ∨ output_names.length = 0 then false
    else
      let name_intersection := set_intersection (sort input_names) (sort output_names)
      if name_intersection.length > 0 then true else false

/-- `OpNamecompatibleMapping(op_name)`. -/
def OpNamecompatibleMapping (T : Tables) (op_name : String) : String :=
  T.op_normalizer op_name

/-- The local `target_op_name` of `LoopkUpOpInfo` at the point of the registry
lookup. -/
def target_op_name (T : Tables) (op_desc : OpDesc) : String :=
  let name := kTargetDialectPrefix ++ OpNamecompatibleMapping T op_desc.type
  if IsInplace op_desc then name ++ "_" else name

/-- `LoopkUpOpInfo(ctx, op_desc)`. -/
def LoopkUpOpInfo (T : Tables) (ctx : IrContext) (op_desc : OpDesc) : Except Failure OpInfo :=
  match ctx.GetRegisteredOpInfo (target_op_name T op_desc) with
  | none => .error .fatal
  | some op_info => .ok op_info

/-! ## Target IR primitives -/

/-- Modelled from the spec: `ir::Operation::Create(inputs, attributes, output_types,
op_info)`; `id` is the identity of the new node. -/
def Operation.Create (id : Nat) (inputs : List OpResult) (attributes : AttributeMap)
    (output_types : List Ty) (op_name : String) : Operation :=
  { id := id, name := op_name, operands := inputs, attributes := attributes,
    output_types := output_types }

/-- Modelled from the spec: `operation->result(index)`, the handle of that result;
an exception when the operation has no result of that index. -/
def Operation.result (operation : Operation) (index : Nat) : Except Failure OpResult :=
  match operation.output_types[index]? with
  | none => .error .fatal
  | some t => .ok (some { owner := operation.id, index := index, type := t })

/-- Modelled from the spec: `program->block()->push_back(operation)`. -/
def TransState.push_back (st : TransState) (operation : Operation) : TransState :=
  { st with block := st.block ++ [operation] }

/-! ## Auxiliary operations -/

/-- `InsertSliceOperationForTarget(ctx, param_map, program, defining_info, arg_name)`. -/
def InsertSliceOperationForTarget (st : TransState) (defining_info : VariableDefiningInfo)
    (arg_name : String) : Except Failure Operation × TransState :=
  let op_attribute_map : AttributeMap :=
    [("index", .Int32Attribute defining_info.idx_in_vector)]
  match defining_info.value with
  | none => (.error .undefined, st)
  | some v =>
    match v.type with
    | .vec src_vec_type =>
      if defining_info.idx_in_vector < 0 then (.error .undefined, st)
      else
        match src_vec_type[defining_info.idx_in_vector.toNat]? with
        | none => (.error .undefined, st)
        | some elem =>
          let operation :=
            Operation.Create st.block.length [some v] op_attribute_map [elem] "builtin.slice"
          let st1 := st.push_back operation
          match operation.result 0 with
          | .error e => (.error e, st1)
          | .ok target_op_result =>
            let info : VariableDefiningInfo := { value := target_op_result }
            (.ok operation, { st1 with param_map := assign st1.param_map arg_name info })
    | _ => (.error .undefined, st)

/-- The loop of `InsertCombineOperationForTarget` collecting `src_values` and
`types_in_vec`. -/
def collectCombineArgs (param_map : TranslationContext) :
    List String → Except Failure (List OpResult × List Ty)
  | [] => .ok ([], [])
  | arg_name :: rest =>
    match param_map.lookup arg_name with
    | none => .error .fatal
    | some defining_info =>
      match defining_info.value with
      | none => .error .undefined
      | some v =>
        match collectCombineArgs param_map rest with
        | .error e => .error e
        | .ok (src_values, types_in_vec) => .ok (some v :: src_values, v.type :: types_in_vec)

/-- `InsertCombineOperationForTarget(ctx, param_map, program, args)`. -/
def InsertCombineOperationForTarget (st : TransState) (args : List String) :
    Except Failure Operation × TransState :=
  match collectCombineArgs st.param_map args with
  | .error e => (.error e, st)
  | .ok (src_values, types_in_vec) =>
    let target_vec_type := Ty.vec types_in_vec
    let operation :=
      Operation.Create st.block.length src_values [] [target_vec_type] "builtin.combine"
    (.ok operation, st.push_back operation)

/-- The `data` and `dtype` that `InsertFullOperationForAttributeInput` derives from
the attribute. -/
def fullOperationData : Attribute → FloatData × DataType
  | .FloatAttribute bits => (.ofFloat bits, .FLOAT32)
  | .DoubleAttribute bits => (.ofDouble bits, .FLOAT64)
  | .Int32Attribute v => (.ofInt32 v, .INT32)
  | .Int64Attribute v => (.ofInt64 v, .INT64)
  | .BoolAttribute b => (.ofBool b, .BOOL)
  | _ => (.zero, .UNDEFINED)

/-- Modelled from the spec: `builder.Build<paddle::dialect::FullOp>(shape, data,
dtype, place)` from the generated `pd_op.h`: a scalar-constant operation of the
given shape whose element type is `dtype`, appended to the block. -/
def BuildFullOp (st : TransState) (shape : List Int) (data : FloatData) (dtype : DataType) :
    Operation × TransState :=
  let operation := Operation.Create st.block.length []
    [("shape", .IntArrayAttribute shape), ("value", .ScalarData data),
     ("dtype", .DataTypeAttribute dtype), ("place", .PlaceAttribute true)]
    [Ty.dense dtype shape] "pd.full"
  (operation, st.push_back operation)

/-- Modelled from the spec: `builder.Build<paddle::dialect::FullIntArrayOp>(value,
dtype, place)` from the generated `pd_op.h`: an array-constant operation holding
the given integers, appended to the block. -/
def BuildFullIntArrayOp (st : TransState) (value : List Int) (dtype : DataType) :
    Operation × TransState :=
  let operation := Operation.Create st.block.length []
    [("value", .IntArrayAttribute value), ("dtype", .DataTypeAttribute dtype),
     ("place", .PlaceAttribute true)]
    [Ty.dense dtype [(value.length : Int)]] "pd.full_int_array"
  (operation, st.push_back operation)

/-- `InsertFullOperationForAttributeInput(ctx, program, attr)`. -/
def InsertFullOperationForAttributeInput (st : TransState) (attr : Attribute) :
    Except Failure Operation × TransState :=
  let (data, dtype) := fullOperationData attr
  let (operation, st1) := BuildFullOp st [1] data dtype
  (.ok operation, st1)

/-- `InsertFullArrayOperationForAttributeInput(ctx, program, attr)`. -/
def InsertFullArrayOperationForAttributeInput (st : TransState) (attr : Attribute) :
    Except Failure Operation × TransState :=
  match attr with
  | .IntArrayAttribute int_array =>
    let (operation, st1) := BuildFullIntArrayOp st int_array .INT64
    (.ok operation, st1)
  | _ => (.error .fatal, st)

/-- `GetAttributeAsInput(ctx, program, op_desc, input_info)`. -/
def GetAttributeAsInput (T : Tables) (st : TransState) (op_desc : OpDesc)
    (input_info : OpInputInfo) : Except Failure OpResult × TransState :=
  let legacy_attr_name := T.GetLegacyAttrName op_desc.type input_info.name
  if !op_desc.HasAttr legacy_attr_name then (.error .fatal, st)
  else
    let legacy_attr := op_desc.GetAttr legacy_attr_name
    let new_attr := T.attribute_translator input_info.type_name legacy_attr
    let is_int_array := contains input_info.type_name "IntArrayAttribute"
    let inserted :=
      if is_int_array then InsertFullArrayOperationForAttributeInput st new_attr
      else InsertFullOperationForAttributeInput st new_attr
    match inserted with
    | (.error e, st1) => (.error e, st1)
    | (.ok defining_op, st1) =>
      match defining_op.result 0 with
      | .error e => (.error e, st1)
      | .ok r => (.ok r, st1)

/-! ## Input resolution -/

/-- The read `(*param_map)[key]`: a key without entry gets a default-constructed
entry first. -/
def subscript (param_map : TranslationContext) (key : String) :
    VariableDefiningInfo × TranslationContext :=
  match param_map.lookup key with
  | some defining_info => (defining_info, param_map)
  | none => ({}, assign param_map key {})

/-- The inner loop of the pre-pass of `GenerateOperationInput` over the names of one
input group. -/
def sliceInputArgs : List String → TransState → Except Failure Unit × TransState
  | [], st => (.ok (), st)
  | arg_name :: rest, st =>
    match st.param_map.lookup arg_name with
    | none => (.error .fatal, st)
    | some defining_info =>
      if defining_info.generated_by_vector then
        match InsertSliceOperationForTarget st defining_info arg_name with
        | (.error e, st1) => (.error e, st1)
        | (.ok _, st1) => sliceInputArgs rest st1
      else sliceInputArgs rest st

/-- The pre-pass of `GenerateOperationInput` over `op_desc.Inputs()`. -/
def sliceInputGroups : List (String × List String) → TransState →
    Except Failure Unit × TransState
  | [], st => (.ok (), st)
  | (_, args) :: rest, st =>
    match sliceInputArgs args st with
    | (.error e, st1) => (.error e, st1)
    | (.ok _, st1) => sliceInputGroups rest st1

/-- The search through `candidate_var_names` in `GenerateOperationInput`: the group
of the first candidate that the descriptor has with at least one name. -/
def findCandidateVar (op_desc : OpDesc) : List String → Option (List String)
  | [] => none
  | var_name :: rest =>
    if op_desc.HasInput var_name then
      let legacy_input_vars := op_desc.Input var_name
      if legacy_input_vars.length = 0 then findCandidateVar op_desc rest
      else some legacy_input_vars
    else findCandidateVar op_desc rest

/-- The flag `is_vector` of an input slot. -/
def inputIsVector (info : OpInputInfo) : Bool :=
  contains info.type_name "VectorType" || contains info.type_name "IntArrayAttribute"

/-- The tail of the body of the slot loop of `GenerateOperationInput`: bind the
resolved names either directly or through a combine operation. -/
def bindInputVars (info : OpInputInfo) (legacy_input_vars : List String) (st : TransState) :
    Except Failure OpResult × TransState :=
  if !inputIsVector info then
    match legacy_input_vars with
    | [] => (.error .undefined, st)
    | var0 :: _ =>
      let (defining_info, param_map) := subscript st.param_map var0
      (.ok defining_info.value, { st with param_map := param_map })
  else
    match InsertCombineOperationForTarget st legacy_input_vars with
    | (.error e, st1) => (.error e, st1)
    | (.ok combine_op, st1) =>
      match combine_op.result 0 with
      | .error e => (.error e, st1)
      | .ok r => (.ok r, st1)

/-- The test `mutable_attributes != nullptr && mutable_attributes->count(name) != 0`. -/
def isMutableAttribute (T : Tables) (op_desc : OpDesc) (name : String) : Bool :=
  match T.GetMutableAttributes op_desc.type with
  | none => false
  | some mutable_attributes => mutable_attributes.contains name

/-- The names `legacy_input_vars` that a slot starts from: the slot's own group when
the descriptor has it. -/
def ownInputVars (T : Tables) (op_desc : OpDesc) (info : OpInputInfo) : List String :=
  let legacy_input_name := T.GetLegacyArgName op_desc.type info.name
  if op_desc.HasInput legacy_input_name then op_desc.Input legacy_input_name else []

/-- The body of the slot loop of `GenerateOperationInput` for one schema input
slot: the operand pushed to `op_inputs` and the state afterwards. -/
def resolveInputSlot (T : Tables) (op_desc : OpDesc) (info : OpInputInfo) (st : TransState) :
    Except Failure OpResult × TransState :=
  let legacy_input_vars := ownInputVars T op_desc info
  if legacy_input_vars.length = 0 ∧ info.optional = true then (.ok none, st)
  else if legacy_input_vars.length = 0 ∧ isMutableAttribute T op_desc info.name = true then
    let candidate_var_names := T.GetMutableAttributeInfos op_desc.type info.name
    match findCandidateVar op_desc candidate_var_names with
    | none => GetAttributeAsInput T st op_desc info
    | some found_vars => bindInputVars info found_vars st
  else bindInputVars info legacy_input_vars st

/-- The slot loop of `GenerateOperationInput`, accumulating `op_inputs`. -/
def resolveInputSlots (T : Tables) (op_desc : OpDesc) :
    List OpInputInfo → List OpResult → TransState → Except Failure (List OpResult) × TransState
  | [], op_inputs, st => (.ok op_inputs, st)
  | info :: rest, op_inputs, st =>
    match resolveInputSlot T op_desc info st with
    | (.error e, st1) => (.error e, st1)
    | (.ok r, st1) => resolveInputSlots T op_desc rest (op_inputs ++ [r]) st1

/-- `GenerateOperationInput(ctx, param_map, program, op_desc, name, input_infos)`. -/
def GenerateOperationInput (T : Tables) (st : TransState) (op_desc : OpDesc)
    (input_infos : List OpInputInfo) : Except Failure (List OpResult) × TransState :=
  match sliceInputGroups op_desc.inputs st with
  | (.error e, st1) => (.error e, st1)
  | (.ok _, st1) => resolveInputSlots T op_desc input_infos [] st1

/-! ## Output resolution -/

/-- The map `OpOutputMapping` from variable name to result index. -/
abbrev OpOutputMapping := List (String × Nat)

/-- The steps `block->FindVarRecursive(var_name)` and
`type_translator[var->GetType()](ctx, *var)`. -/
def translateVarType (T : Tables) (op_desc : OpDesc) (var_name : String) : Except Failure Ty :=
  match op_desc.FindVarRecursive var_name with
  | none => .error .undefined
  | some var =>
    match T.type_translator var with
    | none => .error .fatal
    | some translated_var_type => .ok translated_var_type

/-- The loop of `GenerateOperationOutput` over the names of an aggregate slot. -/
def translateOutputVars (T : Tables) (op_desc : OpDesc) (cur_output_idx : Nat) :
    List String → List Ty → OpOutputMapping → Except Failure (List Ty × OpOutputMapping)
  | [], types, arg_to_idx => .ok (types, arg_to_idx)
  | var_name :: rest, types, arg_to_idx =>
    match translateVarType T op_desc var_name with
    | .error e => .error e
    | .ok translated_var_type =>
      translateOutputVars T op_desc cur_output_idx rest (types ++ [translated_var_type])
        (assign arg_to_idx var_name cur_output_idx)

/-- The flag `is_vector` of an output slot. -/
def outputIsVector (info : OpOutputInfo) : Bool :=
  contains info.type_name "VectorType"

/-- The body of the slot loop of `GenerateOperationOutput` for one schema output
slot. -/
def resolveOutputSlot (T : Tables) (op_desc : OpDesc) (info : OpOutputInfo)
    (op_output_types : List Ty) (arg_to_idx : OpOutputMapping) :
    Except Failure (List Ty × OpOutputMapping) :=
  let cur_output_idx := op_output_types.length
  let legacy_output_name := T.GetLegacyArgName op_desc.type info.name
  if !op_desc.HasOutput legacy_output_name then
    if info.optional then .ok (op_output_types ++ [Ty.null], arg_to_idx)
    else .error .fatal
  else
    let legacy_output_vars := op_desc.Output legacy_output_name
    if !outputIsVector info then
      match legacy_output_vars with
      | [] => .ok (op_output_types ++ [Ty.null], arg_to_idx)
      | var_name :: _ =>
        match translateVarType T op_desc var_name with
        | .error e => .error e
        | .ok translated_var_type =>
          .ok (op_output_types ++ [translated_var_type],
            assign arg_to_idx var_name cur_output_idx)
    else
      match translateOutputVars T op_desc cur_output_idx legacy_output_vars [] arg_to_idx with
      | .error e => .error e
      | .ok (types, arg_to_idx1) => .ok (op_output_types ++ [Ty.vec types], arg_to_idx1)

/-- The slot loop of `GenerateOperationOutput`. -/
def resolveOutputSlots (T : Tables) (op_desc : OpDesc) :
    List OpOutputInfo → List Ty → OpOutputMapping → Except Failure (List Ty × OpOutputMapping)
  | [], op_output_types, arg_to_idx => .ok (op_output_types, arg_to_idx)
  | info :: rest, op_output_types, arg_to_idx =>
    match resolveOutputSlot T op_desc info op_output_types arg_to_idx with
    | .error e => .error e
    | .ok (types1, arg_to_idx1) => resolveOutputSlots T op_desc rest types1 arg_to_idx1

/-- `GenerateOperationOutput(ctx, op_desc, output_infos)`. -/
def GenerateOperationOutput (T : Tables) (op_desc : OpDesc) (output_infos : List OpOutputInfo) :
    Except Failure (List Ty × OpOutputMapping) :=
  resolveOutputSlots T op_desc output_infos [] []

/-! ## Attribute resolution -/

/-- The loop of `TranslateOpAttribute`. -/
def translateAttributes (T : Tables) (op_desc : OpDesc) :
    List OpAttributeInfo → AttributeMap → AttributeMap
  | [], attribute_map => attribute_map
  | info :: rest, attribute_map =>
    let legacy_attr_name := T.GetLegacyAttrName op_desc.type info.name
    let legacy_attr :=
      if op_desc.HasAttr legacy_attr_name then op_desc.GetAttr legacy_attr_name
      else LegacyAttr.blank
    let new_attr := T.attribute_translator info.type_name legacy_attr
    translateAttributes T op_desc rest (assign attribute_map info.name new_attr)

/-- `TranslateOpAttribute(normalized_op_name, op_attr_infos, op_desc)`. -/
def TranslateOpAttribute (T : Tables) (op_attr_infos : List OpAttributeInfo)
    (op_desc : OpDesc) : AttributeMap :=
  translateAttributes T op_desc op_attr_infos []

/-! ## Result recording -/

/-- The inner loop of `RecordOpResultMapping` over the names of one output group;
`idx_in_vector` counts the names already visited in the group (a position in a
group is far below `2^31`, so storing the counter in the `int` field is exact). -/
def recordOutputArgs (operation : Operation) (arg_to_idx : OpOutputMapping) :
    List String → Nat → TranslationContext → Except Failure Unit × TranslationContext
  | [], _, param_map => (.ok (), param_map)
  | arg_name :: rest, idx_in_vector, param_map =>
    match arg_to_idx.lookup arg_name with
    | none => (.error .fatal, param_map)
    | some idx =>
      match operation.result idx with
      | .error e => (.error e, param_map)
      | .ok none => (.error .undefined, param_map)
      | .ok (some value) =>
        let generated_by_vector := value.type.isVector
        let info : VariableDefiningInfo :=
          { value := some value, generated_by_vector := generated_by_vector,
            idx_in_vector := if generated_by_vector then (idx_in_vector : Int) else -1 }
        recordOutputArgs operation arg_to_idx rest (idx_in_vector + 1)
          (assign param_map arg_name info)

/-- The outer loop of `RecordOpResultMapping` over `op_desc.Outputs()`. -/
def recordOutputGroups (operation : Operation) (arg_to_idx : OpOutputMapping) :
    List (String × List String) → TranslationContext → Except Failure Unit × TranslationContext
  | [], param_map => (.ok (), param_map)
  | (_, args) :: rest, param_map =>
    match recordOutputArgs operation arg_to_idx args 0 param_map with
    | (.error e, param_map1) => (.error e, param_map1)
    | (.ok _, param_map1) => recordOutputGroups operation arg_to_idx rest param_map1

/-- `RecordOpResultMapping(param_map, op_desc, operation, arg_to_idx)`. -/
def RecordOpResultMapping (st : TransState) (op_desc : OpDesc) (operation : Operation)
    (arg_to_idx : OpOutputMapping) : Except Failure Unit × TransState :=
  match recordOutputGroups operation arg_to_idx op_desc.outputs st.param_map with
  | (r, param_map) => (r, { st with param_map := param_map })

/-! ## Handlers -/

/-- `GeneralOpHandler(ctx, param_map, program, op_desc)`. -/
def GeneralOpHandler (T : Tables) (ctx : IrContext) (st : TransState) (op_desc : OpDesc) :
    Except Failure Operation × TransState :=
  match LoopkUpOpInfo T ctx op_desc with
  | .error e => (.error e, st)
  | .ok op_info =>
    match GenerateOperationInput T st op_desc op_info.input_infos with
    | (.error e, st1) => (.error e, st1)
    | (.ok op_inputs, st1) =>
      match GenerateOperationOutput T op_desc op_info.output_infos with
      | .error e => (.error e, st1)
      | .ok (op_output_types, arg_to_idx) =>
        let attribute_map := TranslateOpAttribute T op_info.attr_infos op_desc
        let operation := Operation.Create st1.block.length op_inputs attribute_map
          op_output_types op_info.name
        let st2 := st1.push_back operation
        match RecordOpResultMapping st2 op_desc operation arg_to_idx with
        | (.error e, st3) => (.error e, st3)
        | (.ok _, st3) => (.ok operation, st3)

/-- `FeedOpHandler(ctx, param_map, program, op_desc)`. -/
def FeedOpHandler (T : Tables) (ctx : IrContext) (st : TransState) (op_desc : OpDesc) :
    Except Failure Operation × TransState :=
  match LoopkUpOpInfo T ctx op_desc with
  | .error e => (.error e, st)
  | .ok op_info =>
    let op_inputs : List OpResult := []
    match GenerateOperationOutput T op_desc op_info.output_infos with
    | .error e => (.error e, st)
    | .ok (op_output_types, arg_to_idx) =>
      match op_desc.OutputArgumentNames with
      | [] => (.error .undefined, st)
      | name0 :: _ =>
        match op_desc.GetAttrIfExistsInt "col" with
        | .error e => (.error e, st)
        | .ok col =>
          let attribute_map : AttributeMap :=
            [("name", .StrAttribute name0), ("col", .Int32Attribute col)]
          let operation := Operation.Create st.block.length op_inputs attribute_map
            op_output_types op_info.name
          let st2 := st.push_back operation
          match RecordOpResultMapping st2 op_desc operation arg_to_idx with
          | (.error e, st3) => (.error e, st3)
          | (.ok _, st3) => (.ok operation, st3)

/-- `FetchOpHandler(ctx, param_map, program, op_desc)`. -/
def FetchOpHandler (T : Tables) (ctx : IrContext) (st : TransState) (op_desc : OpDesc) :
    Except Failure Operation × TransState :=
  match LoopkUpOpInfo T ctx op_desc with
  | .error e => (.error e, st)
  | .ok op_info =>
    match GenerateOperationInput T st op_desc op_info.input_infos with
    | (.error e, st1) => (.error e, st1)
    | (.ok op_inputs, st1) =>
      match op_desc.InputArgumentNames with
      | [] => (.error .undefined, st1)
      | name0 :: _ =>
        let attribute_map : AttributeMap := [("name", .StrAttribute name0)]
        match op_inputs with
        | [] => (.error .undefined, st1)
        | none :: _ => (.error .undefined, st1)
        | some input0 :: _ =>
          let op_output_types := [input0.type]
          let operation := Operation.Create st1.block.length op_inputs attribute_map
            op_output_types op_info.name
          (.ok operation, st1.push_back operation)

/-- The handlers an operation type can be dispatched to. -/
inductive HandlerKind where
  | general
  | feed
  | fetch
  deriving DecidableEq, Repr

/-- The registry built by the constructor `OpTranslator::OpTranslator()`: the
special handlers of `feed` and `fetch_v2`, the general handler otherwise (the
lookup itself is declared in `op_translator.h`). -/
def OpTranslator (op_type : String) : HandlerKind :=
  if op_type == "feed" then .feed
  else if op_type == "fetch_v2" then .fetch
  else .general

/-- Run the handler of the given kind. -/
def runHandler (kind : HandlerKind) (T : Tables) (ctx : IrContext) (st : TransState)
    (op_desc : OpDesc) : Except Failure Operation × TransState :=
  match kind with
  | .general => GeneralOpHandler T ctx st op_desc
  | .feed => FeedOpHandler T ctx st op_desc
  | .fetch => FetchOpHandler T ctx st op_desc


/-! ## Predicates on the environment -/

/-- The name is aggregate-bound: it has an entry with `generated_by_vector` set. -/
def isAggregateBound (param_map : TranslationContext) (name : String) : Bool :=
  match param_map.lookup name with
  | some defining_info => defining_info.generated_by_vector
  | none => false

/-- The name is singleton-bound: it has an entry with `generated_by_vector` clear. -/
def isSingletonBound (param_map : TranslationContext) (name : String) : Bool :=
  match param_map.lookup name with
  | some defining_info => !defining_info.generated_by_vector
  | none => false

/-- The defining info can be sliced: its value is a handle of aggregate type and
its index is a position inside that type. -/
def isSliceable (defining_info : VariableDefiningInfo) : Bool :=
  match defining_info.value with
  | some v =>
    match v.type with
    | .vec elems =>
      decide (0 ≤ defining_info.idx_in_vector) &&
        (elems[defining_info.idx_in_vector.toNat]?).isSome
    | _ => false
  | none => false

/-- The block of `st1` extends the block of `st` by operations that are no slice
operations, and every entry of the environment of `st` is still there. -/
def ExtendsWithoutSlice (st st1 : TransState) : Prop :=
  (∃ extra, st1.block = st.block ++ extra ∧ ∀ op ∈ extra, op.name ≠ "builtin.slice") ∧
    ∀ n info, st.param_map.lookup n = some info → st1.param_map.lookup n = some info

/-- The name is bound to a result of the operation: its entry holds a handle that
`operation->result` gives for the handle's own index. -/
def BoundToResultOf (operation : Operation) (param_map : TranslationContext)
    (name : String) : Prop :=
  ∃ info v, param_map.lookup name = some info ∧ info.value = some v ∧
    operation.result v.index = .ok (some v)

/-- The entry of the name, if there is one, is sound: when it is aggregate-bound it
can be sliced. -/
def isSoundEntry (param_map : TranslationContext) (name : String) : Bool :=
  match param_map.lookup name with
  | some defining_info => !defining_info.generated_by_vector || isSliceable defining_info
  | none => true

/-- The operation is an auxiliary one: a slice, a combine or a constant. -/
def isAuxiliary (op : Operation) : Bool :=
  op.name == "builtin.slice" || op.name == "builtin.combine" || op.name == "pd.full" ||
    op.name == "pd.full_int_array"

/-- The block of `st1` is the block of `st` followed by auxiliary operations. -/
def AppendsAuxiliary (st st1 : TransState) : Prop :=
  ∃ extra, st1.block = st.block ++ extra ∧ ∀ op ∈ extra, isAuxiliary op = true

/-! ## Predicates on the block -/

/-- The value is a result of the operation: the operation owns it and gives this
very handle for the handle's index. -/
def isResultOf (v : Value) (op : Operation) : Bool :=
  decide (op.result v.index = .ok (some v))

/-- The handle is null or a result of an operation of the block. -/
def isDefinedIn (block : List Operation) (r : OpResult) : Bool :=
  match r with
  | none => true
  | some v => block.any (isResultOf v)

/-- Every non-null operand of every operation of `rest` is a result of an operation
placed before it, where `earlier` holds the operations placed before `rest`. -/
def operandsPrecede : List Operation → List Operation → Bool
  | _, [] => true
  | earlier, op :: rest =>
    op.operands.all (isDefinedIn earlier) && operandsPrecede (earlier ++ [op]) rest

/-- Every non-null operand of every operation of the block is a result of an
operation placed earlier in the block. -/
def isWellFormedBlock (block : List Operation) : Bool := operandsPrecede [] block

/-- Every value bound in the environment is a result of an operation of the block. -/
def isWellFormedEnv (st : TransState) : Bool :=
  st.param_map.all (fun entry =>
    match st.param_map.lookup entry.1 with
    | some defining_info => isDefinedIn st.block defining_info.value
    | none => true)

/-- The operations of `rest` carry the identities `start`, `start + 1`, ... -/
def idsArePositions : Nat → List Operation → Bool
  | _, [] => true
  | start, op :: rest => decide (op.id = start) && idsArePositions (start + 1) rest

/-- The state `st1` has a well-formed environment, and its block is the block of
`st` followed by operations that carry their positions as identities and whose
operands are results of operations placed before them. -/
def GrowsWellFormed (st st1 : TransState) : Prop :=
  isWellFormedEnv st1 = true ∧
    ∃ extra, st1.block = st.block ++ extra ∧ operandsPrecede st.block extra = true ∧
      idsArePositions st.block.length extra = true

/-! ## Names recorded by output resolution -/

/-- The names to which the body of the slot loop of `GenerateOperationOutput` gives
the position of the slot in `arg_to_idx`: none when the descriptor lacks the group
of the slot, the first name of the group for a singleton-class slot, every name
of the group for an aggregate-class slot. -/
def recordedNames (T : Tables) (op_desc : OpDesc) (info : OpOutputInfo) : List String :=
  let legacy_output_name := T.GetLegacyArgName op_desc.type info.name
  if !op_desc.HasOutput legacy_output_name then []
  else
    let legacy_output_vars := op_desc.Output legacy_output_name
    if !outputIsVector info then legacy_output_vars.take 1 else legacy_output_vars

/-! ## Example inputs -/

/-- A conversion of legacy attributes in the manner of `AttributeTranslator`: an
integer-array tag converts integer lists only, any other tag converts by the
alternative the legacy attribute holds; what cannot be converted gives the empty
attribute. -/
def exAttributeTranslator (type_name : String) (legacy_attr : LegacyAttr) : Attribute :=
  if contains type_name "IntArrayAttribute" then
    match legacy_attr with
    | .ints vs => .IntArrayAttribute vs
    | .longs vs => .IntArrayAttribute vs
    | _ => .null
  else
    match legacy_attr with
    | .boolean b => .BoolAttribute b
    | .int v => .Int32Attribute v
    | .long v => .Int64Attribute v
    | .float bits => .FloatAttribute bits
    | .double bits => .DoubleAttribute bits
    | .str s => .StrAttribute s
    | _ => .null

/-- Example tables: names are kept as they are, `reshape` has the mutable attribute
`shape` with candidates `ShapeTensor` and `Shape`, `scale` has the mutable
attribute `scale` with candidate `ScaleTensor`, every variable translates to a
dense tensor type of its shape. -/
def exTables : Tables :=
  { op_normalizer := fun n => n
    GetLegacyArgName := fun _ n => n
    GetLegacyAttrName := fun _ n => n
    GetMutableAttributes := fun t =>
      if t == "reshape" then some ["shape"]
      else if t == "scale" then some ["scale"]
      else none
    GetMutableAttributeInfos := fun t n =>
      if t == "reshape" && n == "shape" then ["ShapeTensor", "Shape"]
      else if t == "scale" && n == "scale" then ["ScaleTensor"]
      else []
    attribute_translator := exAttributeTranslator
    type_translator := fun v => some (.dense .FLOAT32 v.shape) }

/-- A tensor value produced by operation `n`. -/
def exValue (n : Nat) : Value := { owner := n, index := 0, type := .dense .FLOAT32 [2] }

/-- The empty state. -/
def exEmptyState : TransState := { block := [], param_map := [] }

/-- A `concat` descriptor without any input group. -/
def exConcatNoInput : OpDesc :=
  { type := "concat", inputs := [], outputs := [("Out", ["y"])], attrs := [], block := [] }

/-- A required aggregate-class input slot. -/
def exVectorSlot : OpInputInfo :=
  { name := "x", type_name := "ir::VectorType<paddle::dialect::DenseTensorType>",
    optional := false }

/-- A required singleton-class input slot. -/
def exTensorSlot : OpInputInfo :=
  { name := "x", type_name := "paddle::dialect::DenseTensorType", optional := false }

/-- A state with two operations whose results are bound to `x` and `s`. -/
def exState2 : TransState :=
  { block :=
      [Operation.Create 0 [] [] [.dense .FLOAT32 [2]] "pd.feed",
       Operation.Create 1 [] [] [.dense .FLOAT32 [2]] "pd.feed"]
    param_map := [("x", { value := some (exValue 0) }), ("s", { value := some (exValue 1) })] }

/-- The mutable-attribute slot `shape` of `reshape` (integer-array-typed). -/
def exShapeSlot : OpInputInfo :=
  { name := "shape", type_name := "paddle::dialect::IntArrayAttribute", optional := false }

/-- The mutable-attribute slot `scale` of `scale` (scalar-typed). -/
def exScaleSlot : OpInputInfo :=
  { name := "scale", type_name := "paddle::dialect::ScalarAttribute", optional := false }

/-- A `reshape` descriptor that gives the shape by the candidate tensor argument. -/
def exReshapeByTensor : OpDesc :=
  { type := "reshape", inputs := [("ShapeTensor", ["s"]), ("X", ["x"])],
    outputs := [("Out", ["y"])], attrs := [], block := [] }

/-- A `reshape` descriptor that gives the shape by a static integer list. -/
def exReshapeByAttr : OpDesc :=
  { type := "reshape", inputs := [("X", ["x"])], outputs := [("Out", ["y"])],
    attrs := [("shape", .ints [2, 3])], block := [] }

/-- A `reshape` descriptor whose static attribute `shape` holds a string. -/
def exReshapeByString : OpDesc :=
  { type := "reshape", inputs := [("X", ["x"])], outputs := [("Out", ["y"])],
    attrs := [("shape", .str "2,3")], block := [] }

/-- A `scale` descriptor that gives the factor by the candidate tensor argument. -/
def exScaleByTensor : OpDesc :=
  { type := "scale", inputs := [("ScaleTensor", ["s"]), ("X", ["x"])],
    outputs := [("Out", ["y"])], attrs := [], block := [] }

/-- A `concat` descriptor over the two variables of `exState2`. -/
def exConcat : OpDesc :=
  { type := "concat", inputs := [("X", ["x", "s"])], outputs := [("Out", ["y"])],
    attrs := [], block := [] }

/-- The aggregate-class input slot `X` of `concat`. -/
def exConcatSlot : OpInputInfo :=
  { name := "X", type_name := "ir::VectorType<paddle::dialect::DenseTensorType>",
    optional := false }

/-- The optional variant of the slot `scale`. -/
def exOptionalScaleSlot : OpInputInfo :=
  { name := "scale", type_name := "paddle::dialect::ScalarAttribute", optional := true }

/-- An aggregate value of two elements, result 0 of operation 0. -/
def exAggregate : Value :=
  { owner := 0, index := 0, type := .vec [.dense .FLOAT32 [2], .dense .INT64 [3]] }

/-- A state whose single operation produces `exAggregate`; `a` and `b` are bound to
its elements 0 and 1, which have not been sliced yet. -/
def exAggState : TransState :=
  { block :=
      [Operation.Create 0 [] [] [.vec [.dense .FLOAT32 [2], .dense .INT64 [3]]] "pd.split"]
    param_map :=
      [("a", { value := some exAggregate, generated_by_vector := true, idx_in_vector := 0 }),
       ("b", { value := some exAggregate, generated_by_vector := true, idx_in_vector := 1 })] }

/-- An `add` descriptor that consumes `b` twice and `a` once. -/
def exAddDesc : OpDesc :=
  { type := "elementwise_add", inputs := [("X", ["b"]), ("Y", ["b", "a"])],
    outputs := [("Out", ["c"])], attrs := [], block := [] }

/-- The input slots of `exAddDesc`. -/
def exAddSlots : List OpInputInfo :=
  [{ name := "X", type_name := "paddle::dialect::DenseTensorType", optional := false },
   { name := "Y", type_name := "ir::VectorType<paddle::dialect::DenseTensorType>",
     optional := false }]

/-- The operands that input resolution of `exAddDesc` gives from `exAggState`. -/
def exAddOperands : List OpResult :=
  [some ⟨1, 0, .dense .INT64 [3]⟩, some ⟨3, 0, .vec [.dense .INT64 [3], .dense .FLOAT32 [2]]⟩]

/-- The state after input resolution of `exAddDesc` from `exAggState`: one slice for
`b`, one slice for `a`, one combine for the slot `Y`. -/
def exAddStateAfter : TransState :=
  { block := exAggState.block ++
      [Operation.Create 1 [some exAggregate] [("index", .Int32Attribute 1)]
         [.dense .INT64 [3]] "builtin.slice",
       Operation.Create 2 [some exAggregate] [("index", .Int32Attribute 0)]
         [.dense .FLOAT32 [2]] "builtin.slice",
       Operation.Create 3 [some ⟨1, 0, .dense .INT64 [3]⟩, some ⟨2, 0, .dense .FLOAT32 [2]⟩]
         [] [.vec [.dense .INT64 [3], .dense .FLOAT32 [2]]] "builtin.combine"]
    param_map :=
      [("a", { value := some ⟨2, 0, .dense .FLOAT32 [2]⟩ }),
       ("b", { value := some ⟨1, 0, .dense .INT64 [3]⟩ })] }

/-- A `split` descriptor whose output group names `x`, bound before, and `w`. -/
def exSplitDesc : OpDesc :=
  { type := "split", inputs := [("X", ["s"])], outputs := [("Out", ["x", "w"])], attrs := [],
    block := [[{ name := "x", type := 7, dtype := 5, shape := [2] },
               { name := "w", type := 7, dtype := 5, shape := [3] }]] }

/-- An operation with one result of aggregate type, as if appended to `exState2`. -/
def exSplitOp : Operation :=
  Operation.Create 2 [some (exValue 1)] [] [.vec [.dense .FLOAT32 [2], .dense .FLOAT32 [3]]]
    "pd.split"

/-- The name-to-index map of `exSplitDesc`. -/
def exSplitMap : OpOutputMapping := [("x", 0), ("w", 0)]

/-- A `relu` descriptor from `x` to the declared variable `y`. -/
def exReluDesc : OpDesc :=
  { type := "relu", inputs := [("X", ["x"])], outputs := [("Out", ["y"])], attrs := [],
    block := [[{ name := "y", type := 7, dtype := 5, shape := [2] }]] }

/-- A `fetch_v2` descriptor that fetches `x` into `fetch_out`. -/
def exFetchDesc : OpDesc :=
  { type := "fetch_v2", inputs := [("X", ["x"])], outputs := [("Out", ["fetch_out"])],
    attrs := [("col", .int 0)], block := [] }

/-- A registry with the schemas of `pd.relu` and `pd.fetch_v2`. -/
def exContext : IrContext :=
  { registry :=
      [{ name := "pd.relu",
         input_infos :=
           [{ name := "X", type_name := "paddle::dialect::DenseTensorType", optional := false }],
         attr_infos := [],
         output_infos :=
           [{ name := "Out", type_name := "paddle::dialect::DenseTensorType",
              optional := false }] },
       { name := "pd.fetch_v2",
         input_infos :=
           [{ name := "X", type_name := "paddle::dialect::DenseTensorType", optional := false }],
         attr_infos := [{ name := "name", type_name := "ir::StrAttribute" }],
         output_infos :=
           [{ name := "Out", type_name := "paddle::dialect::DenseTensorType",
              optional := false }] }] }

/-- The operation that the general handler creates for `exReluDesc` from `exState2`. -/
def exReluOp : Operation :=
  Operation.Create 2 [some (exValue 0)] [] [.dense .FLOAT32 [2]] "pd.relu"

/-- The operation that the fetch handler creates for `exFetchDesc` from `exState2`. -/
def exFetchOp : Operation :=
  Operation.Create 2 [some (exValue 0)] [("name", .StrAttribute "x")] [.dense .FLOAT32 [2]]
    "pd.fetch_v2"

/-- An optional output slot `Mask`, for which `exReluDesc` has no group. -/
def exMaskSlot : OpOutputInfo :=
  { name := "Mask", type_name := "paddle::dialect::DenseTensorType", optional := true }

/-- The required output slot `Out`. -/
def exOutSlot : OpOutputInfo :=
  { name := "Out", type_name := "paddle::dialect::DenseTensorType", optional := false }

/-- A registry without any schema. -/
def exEmptyContext : IrContext := { registry := [] }

/-- A descriptor that consumes `b`, aggregate-bound in `exAggState`, and then `q`,
which has no entry there. -/
def exMissingInputDesc : OpDesc :=
  { type := "elementwise_add", inputs := [("X", ["b"]), ("Y", ["q"])],
    outputs := [("Out", ["c"])], attrs := [], block := [] }

/-- A `scale` descriptor that gives the factor by the static attribute `scale`. -/
def exScaleByAttr : OpDesc :=
  { type := "scale", inputs := [("X", ["x"])], outputs := [("Out", ["y"])],
    attrs := [("scale", .float 1084227584)], block := [] }

/-- Attribute slots of a schema: `scale`, which `exReluDesc` does not carry, and
`bias`. -/
def exAttrSlots : List OpAttributeInfo :=
  [{ name := "scale", type_name := "ir::FloatAttribute" },
   { name := "bias", type_name := "ir::FloatAttribute" }]

/-- A required output slot `Mask`, for which `exReluDesc` has no group. -/
def exRequiredMaskSlot : OpOutputInfo :=
  { name := "Mask", type_name := "paddle::dialect::DenseTensorType", optional := false }

/-- The aggregate-class output slot `Out` of `split`. -/
def exSplitOutSlot : OpOutputInfo :=
  { name := "Out", type_name := "ir::VectorType<paddle::dialect::DenseTensorType>",
    optional := false }

/-- The descriptor `exAddDesc` with its output `c` declared. -/
def exAddDeclared : OpDesc :=
  { type := "elementwise_add", inputs := [("X", ["b"]), ("Y", ["b", "a"])],
    outputs := [("Out", ["c"])], attrs := [],
    block := [[{ name := "c", type := 7, dtype := 5, shape := [3] }]] }

/-- A registry with the schema of `pd.elementwise_add`. -/
def exAddContext : IrContext :=
  { registry :=
      [{ name := "pd.elementwise_add", input_infos := exAddSlots, attr_infos := [],
         output_infos := [exOutSlot] }] }

/-- The operation that the general handler creates for `exAddDeclared` from
`exAggState`. -/
def exAddOp : Operation :=
  Operation.Create 4 exAddOperands [] [.dense .FLOAT32 [3]] "pd.elementwise_add"

/-- An optional aggregate-class output slot `Mask`, for which `exReluDesc` has no
group. -/
def exOptionalVectorSlot : OpOutputInfo :=
  { name := "Mask", type_name := "ir::VectorType<paddle::dialect::DenseTensorType>",
    optional := true }

/-- A descriptor whose output groups `Out` and `XShape` name the same variable. -/
def exSharedOutputDesc : OpDesc :=
  { type := "reshape2", inputs := [("X", ["x"])], outputs := [("Out", ["y"]), ("XShape", ["y"])],
    attrs := [], block := [[{ name := "y", type := 7, dtype := 5, shape := [2] }]] }

/-- The singleton-class output slot `XShape`. -/
def exXShapeSlot : OpOutputInfo :=
  { name := "XShape", type_name := "paddle::dialect::DenseTensorType", optional := false }

/-- The state after the general handler has translated `exAddDeclared` from
`exAggState`. -/
def exAddFinalState : TransState :=
  { block := exAddStateAfter.block ++ [exAddOp],
    param_map := exAddStateAfter.param_map ++
      [("c", { value := some ⟨4, 0, .dense .FLOAT32 [3]⟩ })] }

/-- A block whose first operation consumes a result of the second. -/
def exForwardReference : List Operation :=
  [Operation.Create 0 [some ⟨1, 0, .dense .FLOAT32 [2]⟩] [] [.dense .FLOAT32 [2]] "pd.relu",
   Operation.Create 1 [] [] [.dense .FLOAT32 [2]] "pd.feed"]

/-- The schema of `pd.relu` in `exContext`. -/
def exReluInfo : OpInfo :=
  { name := "pd.relu",
    input_infos :=
      [{ name := "X", type_name := "paddle::dialect::DenseTensorType", optional := false }],
    attr_infos := [], output_infos := [exOutSlot] }

/-- A `relu` descriptor with the output group `Mask`, to which no output slot of
`exReluInfo` maps; the name `q` of that group is in no other group. -/
def exUnmappedDesc : OpDesc :=
  { type := "relu", inputs := [("X", ["x"])], outputs := [("Mask", ["q"]), ("Out", ["y"])],
    attrs := [], block := [[{ name := "y", type := 7, dtype := 5, shape := [2] }]] }

/-- The required singleton-class input slot `X`. -/
def exXSlot : OpInputInfo :=
  { name := "X", type_name := "paddle::dialect::DenseTensorType", optional := false }

/-- A schema of `pd.reshape2` whose only output slot is `Out`. -/
def exReshapeInfo : OpInfo :=
  { name := "pd.reshape2", input_infos := [exXSlot], attr_infos := [],
    output_infos := [exOutSlot] }

/-- A schema of `pd.unbind` with the singleton-class output slots `Out` and `XShape`. -/
def exUnbindInfo : OpInfo :=
  { name := "pd.unbind", input_infos := [exXSlot], attr_infos := [],
    output_infos := [exOutSlot, exXShapeSlot] }

/-- A registry with the schemas `exReshapeInfo` and `exUnbindInfo`. -/
def exReshapeContext : IrContext := { registry := [exReshapeInfo, exUnbindInfo] }

/-- An `unbind` descriptor whose group `Out` has the second name `z`, which is also
the name of the group `XShape`. -/
def exSecondNameDesc : OpDesc :=
  { type := "unbind", inputs := [("X", ["x"])],
    outputs := [("Out", ["y", "z"]), ("XShape", ["z"])],
    attrs := [],
    block := [[{ name := "y", type := 7, dtype := 5, shape := [2] },
               { name := "z", type := 7, dtype := 5, shape := [3] }]] }

/-- The state in which the general handler stops on `exUnmappedDesc` from
`exState2`: the translated operation is appended and no name is recorded yet. -/
def exUnmappedFailState : TransState :=
  { block := exState2.block ++ [exReluOp], param_map := exState2.param_map }

/-- The aggregate-class output slot `Z`. -/
def exZSlot : OpOutputInfo :=
  { name := "Z", type_name := "ir::VectorType<paddle::dialect::DenseTensorType>",
    optional := false }

/-- The aggregate-class output slot `A`. -/
def exASlot : OpOutputInfo :=
  { name := "A", type_name := "ir::VectorType<paddle::dialect::DenseTensorType>",
    optional := false }

/-- A schema of `pd.unstack` with the aggregate-class output slots `Z` and `A`, in
this order. -/
def exUnstackInfo : OpInfo :=
  { name := "pd.unstack", input_infos := [exXSlot], attr_infos := [],
    output_infos := [exZSlot, exASlot] }

/-- A registry with the schema `exUnstackInfo`. -/
def exUnstackContext : IrContext := { registry := [exUnstackInfo] }

/-- An `unstack` descriptor whose output groups `A` and `Z` both name `xx`. -/
def exUnstackDesc : OpDesc :=
  { type := "unstack", inputs := [("X", ["x"])],
    outputs := [("A", ["xx"]), ("Z", ["w", "xx"])], attrs := [],
    block := [[{ name := "xx", type := 7, dtype := 5, shape := [2] },
               { name := "w", type := 7, dtype := 5, shape := [3] }]] }

/-- The operation that the general handler creates for `exUnstackDesc` from
`exState2`. -/
def exUnstackOp : Operation :=
  Operation.Create 2 [some (exValue 0)] []
    [.vec [.dense .FLOAT32 [3], .dense .FLOAT32 [2]], .vec [.dense .FLOAT32 [2]]] "pd.unstack"

/-- The state that the general handler leaves for `exUnstackDesc` from `exState2`:
`xx` is bound to result 1, an aggregate of one element, with the index 1. -/
def exUnsoundState : TransState :=
  { block := exState2.block ++ [exUnstackOp],
    param_map := exState2.param_map ++
      [("xx", { value := some ⟨2, 1, .vec [.dense .FLOAT32 [2]]⟩, generated_by_vector := true,
                idx_in_vector := 1 }),
       ("w", { value := some ⟨2, 0, .vec [.dense .FLOAT32 [3], .dense .FLOAT32 [2]]⟩,
               generated_by_vector := true, idx_in_vector := 0 })] }

/-- A descriptor that consumes `xx` and then `q`, which has no entry in
`exUnsoundState`. -/
def exAfterUnstackDesc : OpDesc :=
  { type := "elementwise_add", inputs := [("X", ["xx"]), ("Y", ["q"])],
    outputs := [("Out", ["c"])], attrs := [], block := [] }

/-! ## Theorems

### The order on names and the aliasing test -/

theorem ltChars_irrefl (a : List Char) : ltChars a a = false := by
  induction a with
  | nil => rfl
  | cons x xs ih => simp [ltChars, ih]

theorem char_eq_of_toNat_eq {a b : Char} (h1 : ¬ a.toNat < b.toNat) (h2 : ¬ b.toNat < a.toNat) :
    a = b := by
  have h : a.toNat = b.toNat := by omega
  apply Char.ext
  apply UInt32.ext
  exact h

theorem ltChars_trans : ∀ (a b c : List Char), ltChars a b = true → ltChars b c = true →
    ltChars a c = true
  | [], [], _, h, _ => by simp [ltChars] at h
  | _ :: _, [], _, h, _ => by simp [ltChars] at h
  | _, _ :: _, [], _, h => by simp [ltChars] at h
  | [], _ :: _, _ :: _, _, _ => by simp [ltChars]
  | x :: xs, y :: ys, z :: zs, h1, h2 => by
    have ih := ltChars_trans xs ys zs
    simp only [ltChars] at h1 h2 ⊢
    by_cases hxy : x.toNat < y.toNat
    · by_cases hyz : y.toNat < z.toNat
      · rw [if_pos (by omega)]
      · by_cases hzy : z.toNat < y.toNat
        · simp [hyz, hzy] at h2
        · rw [if_pos (by omega)]
    · by_cases hyx : y.toNat < x.toNat
      · simp [hxy, hyx] at h1
      · simp only [hxy, hyx, if_false] at h1
        by_cases hyz : y.toNat < z.toNat
        · rw [if_pos (by omega)]
        · by_cases hzy : z.toNat < y.toNat
          · simp [hyz, hzy] at h2
          · simp only [hyz, hzy, if_false] at h2
            rw [if_neg (by omega), if_neg (by omega)]
            exact ih h1 h2

theorem ltChars_tri : ∀ (a b : List Char), ltChars a b = false → ltChars b a = false → a = b
  | [], [], _, _ => rfl
  | [], _ :: _, h, _ => by simp [ltChars] at h
  | _ :: _, [], _, h => by simp [ltChars] at h
  | x :: xs, y :: ys, h1, h2 => by
    simp only [ltChars] at h1 h2
    by_cases hxy : x.toNat < y.toNat
    · simp [hxy] at h1
    · by_cases hyx : y.toNat < x.toNat
      · simp [hyx] at h2
      · simp only [hxy, hyx, if_false] at h1 h2
        rw [char_eq_of_toNat_eq hxy hyx, ltChars_tri xs ys h1 h2]

theorem nameLt_irrefl (a : String) : nameLt a a = false := ltChars_irrefl a.data

theorem nameLt_trans {a b c : String} (h1 : nameLt a b = true) (h2 : nameLt b c = true) :
    nameLt a c = true := ltChars_trans _ _ _ h1 h2

theorem nameLt_tri {a b : String} (h1 : nameLt a b = false) (h2 : nameLt b a = false) :
    a = b := by
  have h := ltChars_tri _ _ h1 h2
  cases a; cases b; simp_all

theorem nameLt_asymm {a b : String} (h : nameLt a b = true) : nameLt b a = false := by
  by_contra hn
  have h2 : nameLt b a = true := by simpa using hn
  have := nameLt_trans h h2
  rw [nameLt_irrefl] at this
  cases this

/-- The relation by which `sort` orders: `b` is not less than `a`. -/
theorem sort_sorted (names : List String) :
    (sort names).Sorted (fun a b => nameLt b a = false) := by
  have htotal : IsTotal String (fun a b => nameLt b a = false) := by
    constructor
    intro a b
    by_cases h : nameLt b a = true
    · right; exact nameLt_asymm h
    · left; simpa using h
  have htrans : IsTrans String (fun a b => nameLt b a = false) := by
    constructor
    intro a b c hab hbc
    by_contra hn
    have hca : nameLt c a = true := by simpa using hn
    by_cases hbc2 : nameLt b c = true
    · have := nameLt_trans hbc2 hca
      simp_all
    · have hb : nameLt b c = false := by simpa using hbc2
      have := nameLt_tri hb hbc
      subst this
      simp_all
  exact List.sorted_insertionSort _ names

theorem mem_sort {names : List String} {x : String} : x ∈ sort names ↔ x ∈ names :=
  List.mem_insertionSort _

theorem mem_set_intersection_walk (a : String) (as : List String)
    (next : List String → List String)
    (hnext : ∀ l2 : List String, l2.Sorted (fun a b => nameLt b a = false) →
      ∀ x, x ∈ next l2 ↔ x ∈ as ∧ x ∈ l2)
    (ha : ∀ y ∈ as, nameLt y a = false) :
    ∀ l2 : List String, l2.Sorted (fun a b => nameLt b a = false) →
      ∀ x, x ∈ set_intersection.walk a next l2 ↔ x ∈ a :: as ∧ x ∈ l2
  | [], _, x => by simp [set_intersection.walk]
  | b :: bs, hs, x => by
    have hbs : bs.Sorted (fun a b => nameLt b a = false) := hs.of_cons
    have hb : ∀ y ∈ bs, nameLt y b = false := fun y hy => List.rel_of_sorted_cons hs y hy
    simp only [set_intersection.walk]
    by_cases hab : nameLt a b = true
    · rw [if_pos hab, hnext _ hs]
      constructor
      · rintro ⟨h1, h2⟩; exact ⟨List.mem_cons_of_mem _ h1, h2⟩
      · rintro ⟨h1, h2⟩
        refine ⟨?_, h2⟩
        rcases List.mem_cons.1 h1 with rfl | h1
        · exfalso
          rcases List.mem_cons.1 h2 with rfl | h2
          · rw [nameLt_irrefl] at hab; cases hab
          · have := hb _ h2
            rw [hab] at this
            cases this
        · exact h1
    · rw [if_neg hab]
      by_cases hba : nameLt b a = true
      · rw [if_pos hba, mem_set_intersection_walk a as next hnext ha bs hbs x]
        constructor
        · rintro ⟨h1, h2⟩; exact ⟨h1, List.mem_cons_of_mem _ h2⟩
        · rintro ⟨h1, h2⟩
          refine ⟨h1, ?_⟩
          rcases List.mem_cons.1 h2 with rfl | h2
          · exfalso
            rcases List.mem_cons.1 h1 with rfl | h1
            · rw [nameLt_irrefl] at hba; cases hba
            · have := ha _ h1
              rw [hba] at this
              cases this
          · exact h2
      · rw [if_neg hba]
        have hab2 : nameLt a b = false := by simpa using hab
        have hba2 : nameLt b a = false := by simpa using hba
        have e : a = b := nameLt_tri hab2 hba2
        subst e
        simp only [List.mem_cons, hnext _ hbs]
        tauto

theorem mem_set_intersection : ∀ l1 : List String, l1.Sorted (fun a b => nameLt b a = false) →
    ∀ l2 : List String, l2.Sorted (fun a b => nameLt b a = false) →
      ∀ x, x ∈ set_intersection l1 l2 ↔ x ∈ l1 ∧ x ∈ l2
  | [], _, _, _, x => by simp [set_intersection]
  | a :: as, h1, l2, h2, x => by
    rw [set_intersection]
    exact mem_set_intersection_walk a as (set_intersection as)
      (mem_set_intersection as h1.of_cons) (fun y hy => List.rel_of_sorted_cons h1 y hy) l2 h2 x

theorem IsInplace_iff (op_desc : OpDesc) :
    IsInplace op_desc = true ↔
      op_desc.type ≠ "batch_norm" ∧
        ∃ v, v ∈ op_desc.InputArgumentNames ∧ v ∈ op_desc.OutputArgumentNames := by
  have hmem : ∀ x, x ∈ set_intersection (sort op_desc.InputArgumentNames)
      (sort op_desc.OutputArgumentNames) ↔
      x ∈ op_desc.InputArgumentNames ∧ x ∈ op_desc.OutputArgumentNames := by
    intro x
    rw [mem_set_intersection _ (sort_sorted _) _ (sort_sorted _), mem_sort, mem_sort]
  unfold IsInplace
  by_cases ht : op_desc.type = "batch_norm"
  · simp [special_inplace_ops, ht]
  · have ht2 : special_inplace_ops.contains op_desc.type = false := by
      simp [special_inplace_ops, ht]
    rw [ht2]
    simp only [Bool.false_eq_true, if_false]
    by_cases h0 : op_desc.InputArgumentNames.length = 0 ∨ op_desc.OutputArgumentNames.length = 0
    · rw [if_pos h0]
      simp only [Bool.false_eq_true, false_iff, not_and, not_exists]
      intro _ v hv1 hv2
      rcases h0 with h0 | h0
      · rw [List.length_eq_zero] at h0; rw [h0] at hv1; cases hv1
      · rw [List.length_eq_zero] at h0; rw [h0] at hv2; cases hv2
    · rw [if_neg h0]
      constructor
      · intro h
        refine ⟨ht, ?_⟩
        by_cases hl : (set_intersection (sort op_desc.InputArgumentNames)
            (sort op_desc.OutputArgumentNames)).length > 0
        · obtain ⟨v, hv⟩ := List.exists_mem_of_length_pos hl
          exact ⟨v, (hmem v).1 hv⟩
        · simp [hl] at h
      · rintro ⟨_, v, hv⟩
        have := (hmem v).2 hv
        have hl : (set_intersection (sort op_desc.InputArgumentNames)
            (sort op_desc.OutputArgumentNames)).length > 0 := List.length_pos_of_mem this
        simp [hl]

/-- C1: the target name resolved by `LoopkUpOpInfo` (the name it looks up in the
registry) is `pd.` followed by the normalized type name, followed by the in-place
qualifier `_` if and only if the type is not in the exclusion set (`batch_norm`)
and some variable name occurs among both the input and the output argument names. -/
theorem target_op_name_inplace_qualifier (T : Tables) (ctx : IrContext) (op_desc : OpDesc) :
    target_op_name T op_desc =
      "pd." ++ T.op_normalizer op_desc.type ++
        (if op_desc.type ≠ "batch_norm" ∧
            ∃ v, v ∈ op_desc.InputArgumentNames ∧ v ∈ op_desc.OutputArgumentNames
          then "_" else "") ∧
    LoopkUpOpInfo T ctx op_desc =
      (match ctx.GetRegisteredOpInfo (target_op_name T op_desc) with
        | none => .error .fatal
        | some op_info => .ok op_info) := by
  refine ⟨?_, rfl⟩
  by_cases h : op_desc.type ≠ "batch_norm" ∧
      ∃ v, v ∈ op_desc.InputArgumentNames ∧ v ∈ op_desc.OutputArgumentNames
  · rw [if_pos h]
    have := (IsInplace_iff op_desc).2 h
    simp [target_op_name, this, kTargetDialectPrefix, OpNamecompatibleMapping]
  · rw [if_neg h]
    have : IsInplace op_desc = false := by
      by_contra hn
      exact h ((IsInplace_iff op_desc).1 (by simpa using hn))
    simp [target_op_name, this, kTargetDialectPrefix, OpNamecompatibleMapping]


/-! ### Required inputs that the descriptor lacks -/

/-- C2: on a descriptor without the group of a required aggregate-class slot, input
resolution does not abort: it appends a combine operation without operands and
returns its result; for a required singleton-class slot it indexes the empty name
list, which is undefined behaviour and no fatal error either. -/
theorem required_input_absent_not_fatal :
    GenerateOperationInput exTables exEmptyState exConcatNoInput [exVectorSlot] =
      (.ok [some { owner := 0, index := 0, type := .vec [] }],
        { block := [Operation.Create 0 [] [] [.vec []] "builtin.combine"], param_map := [] }) ∧
    GenerateOperationInput exTables exEmptyState exConcatNoInput [exTensorSlot] =
      (.error .undefined, exEmptyState) := by
  decide


/-! ### Association lists -/

theorem lookup_assign {β : Type} (m : List (String × β)) (k k2 : String) (v : β) :
    (assign m k v).lookup k2 = if k2 = k then some v else m.lookup k2 := by
  induction m with
  | nil =>
    by_cases h : k2 = k
    · simp [assign, List.lookup, h]
    · have hb : (k2 == k) = false := by simpa using h
      simp [assign, List.lookup, h, hb]
  | cons p rest ih =>
    obtain ⟨k1, v1⟩ := p
    by_cases hk : k = k1
    · subst hk
      by_cases h : k2 = k
      · simp [assign, List.lookup, h]
      · have hb : (k2 == k) = false := by simpa using h
        simp [assign, List.lookup, h, hb]
    · have hne : (k == k1) = false := by simpa using hk
      by_cases h1 : k2 = k1
      · subst h1
        have hk2 : ¬ k2 = k := fun e => hk e.symm
        simp [assign, List.lookup, hne, hk2]
      · have hne2 : (k2 == k1) = false := by simpa using h1
        simp [assign, List.lookup, hne, hne2, ih]

theorem lookup_assign_self {β : Type} (m : List (String × β)) (k : String) (v : β) :
    (assign m k v).lookup k = some v := by
  rw [lookup_assign, if_pos rfl]

theorem lookup_assign_ne {β : Type} (m : List (String × β)) {k k2 : String} (v : β)
    (h : k2 ≠ k) : (assign m k v).lookup k2 = m.lookup k2 := by
  rw [lookup_assign, if_neg h]

/-! ### The slot loop of input resolution -/

theorem findCandidateVar_some (op_desc : OpDesc) :
    ∀ (candidates : List String) (c : String), c ∈ candidates →
      op_desc.HasInput c = true → op_desc.Input c ≠ [] →
      ∃ before c0 after var0 rest, candidates = before ++ c0 :: after ∧
        (∀ b ∈ before, op_desc.HasInput b = false ∨ op_desc.Input b = []) ∧
        op_desc.HasInput c0 = true ∧ op_desc.Input c0 = var0 :: rest ∧
        findCandidateVar op_desc candidates = some (var0 :: rest)
  | [], c, hc, _, _ => by cases hc
  | c1 :: cs, c, hc, hhas, hne => by
    simp only [findCandidateVar]
    by_cases h1 : op_desc.HasInput c1 = true
    · rw [if_pos h1]
      cases hI : op_desc.Input c1 with
      | nil =>
        have hcne : c ≠ c1 := by
          rintro rfl
          exact hne hI
        have hc2 : c ∈ cs := by
          rcases List.mem_cons.1 hc with h | h
          · exact absurd h hcne
          · exact h
        obtain ⟨before, c0, after, var0, rest, h0, hb, hh, h2, h3⟩ :=
          findCandidateVar_some op_desc cs c hc2 hhas hne
        refine ⟨c1 :: before, c0, after, var0, rest, by rw [h0]; rfl, ?_, hh, h2,
          by simpa using h3⟩
        intro b hbm
        rcases List.mem_cons.1 hbm with rfl | hbm
        · exact Or.inr hI
        · exact hb b hbm
      | cons var0 rest =>
        exact ⟨[], c1, cs, var0, rest, rfl, fun _ hb => (by cases hb), h1, hI, by simp⟩
    · rw [if_neg h1]
      have hcne : c ≠ c1 := by
        rintro rfl
        exact h1 hhas
      have hc2 : c ∈ cs := by
        rcases List.mem_cons.1 hc with h | h
        · exact absurd h hcne
        · exact h
      obtain ⟨before, c0, after, var0, rest, h0, hb, hh, h2, h3⟩ :=
        findCandidateVar_some op_desc cs c hc2 hhas hne
      refine ⟨c1 :: before, c0, after, var0, rest, by rw [h0]; rfl, ?_, hh, h2, h3⟩
      intro b hbm
      rcases List.mem_cons.1 hbm with rfl | hbm
      · exact Or.inl (by simpa using h1)
      · exact hb b hbm

theorem findCandidateVar_none (op_desc : OpDesc) :
    ∀ (candidates : List String),
      (∀ c ∈ candidates, op_desc.HasInput c = false ∨ op_desc.Input c = []) →
      findCandidateVar op_desc candidates = none
  | [], _ => rfl
  | c1 :: cs, h => by
    have ih := findCandidateVar_none op_desc cs (fun c hc => h c (List.mem_cons_of_mem _ hc))
    simp only [findCandidateVar]
    rcases h c1 (List.mem_cons_self _ _) with h1 | h1
    · simp [h1, ih]
    · simp [h1, ih]

theorem bindInputVars_scalar (info : OpInputInfo) (var0 : String) (rest : List String)
    (st : TransState) (defining_info : VariableDefiningInfo)
    (hvec : inputIsVector info = false)
    (henv : st.param_map.lookup var0 = some defining_info) :
    bindInputVars info (var0 :: rest) st = (.ok defining_info.value, st) := by
  simp [bindInputVars, hvec, subscript, henv]

theorem bindInputVars_vector (info : OpInputInfo) (vars : List String) (st : TransState)
    (src_values : List OpResult) (types_in_vec : List Ty)
    (hvec : inputIsVector info = true)
    (hargs : collectCombineArgs st.param_map vars = .ok (src_values, types_in_vec)) :
    bindInputVars info vars st =
      (.ok (some { owner := st.block.length, index := 0, type := .vec types_in_vec }),
        st.push_back
          (Operation.Create st.block.length src_values [] [.vec types_in_vec]
            "builtin.combine")) := by
  simp [bindInputVars, hvec, InsertCombineOperationForTarget, hargs, Operation.result,
    Operation.Create]



/-- C3 (as stated) fails: for the integer-array-typed slot `shape` of `reshape`
whose candidate `ShapeTensor` is given, a combine operation is appended and the
operand is its result, not the value bound to `s`; and for an optional slot
the operand is the null handle. -/
theorem candidate_tensor_not_used_directly :
    resolveInputSlot exTables exReshapeByTensor exShapeSlot exState2 =
      (.ok (some { owner := 2, index := 0, type := .vec [.dense .FLOAT32 [2]] }),
        exState2.push_back
          (Operation.Create 2 [some (exValue 1)] [] [.vec [.dense .FLOAT32 [2]]]
            "builtin.combine")) ∧
    exState2.param_map.lookup "s" = some { value := some (exValue 1) } ∧
    (some { owner := 2, index := 0, type := .vec [.dense .FLOAT32 [2]] } : OpResult) ≠
      some (exValue 1) ∧
    resolveInputSlot exTables exScaleByTensor exOptionalScaleSlot exState2 =
      (.ok none, exState2) := by
  decide

/-- C3 (amended): for a non-optional mutable-attribute slot whose own group is absent
or empty and one of whose candidate names has a non-empty group, the group of the
first such candidate (all candidates registered before it have no group or an
empty one) is taken. If the slot is scalar-typed, nothing is appended and the
operand is the value the environment holds for the first variable of that group;
if the slot is aggregate-class (integer-array-typed), one combine operation over
the values of the group is appended and the operand is its result 0. No
constant-producing operation is appended in either case. -/
theorem mutable_attribute_candidate_tensor (T : Tables) (op_desc : OpDesc) (info : OpInputInfo)
    (st : TransState) (c : String)
    (hown : ownInputVars T op_desc info = [])
    (hopt : info.optional = false)
    (hmut : isMutableAttribute T op_desc info.name = true)
    (hc : c ∈ T.GetMutableAttributeInfos op_desc.type info.name)
    (hhas : op_desc.HasInput c = true) (hne : op_desc.Input c ≠ []) :
    ∃ before c0 after var0 rest,
      T.GetMutableAttributeInfos op_desc.type info.name = before ++ c0 :: after ∧
      (∀ b ∈ before, op_desc.HasInput b = false ∨ op_desc.Input b = []) ∧
      op_desc.HasInput c0 = true ∧ op_desc.Input c0 = var0 :: rest ∧
      (inputIsVector info = false → ∀ defining_info,
        st.param_map.lookup var0 = some defining_info →
        resolveInputSlot T op_desc info st = (.ok defining_info.value, st)) ∧
      (inputIsVector info = true → ∀ src_values types_in_vec,
        collectCombineArgs st.param_map (var0 :: rest) = .ok (src_values, types_in_vec) →
        resolveInputSlot T op_desc info st =
          (.ok (some { owner := st.block.length, index := 0, type := .vec types_in_vec }),
            st.push_back
              (Operation.Create st.block.length src_values [] [.vec types_in_vec]
                "builtin.combine"))) := by
  obtain ⟨before, c0, after, var0, rest, h0, hb, hh, h1, h2⟩ :=
    findCandidateVar_some op_desc _ c hc hhas hne
  refine ⟨before, c0, after, var0, rest, h0, hb, hh, h1, ?_, ?_⟩
  · intro hvec defining_info henv
    simp only [resolveInputSlot, hown, hopt, hmut, h2]
    simpa using bindInputVars_scalar info var0 rest st defining_info hvec henv
  · intro hvec src_values types_in_vec hargs
    simp only [resolveInputSlot, hown, hopt, hmut, h2]
    simpa using bindInputVars_vector info (var0 :: rest) st src_values types_in_vec hvec hargs

/-- Instance of C3 (amended): the scalar-typed slot `scale` of a `scale` descriptor
that gives the candidate tensor `ScaleTensor`. -/
theorem mutable_attribute_candidate_tensor_witness :
    (ownInputVars exTables exScaleByTensor exScaleSlot = [] ∧
      exScaleSlot.optional = false ∧
      isMutableAttribute exTables exScaleByTensor exScaleSlot.name = true ∧
      "ScaleTensor" ∈ exTables.GetMutableAttributeInfos exScaleByTensor.type exScaleSlot.name ∧
      exScaleByTensor.HasInput "ScaleTensor" = true ∧
      exScaleByTensor.Input "ScaleTensor" ≠ []) ∧
    ∃ before c0 after var0 rest,
      exTables.GetMutableAttributeInfos exScaleByTensor.type exScaleSlot.name =
        before ++ c0 :: after ∧
      (∀ b ∈ before, exScaleByTensor.HasInput b = false ∨ exScaleByTensor.Input b = []) ∧
      exScaleByTensor.HasInput c0 = true ∧ exScaleByTensor.Input c0 = var0 :: rest ∧
      (inputIsVector exScaleSlot = false → ∀ defining_info,
        exState2.param_map.lookup var0 = some defining_info →
        resolveInputSlot exTables exScaleByTensor exScaleSlot exState2 =
          (.ok defining_info.value, exState2)) ∧
      (inputIsVector exScaleSlot = true → ∀ src_values types_in_vec,
        collectCombineArgs exState2.param_map (var0 :: rest) = .ok (src_values, types_in_vec) →
        resolveInputSlot exTables exScaleByTensor exScaleSlot exState2 =
          (.ok (some { owner := exState2.block.length, index := 0, type := .vec types_in_vec }),
            exState2.push_back
              (Operation.Create exState2.block.length src_values [] [.vec types_in_vec]
                "builtin.combine"))) :=
  ⟨by decide,
    mutable_attribute_candidate_tensor exTables exScaleByTensor exScaleSlot exState2
      "ScaleTensor" (by decide) (by decide) (by decide) (by decide) (by decide) (by decide)⟩

/-- C4 (as stated) fails: the descriptor carries the static attribute `shape`, but as
a string; the conversion for the integer-array tag gives the empty attribute and
the synthesis of the array constant aborts, nothing being appended. -/
theorem static_attribute_not_int_array_aborts :
    ownInputVars exTables exReshapeByString exShapeSlot = [] ∧
    exShapeSlot.optional = false ∧
    isMutableAttribute exTables exReshapeByString exShapeSlot.name = true ∧
    findCandidateVar exReshapeByString
      (exTables.GetMutableAttributeInfos exReshapeByString.type exShapeSlot.name) = none ∧
    exReshapeByString.HasAttr
      (exTables.GetLegacyAttrName exReshapeByString.type exShapeSlot.name) = true ∧
    resolveInputSlot exTables exReshapeByString exShapeSlot exState2 =
      (.error .fatal, exState2) := by
  decide

/-- C4 (amended): for a non-optional mutable-attribute slot whose own group is absent
or empty, none of whose candidate names has a non-empty group, and whose legacy
attribute the descriptor carries: if the slot's tag does not contain
`IntArrayAttribute`, exactly one scalar-constant operation of shape `[1]` is
appended; if it does and the converted attribute is an integer array, exactly one
array-constant operation is appended. In both cases the environment is unchanged
and the operand is result 0 of the appended operation. -/
theorem mutable_attribute_static_fallback (T : Tables) (op_desc : OpDesc) (info : OpInputInfo)
    (st : TransState)
    (hown : ownInputVars T op_desc info = [])
    (hopt : info.optional = false)
    (hmut : isMutableAttribute T op_desc info.name = true)
    (hnone : ∀ c ∈ T.GetMutableAttributeInfos op_desc.type info.name,
      op_desc.HasInput c = false ∨ op_desc.Input c = [])
    (hattr : op_desc.HasAttr (T.GetLegacyAttrName op_desc.type info.name) = true) :
    (contains info.type_name "IntArrayAttribute" = false →
      ∀ data dtype,
        fullOperationData (T.attribute_translator info.type_name
          (op_desc.GetAttr (T.GetLegacyAttrName op_desc.type info.name))) = (data, dtype) →
        resolveInputSlot T op_desc info st =
          (.ok (some { owner := st.block.length, index := 0, type := .dense dtype [1] }),
            { block := st.block ++ [(BuildFullOp st [1] data dtype).1],
              param_map := st.param_map })) ∧
    (contains info.type_name "IntArrayAttribute" = true →
      ∀ vs,
        T.attribute_translator info.type_name
          (op_desc.GetAttr (T.GetLegacyAttrName op_desc.type info.name)) =
            .IntArrayAttribute vs →
        resolveInputSlot T op_desc info st =
          (.ok (some ⟨st.block.length, 0, .dense .INT64 [(vs.length : Int)]⟩),
            { block := st.block ++ [(BuildFullIntArrayOp st vs .INT64).1],
              param_map := st.param_map })) := by
  have hfind := findCandidateVar_none op_desc _ hnone
  constructor
  · intro hia data dtype hd
    simp [resolveInputSlot, hown, hopt, hmut, hfind, GetAttributeAsInput, hattr, hia, hd,
      InsertFullOperationForAttributeInput, BuildFullOp, Operation.result, Operation.Create,
      TransState.push_back]
  · intro hia vs hvs
    simp [resolveInputSlot, hown, hopt, hmut, hfind, GetAttributeAsInput, hattr, hia, hvs,
      InsertFullArrayOperationForAttributeInput, BuildFullIntArrayOp, Operation.result,
      Operation.Create, TransState.push_back]

/-- Instance of C4 (amended): `reshape` with the static integer list `shape`. -/
theorem mutable_attribute_static_fallback_witness :
    (ownInputVars exTables exReshapeByAttr exShapeSlot = [] ∧
      exShapeSlot.optional = false ∧
      isMutableAttribute exTables exReshapeByAttr exShapeSlot.name = true ∧
      exReshapeByAttr.HasAttr
        (exTables.GetLegacyAttrName exReshapeByAttr.type exShapeSlot.name) = true) ∧
    resolveInputSlot exTables exReshapeByAttr exShapeSlot exState2 =
      (.ok (some { owner := exState2.block.length, index := 0, type := .dense .INT64 [2] }),
        { block := exState2.block ++ [(BuildFullIntArrayOp exState2 [2, 3] .INT64).1],
          param_map := exState2.param_map }) :=
  ⟨by decide,
    (mutable_attribute_static_fallback exTables exReshapeByAttr exShapeSlot exState2
      (by decide) (by decide) (by decide) (by decide) (by decide)).2 (by decide) [2, 3]
      (by decide)⟩

/-! ### Combine operations -/

theorem collectCombineArgs_of_bound (param_map : TranslationContext) :
    ∀ (names : List String) (vals : List Value),
      List.Forall₂ (fun n v => ∃ idx, param_map.lookup n =
        some { value := some v, generated_by_vector := false, idx_in_vector := idx })
        names vals →
      collectCombineArgs param_map names = .ok (vals.map some, vals.map Value.type)
  | [], [], _ => rfl
  | n :: names, v :: vals, h => by
    cases h with
    | cons h1 h2 =>
      obtain ⟨idx, h1⟩ := h1
      simp [collectCombineArgs, h1, collectCombineArgs_of_bound param_map names vals h2]

/-- C7: for an aggregate-class input slot whose own group has the names `n1..nm`
(at least one), each singleton-bound to a value, exactly one combine operation is
appended: its operands are the values of `n1..nm` in order, its attribute map is
empty, its single result type is the aggregate of the operand types; the operand
of the slot is result 0 of that operation and the environment is unchanged. -/
theorem vector_slot_inserts_one_combine (T : Tables) (op_desc : OpDesc) (info : OpInputInfo)
    (st : TransState) (names : List String) (vals : List Value)
    (hvec : inputIsVector info = true)
    (hown : ownInputVars T op_desc info = names)
    (hne : names ≠ [])
    (hbound : List.Forall₂ (fun n v => ∃ idx, st.param_map.lookup n =
        some { value := some v, generated_by_vector := false, idx_in_vector := idx })
        names vals) :
    resolveInputSlot T op_desc info st =
      (.ok (some { owner := st.block.length, index := 0, type := .vec (vals.map Value.type) }),
        { block := st.block ++
            [{ id := st.block.length, name := "builtin.combine", operands := vals.map some,
               attributes := [], output_types := [.vec (vals.map Value.type)] }],
          param_map := st.param_map }) := by
  have hargs := collectCombineArgs_of_bound st.param_map names vals hbound
  have hlen : names.length ≠ 0 := by
    intro h
    exact hne (List.length_eq_zero.1 h)
  have := bindInputVars_vector info names st _ _ hvec hargs
  simp only [resolveInputSlot, hown, hlen, false_and, if_false]
  simpa [TransState.push_back, Operation.Create] using this

/-- Instance of C7: `concat` over `x` and `s`. -/
theorem vector_slot_inserts_one_combine_witness :
    (inputIsVector exConcatSlot = true ∧
      ownInputVars exTables exConcat exConcatSlot = ["x", "s"]) ∧
    resolveInputSlot exTables exConcat exConcatSlot exState2 =
      (.ok (some ⟨2, 0, .vec [.dense .FLOAT32 [2], .dense .FLOAT32 [2]]⟩),
        { block := exState2.block ++
            [{ id := 2, name := "builtin.combine",
               operands := [some (exValue 0), some (exValue 1)],
               attributes := [],
               output_types := [.vec [.dense .FLOAT32 [2], .dense .FLOAT32 [2]]] }],
          param_map := exState2.param_map }) :=
  ⟨by decide,
    vector_slot_inserts_one_combine exTables exConcat exConcatSlot exState2
      ["x", "s"] [exValue 0, exValue 1] (by decide) (by decide) (by decide)
      (List.Forall₂.cons ⟨-1, by decide⟩ (List.Forall₂.cons ⟨-1, by decide⟩ List.Forall₂.nil))⟩


/-! ### The pre-pass of input resolution -/

theorem InsertSlice_ok (st : TransState) (defining_info : VariableDefiningInfo)
    (arg_name : String) (A : Value) (ts : List Ty) (t : Ty)
    (hval : defining_info.value = some A) (hA : A.type = .vec ts)
    (hk : 0 ≤ defining_info.idx_in_vector)
    (ht : ts[defining_info.idx_in_vector.toNat]? = some t) :
    InsertSliceOperationForTarget st defining_info arg_name =
      (.ok { id := st.block.length, name := "builtin.slice", operands := [some A],
             attributes := [("index", .Int32Attribute defining_info.idx_in_vector)],
             output_types := [t] },
        { block := st.block ++
            [{ id := st.block.length, name := "builtin.slice", operands := [some A],
               attributes := [("index", .Int32Attribute defining_info.idx_in_vector)],
               output_types := [t] }],
          param_map := assign st.param_map arg_name
            { value := some { owner := st.block.length, index := 0, type := t } } }) := by
  have hk2 : ¬ defining_info.idx_in_vector < 0 := by omega
  simp [InsertSliceOperationForTarget, hval, hA, hk2, ht, Operation.result, Operation.Create,
    TransState.push_back]

theorem InsertSlice_inv (st st1 : TransState) (defining_info : VariableDefiningInfo)
    (arg_name : String) (operation : Operation)
    (h : InsertSliceOperationForTarget st defining_info arg_name = (.ok operation, st1)) :
    ∃ A ts t, defining_info.value = some A ∧ A.type = .vec ts ∧
      0 ≤ defining_info.idx_in_vector ∧ ts[defining_info.idx_in_vector.toNat]? = some t := by
  unfold InsertSliceOperationForTarget at h
  cases hval : defining_info.value with
  | none => simp [hval] at h
  | some A =>
    cases hA : A.type with
    | vec ts =>
      by_cases hk : defining_info.idx_in_vector < 0
      · simp [hval, hA, hk] at h
      · cases ht : ts[defining_info.idx_in_vector.toNat]? with
        | none => simp [hval, hA, hk, ht] at h
        | some t => exact ⟨A, ts, t, rfl, hA, by omega, ht⟩
    | null => simp [hval, hA] at h
    | dense _ _ => simp [hval, hA] at h
    | other _ => simp [hval, hA] at h

theorem isSliceable_iff (defining_info : VariableDefiningInfo) :
    isSliceable defining_info = true ↔
      ∃ A ts t, defining_info.value = some A ∧ A.type = .vec ts ∧
        0 ≤ defining_info.idx_in_vector ∧ ts[defining_info.idx_in_vector.toNat]? = some t := by
  unfold isSliceable
  constructor
  · intro h
    cases hval : defining_info.value with
    | none => simp [hval] at h
    | some A =>
      cases hA : A.type with
      | vec ts =>
        simp only [hval, hA, Bool.and_eq_true, decide_eq_true_eq, Option.isSome_iff_exists] at h
        obtain ⟨hk, t, ht⟩ := h
        exact ⟨A, ts, t, rfl, hA, hk, ht⟩
      | null => simp [hval, hA] at h
      | dense _ _ => simp [hval, hA] at h
      | other _ => simp [hval, hA] at h
  · rintro ⟨A, ts, t, hval, hA, hk, ht⟩
    simp [hval, hA, hk, ht]

theorem sliceInputArgs_append : ∀ (xs ys : List String) (st : TransState),
    sliceInputArgs (xs ++ ys) st =
      (match sliceInputArgs xs st with
        | (.error e, st1) => (.error e, st1)
        | (.ok _, st1) => sliceInputArgs ys st1)
  | [], ys, st => by simp [sliceInputArgs]
  | x :: xs, ys, st => by
    simp only [List.cons_append, sliceInputArgs]
    cases hl : st.param_map.lookup x with
    | none => simp
    | some defining_info =>
      simp only
      by_cases hg : defining_info.generated_by_vector = true
      · simp only [hg, if_true]
        cases hs : InsertSliceOperationForTarget st defining_info x with
        | mk r st1 =>
          cases r with
          | error e => simp
          | ok op => simp [sliceInputArgs_append xs ys st1]
      · simp only [hg, if_false]
        exact sliceInputArgs_append xs ys st

theorem sliceInputGroups_eq : ∀ (groups : List (String × List String)) (st : TransState),
    sliceInputGroups groups st = sliceInputArgs (groups.map Prod.snd).flatten st
  | [], st => by simp [sliceInputGroups, sliceInputArgs]
  | (name, args) :: rest, st => by
    simp only [sliceInputGroups, List.map_cons, List.flatten_cons, sliceInputArgs_append]
    cases hs : sliceInputArgs args st with
    | mk r st1 =>
      cases r with
      | error e => simp
      | ok u => simp [sliceInputGroups_eq rest st1]

theorem sliceInputArgs_cons_ok (n : String) (rest : List String) (st st2 : TransState)
    (h : sliceInputArgs (n :: rest) st = (.ok (), st2)) :
    ∃ info, st.param_map.lookup n = some info ∧
      ((info.generated_by_vector = false ∧ sliceInputArgs rest st = (.ok (), st2)) ∨
        (info.generated_by_vector = true ∧ ∃ A ts t, info.value = some A ∧
          A.type = .vec ts ∧ 0 ≤ info.idx_in_vector ∧
          ts[info.idx_in_vector.toNat]? = some t ∧
          sliceInputArgs rest
            { block := st.block ++
                [{ id := st.block.length, name := "builtin.slice", operands := [some A],
                   attributes := [("index", .Int32Attribute info.idx_in_vector)],
                   output_types := [t] }],
              param_map := assign st.param_map n
                { value := some { owner := st.block.length, index := 0, type := t } } } =
            (.ok (), st2))) := by
  simp only [sliceInputArgs] at h
  cases hl : st.param_map.lookup n with
  | none => simp [hl] at h
  | some info =>
    refine ⟨info, rfl, ?_⟩
    simp only [hl] at h
    by_cases hg : info.generated_by_vector = true
    · right
      refine ⟨hg, ?_⟩
      simp only [hg, if_true] at h
      cases hs : InsertSliceOperationForTarget st info n with
      | mk r st1 =>
        cases r with
        | error e => simp [hs] at h
        | ok op =>
          obtain ⟨A, ts, t, hval, hA, hk, ht⟩ := InsertSlice_inv st st1 info n op hs
          refine ⟨A, ts, t, hval, hA, hk, ht, ?_⟩
          rw [InsertSlice_ok st info n A ts t hval hA hk ht] at h
          simpa using h
    · left
      have hg2 : info.generated_by_vector = false := by simpa using hg
      refine ⟨hg2, ?_⟩
      simpa [hg2] using h

theorem isAggregateBound_of_lookup {param_map : TranslationContext} {n : String}
    {info : VariableDefiningInfo} (h : param_map.lookup n = some info) :
    isAggregateBound param_map n = info.generated_by_vector := by
  simp [isAggregateBound, h]

theorem isSingletonBound_of_lookup {param_map : TranslationContext} {n : String}
    {info : VariableDefiningInfo} (h : param_map.lookup n = some info) :
    isSingletonBound param_map n = !info.generated_by_vector := by
  simp [isSingletonBound, h]

theorem sliceInputArgs_frame : ∀ (names : List String) (st st2 : TransState),
    sliceInputArgs names st = (.ok (), st2) →
    ∃ extra, st2.block = st.block ++ extra ∧
      (∀ op ∈ extra, op.name = "builtin.slice") ∧
      extra.length =
        (names.toFinset.filter (fun n => isAggregateBound st.param_map n = true)).card ∧
      (∀ n info, st.param_map.lookup n = some info → info.generated_by_vector = false →
        st2.param_map.lookup n = some info) ∧
      (∀ n, n ∉ names → st2.param_map.lookup n = st.param_map.lookup n) ∧
      (∀ n ∈ names, isSingletonBound st2.param_map n = true)
  | [], st, st2, h => by
    simp only [sliceInputArgs, Prod.mk.injEq, true_and] at h
    subst h
    exact ⟨[], by simp, by simp, by simp, fun _ _ h _ => h, fun _ _ => rfl, by simp⟩
  | n :: rest, st, st2, h => by
    obtain ⟨info, hl, hcase⟩ := sliceInputArgs_cons_ok n rest st st2 h
    rcases hcase with ⟨hg, hrest⟩ | ⟨hg, A, ts, t, hval, hA, hk, ht, hrest⟩
    · obtain ⟨extra, hb, hnames, hcount, hkeep, hframe, hsingle⟩ :=
        sliceInputArgs_frame rest st st2 hrest
      refine ⟨extra, hb, hnames, ?_, hkeep, ?_, ?_⟩
      · rw [hcount, List.toFinset_cons, Finset.filter_insert]
        have : ¬ isAggregateBound st.param_map n = true := by
          rw [isAggregateBound_of_lookup hl, hg]; simp
        rw [if_neg this]
      · intro m hm
        exact hframe m (fun hmem => hm (List.mem_cons_of_mem _ hmem))
      · intro m hm
        rcases List.mem_cons.1 hm with rfl | hm
        · rw [isSingletonBound_of_lookup (hkeep _ info hl hg), hg]; rfl
        · exact hsingle m hm
    · obtain ⟨extra, hb, hnames, hcount, hkeep, hframe, hsingle⟩ :=
        sliceInputArgs_frame rest _ st2 hrest
      simp only at hb hcount hkeep hframe
      refine ⟨_ :: extra, by simpa using hb, ?_, ?_, ?_, ?_, ?_⟩
      · intro op hop
        rcases List.mem_cons.1 hop with rfl | hop
        · rfl
        · exact hnames op hop
      · rw [List.length_cons, hcount, List.toFinset_cons, Finset.filter_insert]
        have hagg : isAggregateBound st.param_map n = true := by
          rw [isAggregateBound_of_lookup hl, hg]
        rw [if_pos hagg]
        have hset : (rest.toFinset.filter (fun m => isAggregateBound
            (assign st.param_map n
              { value := some { owner := st.block.length, index := 0, type := t } }) m = true)) =
            (rest.toFinset.filter (fun m => isAggregateBound st.param_map m = true)).erase n := by
          ext m
          simp only [Finset.mem_filter, Finset.mem_erase, isAggregateBound, lookup_assign]
          by_cases hmn : m = n
          · simp [hmn]
          · simp [hmn]
        rw [hset]
        by_cases hmem : n ∈ rest.toFinset.filter (fun m => isAggregateBound st.param_map m = true)
        · rw [Finset.insert_eq_of_mem hmem, Finset.card_erase_add_one hmem]
        · rw [Finset.erase_eq_of_not_mem hmem, Finset.card_insert_of_not_mem hmem]
      · intro m info2 hm hg2
        have hmn : m ≠ n := by
          rintro rfl
          rw [hl] at hm
          cases hm
          rw [hg] at hg2
          cases hg2
        exact hkeep m info2 (by rw [lookup_assign_ne _ _ hmn]; exact hm) hg2
      · intro m hm
        have hmn : m ≠ n := fun e => hm (e ▸ List.mem_cons_self _ _)
        rw [hframe m (fun hmem => hm (List.mem_cons_of_mem _ hmem)), lookup_assign_ne _ _ hmn]
      · intro m hm
        rcases List.mem_cons.1 hm with rfl | hm
        · rw [isSingletonBound_of_lookup (hkeep _ _ (lookup_assign_self _ _ _) rfl)]
          rfl
        · exact hsingle m hm

theorem ExtendsWithoutSlice.refl (st : TransState) : ExtendsWithoutSlice st st :=
  ⟨⟨[], by simp, by simp⟩, fun _ _ h => h⟩

theorem ExtendsWithoutSlice.trans {st st1 st2 : TransState}
    (h1 : ExtendsWithoutSlice st st1) (h2 : ExtendsWithoutSlice st1 st2) :
    ExtendsWithoutSlice st st2 := by
  obtain ⟨⟨e1, hb1, hn1⟩, hk1⟩ := h1
  obtain ⟨⟨e2, hb2, hn2⟩, hk2⟩ := h2
  refine ⟨⟨e1 ++ e2, by rw [hb2, hb1, List.append_assoc], ?_⟩, fun n info h => hk2 n info (hk1 n info h)⟩
  intro op hop
  rcases List.mem_append.1 hop with h | h
  · exact hn1 op h
  · exact hn2 op h

theorem ExtendsWithoutSlice.push (st : TransState) (op : Operation)
    (h : op.name ≠ "builtin.slice") : ExtendsWithoutSlice st (st.push_back op) :=
  ⟨⟨[op], rfl, by simpa using h⟩, fun _ _ h => h⟩

theorem InsertFullArray_extends (st st1 : TransState) (attr : Attribute)
    (r : Except Failure Operation)
    (h : InsertFullArrayOperationForAttributeInput st attr = (r, st1)) :
    ExtendsWithoutSlice st st1 := by
  cases attr <;>
    simp only [InsertFullArrayOperationForAttributeInput, BuildFullIntArrayOp,
      Prod.mk.injEq] at h <;>
    obtain ⟨_, rfl⟩ := h <;>
    first
    | exact ExtendsWithoutSlice.refl st
    | exact ExtendsWithoutSlice.push st _ (by simp [Operation.Create])

theorem InsertFull_extends (st st1 : TransState) (attr : Attribute)
    (r : Except Failure Operation)
    (h : InsertFullOperationForAttributeInput st attr = (r, st1)) :
    ExtendsWithoutSlice st st1 := by
  simp only [InsertFullOperationForAttributeInput, BuildFullOp, Prod.mk.injEq] at h
  obtain ⟨_, rfl⟩ := h
  exact ExtendsWithoutSlice.push st _ (by simp [Operation.Create])

theorem GetAttributeAsInput_extends (T : Tables) (st st1 : TransState) (op_desc : OpDesc)
    (info : OpInputInfo) (r : Except Failure OpResult)
    (h : GetAttributeAsInput T st op_desc info = (r, st1)) : ExtendsWithoutSlice st st1 := by
  unfold GetAttributeAsInput at h
  by_cases hattr : op_desc.HasAttr (T.GetLegacyAttrName op_desc.type info.name) = true
  · simp only [hattr, Bool.not_true, Bool.false_eq_true, if_false] at h
    generalize hins : (if contains info.type_name "IntArrayAttribute" = true then
      InsertFullArrayOperationForAttributeInput st
        (T.attribute_translator info.type_name
          (op_desc.GetAttr (T.GetLegacyAttrName op_desc.type info.name)))
      else InsertFullOperationForAttributeInput st
        (T.attribute_translator info.type_name
          (op_desc.GetAttr (T.GetLegacyAttrName op_desc.type info.name)))) = inserted at h
    obtain ⟨r1, st2⟩ := inserted
    have hext : ExtendsWithoutSlice st st2 := by
      by_cases hia : contains info.type_name "IntArrayAttribute" = true
      · rw [if_pos hia] at hins
        exact InsertFullArray_extends st st2 _ r1 hins
      · rw [if_neg hia] at hins
        exact InsertFull_extends st st2 _ r1 hins
    cases r1 with
    | error e =>
      simp only [Prod.mk.injEq] at h
      rw [← h.2]; exact hext
    | ok op =>
      simp only at h
      split at h <;> simp only [Prod.mk.injEq] at h <;> rw [← h.2] <;> exact hext
  · simp only [hattr, Bool.not_false, if_true, Prod.mk.injEq] at h
    rw [← h.2]
    exact ExtendsWithoutSlice.refl st

theorem InsertCombine_extends (st st1 : TransState) (args : List String)
    (r : Except Failure Operation)
    (h : InsertCombineOperationForTarget st args = (r, st1)) :
    ExtendsWithoutSlice st st1 := by
  unfold InsertCombineOperationForTarget at h
  split at h
  · simp only [Prod.mk.injEq] at h
    rw [← h.2]; exact ExtendsWithoutSlice.refl st
  · simp only [Prod.mk.injEq] at h
    rw [← h.2]
    exact ExtendsWithoutSlice.push st _ (by simp [Operation.Create])

theorem subscript_keeps (param_map : TranslationContext) (key : String) (n : String)
    (info : VariableDefiningInfo) (h : param_map.lookup n = some info) :
    (subscript param_map key).2.lookup n = some info := by
  unfold subscript
  cases hk : param_map.lookup key with
  | some d => simpa using h
  | none =>
    have hne : n ≠ key := by
      rintro rfl
      rw [hk] at h
      cases h
    simp only
    rw [lookup_assign_ne _ _ hne]
    exact h

theorem bindInputVars_extends (info : OpInputInfo) (vars : List String) (st st1 : TransState)
    (r : Except Failure OpResult)
    (h : bindInputVars info vars st = (r, st1)) : ExtendsWithoutSlice st st1 := by
  unfold bindInputVars at h
  by_cases hvec : inputIsVector info = true
  · simp only [hvec, Bool.not_true, Bool.false_eq_true, if_false] at h
    cases hc : InsertCombineOperationForTarget st vars with
    | mk r1 st2 =>
      have hext := InsertCombine_extends st st2 vars r1 hc
      rw [hc] at h
      cases r1 with
      | error e =>
        simp only [Prod.mk.injEq] at h
        rw [← h.2]; exact hext
      | ok op =>
        simp only at h
        split at h <;> simp only [Prod.mk.injEq] at h <;> rw [← h.2] <;> exact hext
  · simp only [hvec, Bool.not_false, if_true] at h
    cases vars with
    | nil =>
      simp only [Prod.mk.injEq] at h
      rw [← h.2]; exact ExtendsWithoutSlice.refl st
    | cons var0 rest =>
      simp only [Prod.mk.injEq] at h
      rw [← h.2]
      exact ⟨⟨[], by simp, by simp⟩, fun n d hn => subscript_keeps _ _ n d hn⟩

theorem resolveInputSlot_extends (T : Tables) (op_desc : OpDesc) (info : OpInputInfo)
    (st st1 : TransState) (r : Except Failure OpResult)
    (h : resolveInputSlot T op_desc info st = (r, st1)) : ExtendsWithoutSlice st st1 := by
  unfold resolveInputSlot at h
  simp only at h
  split_ifs at h
  · simp only [Prod.mk.injEq] at h
    rw [← h.2]; exact ExtendsWithoutSlice.refl st
  · split at h
    · exact GetAttributeAsInput_extends T st st1 op_desc info r h
    · exact bindInputVars_extends info _ st st1 r h
  · exact bindInputVars_extends info _ st st1 r h

theorem resolveInputSlots_extends (T : Tables) (op_desc : OpDesc) :
    ∀ (infos : List OpInputInfo) (acc : List OpResult) (st st1 : TransState)
      (r : Except Failure (List OpResult)),
      resolveInputSlots T op_desc infos acc st = (r, st1) → ExtendsWithoutSlice st st1
  | [], acc, st, st1, r, h => by
    simp only [resolveInputSlots, Prod.mk.injEq] at h
    rw [← h.2]; exact ExtendsWithoutSlice.refl st
  | info :: rest, acc, st, st1, r, h => by
    simp only [resolveInputSlots] at h
    cases hs : resolveInputSlot T op_desc info st with
    | mk r1 st2 =>
      have hext := resolveInputSlot_extends T op_desc info st st2 r1 hs
      rw [hs] at h
      cases r1 with
      | error e =>
        simp only [Prod.mk.injEq] at h
        rw [← h.2]; exact hext
      | ok v =>
        exact hext.trans (resolveInputSlots_extends T op_desc rest _ st2 st1 r h)



theorem GenerateOperationInput_ok_split (T : Tables) (st st1 : TransState) (op_desc : OpDesc)
    (input_infos : List OpInputInfo) (op_inputs : List OpResult)
    (h : GenerateOperationInput T st op_desc input_infos = (.ok op_inputs, st1)) :
    ∃ stp, sliceInputArgs op_desc.InputArgumentNames st = (.ok (), stp) ∧
      resolveInputSlots T op_desc input_infos [] stp = (.ok op_inputs, st1) := by
  unfold GenerateOperationInput at h
  rw [sliceInputGroups_eq] at h
  cases hs : sliceInputArgs (op_desc.inputs.map Prod.snd).flatten st with
  | mk r stp =>
    rw [hs] at h
    cases r with
    | error e => simp at h
    | ok u => exact ⟨stp, hs, h⟩

theorem GenerateOperationInput_frame (T : Tables) (st st1 : TransState) (op_desc : OpDesc)
    (input_infos : List OpInputInfo) (op_inputs : List OpResult)
    (h : GenerateOperationInput T st op_desc input_infos = (.ok op_inputs, st1)) :
    (∃ extra, st1.block = st.block ++ extra ∧
      (extra.filter (fun op => op.name == "builtin.slice")).length =
        (op_desc.InputArgumentNames.toFinset.filter
          (fun n => isAggregateBound st.param_map n = true)).card) ∧
    (∀ n ∈ op_desc.InputArgumentNames, isSingletonBound st1.param_map n = true) ∧
    (∀ n info, st.param_map.lookup n = some info → info.generated_by_vector = false →
      st1.param_map.lookup n = some info) := by
  obtain ⟨stp, hpre, hslots⟩ := GenerateOperationInput_ok_split T st st1 op_desc _ _ h
  obtain ⟨extraP, hbP, hnamesP, hcount, hkeep, _, hsingle⟩ :=
    sliceInputArgs_frame _ st stp hpre
  obtain ⟨⟨extraS, hbS, hnamesS⟩, hkeepS⟩ := resolveInputSlots_extends T op_desc _ _ stp st1 _ hslots
  refine ⟨⟨extraP ++ extraS, by rw [hbS, hbP, List.append_assoc], ?_⟩, ?_, ?_⟩
  · rw [List.filter_append, List.length_append, ← hcount]
    have h1 : extraP.filter (fun op => op.name == "builtin.slice") = extraP := by
      rw [List.filter_eq_self]
      intro op hop
      simpa using hnamesP op hop
    have h2 : extraS.filter (fun op => op.name == "builtin.slice") = [] := by
      rw [List.filter_eq_nil_iff]
      intro op hop
      simpa using hnamesS op hop
    rw [h1, h2]
    simp
  · intro n hn
    have := hsingle n hn
    unfold isSingletonBound at this ⊢
    cases hl : stp.param_map.lookup n with
    | none => simp [hl] at this
    | some info =>
      rw [hkeepS n info hl]
      simpa [hl] using this
  · intro n info hl hg
    exact hkeepS n info (hkeep n info hl hg)

/-- C6: after a successful input resolution every input name of the descriptor is
singleton-bound, and the number of slice operations it appended is the number of
distinct input names that were aggregate-bound before, however often a name
occurs; a following successful input resolution of any descriptor leaves the
entries of those names unchanged and appends slice operations only for
aggregate-bound names that are not among them. -/
theorem slice_at_most_once (T : Tables) (st st1 : TransState) (op_desc : OpDesc)
    (input_infos : List OpInputInfo) (op_inputs : List OpResult)
    (hok : GenerateOperationInput T st op_desc input_infos = (.ok op_inputs, st1)) :
    (∀ n ∈ op_desc.InputArgumentNames, isSingletonBound st1.param_map n = true) ∧
    (∃ extra, st1.block = st.block ++ extra ∧
      (extra.filter (fun op => op.name == "builtin.slice")).length =
        (op_desc.InputArgumentNames.toFinset.filter
          (fun n => isAggregateBound st.param_map n = true)).card) ∧
    (∀ (T2 : Tables) (op_desc2 : OpDesc) (input_infos2 : List OpInputInfo)
        (op_inputs2 : List OpResult) (st2 : TransState),
      GenerateOperationInput T2 st1 op_desc2 input_infos2 = (.ok op_inputs2, st2) →
      (∀ n ∈ op_desc.InputArgumentNames,
        st2.param_map.lookup n = st1.param_map.lookup n) ∧
      ∃ extra2, st2.block = st1.block ++ extra2 ∧
        (extra2.filter (fun op => op.name == "builtin.slice")).length =
          ((op_desc2.InputArgumentNames.toFinset \ op_desc.InputArgumentNames.toFinset).filter
            (fun n => isAggregateBound st1.param_map n = true)).card) := by
  obtain ⟨hblock, hsingle, _⟩ := GenerateOperationInput_frame T st st1 op_desc _ _ hok
  refine ⟨hsingle, hblock, ?_⟩
  intro T2 op_desc2 input_infos2 op_inputs2 st2 hok2
  obtain ⟨⟨extra2, hb2, hcount2⟩, _, hkeep2⟩ :=
    GenerateOperationInput_frame T2 st1 st2 op_desc2 _ _ hok2
  have hnot : ∀ n ∈ op_desc.InputArgumentNames, ∃ info, st1.param_map.lookup n = some info ∧
      info.generated_by_vector = false := by
    intro n hn
    have := hsingle n hn
    unfold isSingletonBound at this
    cases hl : st1.param_map.lookup n with
    | none => simp [hl] at this
    | some info => exact ⟨info, rfl, by simpa [hl] using this⟩
  refine ⟨?_, extra2, hb2, ?_⟩
  · intro n hn
    obtain ⟨info, hl, hg⟩ := hnot n hn
    rw [hl]
    exact hkeep2 n info hl hg
  · rw [hcount2]
    congr 1
    ext n
    simp only [Finset.mem_filter, Finset.mem_sdiff, List.mem_toFinset]
    constructor
    · rintro ⟨h1, h2⟩
      refine ⟨⟨h1, ?_⟩, h2⟩
      intro hn
      obtain ⟨info, hl, hg⟩ := hnot n hn
      rw [isAggregateBound_of_lookup hl, hg] at h2
      cases h2
    · rintro ⟨⟨h1, _⟩, h2⟩
      exact ⟨h1, h2⟩

/-- Instance of C6: `exAddDesc` consumes `b` twice and `a` once, both aggregate-bound
before; two slice operations are appended and both names end singleton-bound. -/
theorem slice_at_most_once_witness :
    GenerateOperationInput exTables exAggState exAddDesc exAddSlots =
      (.ok exAddOperands, exAddStateAfter) ∧
    (∀ n ∈ exAddDesc.InputArgumentNames, isSingletonBound exAddStateAfter.param_map n = true) ∧
    (∃ extra, exAddStateAfter.block = exAggState.block ++ extra ∧
      (extra.filter (fun op => op.name == "builtin.slice")).length =
        (exAddDesc.InputArgumentNames.toFinset.filter
          (fun n => isAggregateBound exAggState.param_map n = true)).card) :=
  ⟨by decide,
    (slice_at_most_once exTables exAggState exAddStateAfter exAddDesc exAddSlots exAddOperands
      (by decide)).1,
    (slice_at_most_once exTables exAggState exAddStateAfter exAddDesc exAddSlots exAddOperands
      (by decide)).2.1⟩


/-! ### Result recording -/

theorem recordOutputArgs_frame (operation : Operation) (arg_to_idx : OpOutputMapping) :
    ∀ (args : List String) (c : Nat) (pm pm2 : TranslationContext) (r : Except Failure Unit),
      recordOutputArgs operation arg_to_idx args c pm = (r, pm2) →
      ∀ n, n ∉ args → pm2.lookup n = pm.lookup n
  | [], c, pm, pm2, r, h, n, _ => by
    simp only [recordOutputArgs, Prod.mk.injEq] at h
    rw [← h.2]
  | a :: rest, c, pm, pm2, r, h, n, hn => by
    have hna : n ≠ a := fun e => hn (e ▸ List.mem_cons_self _ _)
    have hnr : n ∉ rest := fun hm => hn (List.mem_cons_of_mem _ hm)
    simp only [recordOutputArgs] at h
    split at h
    · simp only [Prod.mk.injEq] at h
      rw [← h.2]
    · split at h
      · simp only [Prod.mk.injEq] at h
        rw [← h.2]
      · simp only [Prod.mk.injEq] at h
        rw [← h.2]
      · rw [recordOutputArgs_frame operation arg_to_idx rest _ _ pm2 r h n hnr,
          lookup_assign_ne _ _ hna]

theorem recordOutputGroups_frame (operation : Operation) (arg_to_idx : OpOutputMapping) :
    ∀ (groups : List (String × List String)) (pm pm2 : TranslationContext)
      (r : Except Failure Unit),
      recordOutputGroups operation arg_to_idx groups pm = (r, pm2) →
      ∀ n, (∀ g ∈ groups, n ∉ g.2) → pm2.lookup n = pm.lookup n
  | [], pm, pm2, r, h, n, _ => by
    simp only [recordOutputGroups, Prod.mk.injEq] at h
    rw [← h.2]
  | (key, args) :: rest, pm, pm2, r, h, n, hn => by
    simp only [recordOutputGroups] at h
    cases hs : recordOutputArgs operation arg_to_idx args 0 pm with
    | mk r1 pm1 =>
      have h1 := recordOutputArgs_frame operation arg_to_idx args 0 pm pm1 r1 hs n
        (hn (key, args) (List.mem_cons_self _ _))
      rw [hs] at h
      cases r1 with
      | error e =>
        simp only [Prod.mk.injEq] at h
        rw [← h.2, h1]
      | ok u =>
        rw [recordOutputGroups_frame operation arg_to_idx rest pm1 pm2 r h n
          (fun g hg => hn g (List.mem_cons_of_mem _ hg)), h1]

theorem recordOutputArgs_append (operation : Operation) (arg_to_idx : OpOutputMapping) :
    ∀ (xs ys : List String) (c : Nat) (pm : TranslationContext),
      recordOutputArgs operation arg_to_idx (xs ++ ys) c pm =
        (match recordOutputArgs operation arg_to_idx xs c pm with
          | (.error e, pm1) => (.error e, pm1)
          | (.ok _, pm1) => recordOutputArgs operation arg_to_idx ys (c + xs.length) pm1)
  | [], ys, c, pm => by simp [recordOutputArgs]
  | x :: xs, ys, c, pm => by
    simp only [List.cons_append, recordOutputArgs]
    split
    · rfl
    · split
      · rfl
      · rfl
      · have ih := recordOutputArgs_append operation arg_to_idx xs ys (c + 1)
        have hlen : c + (x :: xs).length = c + 1 + xs.length := by
          simp only [List.length_cons]; omega
        rw [hlen]
        exact ih _

theorem recordOutputGroups_append (operation : Operation) (arg_to_idx : OpOutputMapping) :
    ∀ (xs ys : List (String × List String)) (pm : TranslationContext),
      recordOutputGroups operation arg_to_idx (xs ++ ys) pm =
        (match recordOutputGroups operation arg_to_idx xs pm with
          | (.error e, pm1) => (.error e, pm1)
          | (.ok _, pm1) => recordOutputGroups operation arg_to_idx ys pm1)
  | [], ys, pm => by simp [recordOutputGroups]
  | (key, args) :: xs, ys, pm => by
    simp only [List.cons_append, recordOutputGroups]
    cases hs : recordOutputArgs operation arg_to_idx args 0 pm with
    | mk r1 pm1 =>
      cases r1 with
      | error e => rfl
      | ok u => exact recordOutputGroups_append operation arg_to_idx xs ys pm1

theorem recordOutputArgs_total (operation : Operation) (arg_to_idx : OpOutputMapping) :
    ∀ (args : List String) (c : Nat) (pm : TranslationContext),
      (∀ n ∈ args, ∃ i t, arg_to_idx.lookup n = some i ∧
        operation.output_types[i]? = some t) →
      ∃ pm2, recordOutputArgs operation arg_to_idx args c pm = (.ok (), pm2)
  | [], c, pm, _ => ⟨pm, rfl⟩
  | a :: rest, c, pm, h => by
    obtain ⟨i, t, hi, ht⟩ := h a (List.mem_cons_self _ _)
    obtain ⟨pm2, h2⟩ := recordOutputArgs_total operation arg_to_idx rest (c + 1)
      (assign pm a
        { value := some { owner := operation.id, index := i, type := t },
          generated_by_vector := t.isVector,
          idx_in_vector := if t.isVector = true then (c : Int) else -1 })
      (fun n hn => h n (List.mem_cons_of_mem _ hn))
    refine ⟨pm2, ?_⟩
    simp only [recordOutputArgs, hi, Operation.result, ht]
    exact h2

theorem recordOutputGroups_total (operation : Operation) (arg_to_idx : OpOutputMapping) :
    ∀ (groups : List (String × List String)) (pm : TranslationContext),
      (∀ g ∈ groups, ∀ n ∈ g.2, ∃ i t, arg_to_idx.lookup n = some i ∧
        operation.output_types[i]? = some t) →
      ∃ pm2, recordOutputGroups operation arg_to_idx groups pm = (.ok (), pm2)
  | [], pm, _ => ⟨pm, rfl⟩
  | (key, args) :: rest, pm, h => by
    obtain ⟨pm1, h1⟩ := recordOutputArgs_total operation arg_to_idx args 0 pm
      (h (key, args) (List.mem_cons_self _ _))
    obtain ⟨pm2, h2⟩ := recordOutputGroups_total operation arg_to_idx rest pm1
      (fun g hg => h g (List.mem_cons_of_mem _ hg))
    refine ⟨pm2, ?_⟩
    simp only [recordOutputGroups, h1]
    exact h2


theorem mem_OutputArgumentNames {op_desc : OpDesc} {n : String} :
    n ∈ op_desc.OutputArgumentNames ↔ ∃ g ∈ op_desc.outputs, n ∈ g.2 := by
  simp only [OpDesc.OutputArgumentNames, List.mem_flatten, List.mem_map]
  constructor
  · rintro ⟨l, ⟨g, hg, rfl⟩, hn⟩
    exact ⟨g, hg, hn⟩
  · rintro ⟨g, hg, hn⟩
    exact ⟨g.2, ⟨g, hg, rfl⟩, hn⟩

/-- C10 (as stated) fails: the name `x` sits at positions 0 and 1 of its group; after
recording it is aggregate-bound with index 1, not with index 0. -/
theorem record_duplicate_name_keeps_last_index :
    RecordOpResultMapping exEmptyState
        { type := "split", inputs := [], outputs := [("Out", ["x", "x"])], attrs := [],
          block := [] }
        (Operation.Create 0 [] [] [.vec [.other 0, .other 0]] "pd.split") [("x", 0)] =
      (.ok (),
        { block := [],
          param_map :=
            [("x", { value := some ⟨0, 0, .vec [.other 0, .other 0]⟩,
                     generated_by_vector := true, idx_in_vector := 1 })] }) ∧
    (({ value := some ⟨0, 0, .vec [.other 0, .other 0]⟩, generated_by_vector := true,
        idx_in_vector := 1 } : VariableDefiningInfo) ≠
      { value := some ⟨0, 0, .vec [.other 0, .other 0]⟩, generated_by_vector := true,
        idx_in_vector := 0 }) := by
  decide

/-- C10 (amended): when the map gives every output name of the descriptor an index
of a result of the operation, recording succeeds and leaves the block alone; an
output name whose last occurrence (in the order in which the groups and their
names are visited) sits at position `p` of its group and whose recorded index is
`i` is bound to result `i` of the operation, aggregate-bound with index `p` when
the type of that result is an aggregate type and singleton-bound (index `-1`)
otherwise, whatever it was bound to before; names that are no output names keep
their entries. -/
theorem record_binds_last_occurrence (st : TransState) (op_desc : OpDesc)
    (operation : Operation) (arg_to_idx : OpOutputMapping)
    (G1 G2 : List (String × List String)) (key : String) (a1 a2 : List String) (n : String)
    (i : Nat) (t : Ty)
    (hout : op_desc.outputs = G1 ++ (key, a1 ++ n :: a2) :: G2)
    (hlast1 : n ∉ a2) (hlast2 : ∀ g ∈ G2, n ∉ g.2)
    (hcover : ∀ m ∈ op_desc.OutputArgumentNames, ∃ j u, arg_to_idx.lookup m = some j ∧
      operation.output_types[j]? = some u)
    (hi : arg_to_idx.lookup n = some i) (ht : operation.output_types[i]? = some t) :
    ∃ st2, RecordOpResultMapping st op_desc operation arg_to_idx = (.ok (), st2) ∧
      st2.block = st.block ∧
      st2.param_map.lookup n =
        some { value := some { owner := operation.id, index := i, type := t },
               generated_by_vector := t.isVector,
               idx_in_vector := if t.isVector = true then (a1.length : Int) else -1 } ∧
      ∀ m, m ∉ op_desc.OutputArgumentNames → st2.param_map.lookup m = st.param_map.lookup m := by
  have hcov : ∀ g ∈ op_desc.outputs, ∀ m ∈ g.2, ∃ j u, arg_to_idx.lookup m = some j ∧
      operation.output_types[j]? = some u :=
    fun g hg m hm => hcover m (mem_OutputArgumentNames.2 ⟨g, hg, hm⟩)
  rw [hout] at hcov
  -- the groups before the one of the last occurrence
  obtain ⟨pm1, h1⟩ := recordOutputGroups_total operation arg_to_idx G1 st.param_map
    (fun g hg => hcov g (List.mem_append_left _ hg))
  have hgroup : ∀ m ∈ a1 ++ n :: a2, ∃ j u, arg_to_idx.lookup m = some j ∧
      operation.output_types[j]? = some u :=
    hcov (key, a1 ++ n :: a2) (List.mem_append_right _ (List.mem_cons_self _ _))
  -- the names before the last occurrence
  obtain ⟨pm2, h2⟩ := recordOutputArgs_total operation arg_to_idx a1 0 pm1
    (fun m hm => hgroup m (List.mem_append_left _ hm))
  -- the names after it
  obtain ⟨pm3, h3⟩ := recordOutputArgs_total operation arg_to_idx a2 (0 + a1.length + 1)
    (assign pm2 n
      { value := some { owner := operation.id, index := i, type := t },
        generated_by_vector := t.isVector,
        idx_in_vector := if t.isVector = true then ((0 + a1.length : Nat) : Int) else -1 })
    (fun m hm => hgroup m (List.mem_append_right _ (List.mem_cons_of_mem _ hm)))
  -- the groups after it
  obtain ⟨pm4, h4⟩ := recordOutputGroups_total operation arg_to_idx G2 pm3
    (fun g hg => hcov g (List.mem_append_right _ (List.mem_cons_of_mem _ hg)))
  have hargs : recordOutputArgs operation arg_to_idx (a1 ++ n :: a2) 0 pm1 = (.ok (), pm3) := by
    rw [recordOutputArgs_append, h2]
    simp only [recordOutputArgs, hi, Operation.result, ht]
    exact h3
  have hall : recordOutputGroups operation arg_to_idx op_desc.outputs st.param_map =
      (.ok (), pm4) := by
    rw [hout, recordOutputGroups_append, h1]
    simp only [recordOutputGroups, hargs]
    exact h4
  refine ⟨{ st with param_map := pm4 }, ?_, rfl, ?_, ?_⟩
  · simp only [RecordOpResultMapping, hall]
  · simp only
    rw [recordOutputGroups_frame operation arg_to_idx G2 pm3 pm4 _ h4 n hlast2,
      recordOutputArgs_frame operation arg_to_idx a2 _ _ pm3 _ h3 n hlast1,
      lookup_assign_self]
    simp
  · intro m hm
    simp only
    exact recordOutputGroups_frame operation arg_to_idx op_desc.outputs st.param_map pm4 _ hall m
      (fun g hg hmem => hm (mem_OutputArgumentNames.2 ⟨g, hg, hmem⟩))

/-- Instance of C10 (amended): `x`, bound before, is the first name of the group
`Out` of `exSplitDesc`; it is rebound to result 0 of the operation with index 0. -/
theorem record_binds_last_occurrence_witness :
    (exSplitDesc.outputs = [] ++ ("Out", [] ++ "x" :: ["w"]) :: [] ∧
      "x" ∉ ["w"] ∧
      exSplitMap.lookup "x" = some 0 ∧
      exSplitOp.output_types[0]? = some (.vec [.dense .FLOAT32 [2], .dense .FLOAT32 [3]]) ∧
      exState2.param_map.lookup "x" = some { value := some (exValue 0) }) ∧
    ∃ st2, RecordOpResultMapping exState2 exSplitDesc exSplitOp exSplitMap = (.ok (), st2) ∧
      st2.block = exState2.block ∧
      st2.param_map.lookup "x" =
        some { value := some { owner := exSplitOp.id, index := 0,
                               type := .vec [.dense .FLOAT32 [2], .dense .FLOAT32 [3]] },
               generated_by_vector :=
                 (Ty.vec [.dense .FLOAT32 [2], .dense .FLOAT32 [3]]).isVector,
               idx_in_vector :=
                 if (Ty.vec [.dense .FLOAT32 [2], .dense .FLOAT32 [3]]).isVector = true
                 then (([] : List String).length : Int) else -1 } ∧
      ∀ m, m ∉ exSplitDesc.OutputArgumentNames →
        st2.param_map.lookup m = exState2.param_map.lookup m :=
  ⟨by decide,
    record_binds_last_occurrence exState2 exSplitDesc exSplitOp exSplitMap [] [] "Out" []
      ["w"] "x" 0 (.vec [.dense .FLOAT32 [2], .dense .FLOAT32 [3]]) (by decide) (by decide)
      (by decide)
      (by
        intro m hm
        have hm2 : m = "x" ∨ m = "w" := by
          simpa [OpDesc.OutputArgumentNames, exSplitDesc] using hm
        rcases hm2 with rfl | rfl
        · exact ⟨0, .vec [.dense .FLOAT32 [2], .dense .FLOAT32 [3]], by decide, by decide⟩
        · exact ⟨0, .vec [.dense .FLOAT32 [2], .dense .FLOAT32 [3]], by decide, by decide⟩)
      (by decide) (by decide)⟩



theorem BoundToResultOf_assign (operation : Operation) (pm : TranslationContext)
    (a : String) (idx : Nat) (value : Value) (info : VariableDefiningInfo)
    (hres : operation.result idx = .ok (some value)) (hinfo : info.value = some value)
    (n : String) (h : n = a ∨ BoundToResultOf operation pm n) :
    BoundToResultOf operation (assign pm a info) n := by
  have hidx : value.index = idx := by
    unfold Operation.result at hres
    split at hres
    · cases hres
    · cases hres
      rfl
  by_cases hna : n = a
  · subst hna
    exact ⟨info, value, lookup_assign_self _ _ _, hinfo, by rw [hidx]; exact hres⟩
  · rcases h with h | ⟨info2, v, h1, h2, h3⟩
    · exact absurd h hna
    · exact ⟨info2, v, by rw [lookup_assign_ne _ _ hna]; exact h1, h2, h3⟩

theorem recordOutputArgs_bound (operation : Operation) (arg_to_idx : OpOutputMapping) :
    ∀ (args : List String) (c : Nat) (pm pm2 : TranslationContext),
      recordOutputArgs operation arg_to_idx args c pm = (.ok (), pm2) →
      (∀ n ∈ args, BoundToResultOf operation pm2 n) ∧
        (∀ n, BoundToResultOf operation pm n → BoundToResultOf operation pm2 n)
  | [], c, pm, pm2, h => by
    simp only [recordOutputArgs, Prod.mk.injEq, true_and] at h
    subst h
    exact ⟨fun _ hn => (by cases hn), fun _ h => h⟩
  | a :: rest, c, pm, pm2, h => by
    simp only [recordOutputArgs] at h
    split at h
    · simp at h
    · rename_i idx hidx
      split at h
      · simp at h
      · simp at h
      · rename_i value hres
        obtain ⟨ih1, ih2⟩ := recordOutputArgs_bound operation arg_to_idx rest _ _ pm2 h
        constructor
        · intro n hn
          rcases List.mem_cons.1 hn with rfl | hn
          · exact ih2 _ (BoundToResultOf_assign operation pm _ idx value _ hres rfl _ (Or.inl rfl))
          · exact ih1 n hn
        · intro n hb
          exact ih2 n (BoundToResultOf_assign operation pm a idx value _ hres rfl n (Or.inr hb))

theorem recordOutputGroups_bound (operation : Operation) (arg_to_idx : OpOutputMapping) :
    ∀ (groups : List (String × List String)) (pm pm2 : TranslationContext),
      recordOutputGroups operation arg_to_idx groups pm = (.ok (), pm2) →
      (∀ g ∈ groups, ∀ n ∈ g.2, BoundToResultOf operation pm2 n) ∧
        (∀ n, BoundToResultOf operation pm n → BoundToResultOf operation pm2 n)
  | [], pm, pm2, h => by
    simp only [recordOutputGroups, Prod.mk.injEq, true_and] at h
    subst h
    exact ⟨fun _ hg => (by cases hg), fun _ h => h⟩
  | (key, args) :: rest, pm, pm2, h => by
    simp only [recordOutputGroups] at h
    cases hs : recordOutputArgs operation arg_to_idx args 0 pm with
    | mk r1 pm1 =>
      rw [hs] at h
      cases r1 with
      | error e => simp at h
      | ok u =>
        obtain ⟨a1, a2⟩ := recordOutputArgs_bound operation arg_to_idx args 0 pm pm1 hs
        obtain ⟨ih1, ih2⟩ := recordOutputGroups_bound operation arg_to_idx rest pm1 pm2 h
        constructor
        · intro g hg n hn
          rcases List.mem_cons.1 hg with rfl | hg
          · exact ih2 n (a1 n hn)
          · exact ih1 g hg n hn
        · intro n hb
          exact ih2 n (a2 n hb)

theorem RecordOpResultMapping_ok (st st2 : TransState) (op_desc : OpDesc)
    (operation : Operation) (arg_to_idx : OpOutputMapping)
    (h : RecordOpResultMapping st op_desc operation arg_to_idx = (.ok (), st2)) :
    st2.block = st.block ∧
      ∀ g ∈ op_desc.outputs, ∀ n ∈ g.2, BoundToResultOf operation st2.param_map n := by
  unfold RecordOpResultMapping at h
  cases hs : recordOutputGroups operation arg_to_idx op_desc.outputs st.param_map with
  | mk r pm =>
    rw [hs] at h
    simp only [Prod.mk.injEq] at h
    obtain ⟨hr, hst⟩ := h
    subst hr
    rw [← hst]
    exact ⟨rfl, (recordOutputGroups_bound operation arg_to_idx _ _ pm hs).1⟩

/-! ### Handlers -/

/-- C9 (as stated) fails for the program-output handler: it succeeds on
`exFetchDesc`, whose output group names `fetch_out`, and leaves the environment
as it was; `fetch_out` is not bound. -/
theorem fetch_handler_records_nothing :
    FetchOpHandler exTables exContext exState2 exFetchDesc =
      (.ok exFetchOp, { block := exState2.block ++ [exFetchOp],
                        param_map := exState2.param_map }) ∧
    ("Out", ["fetch_out"]) ∈ exFetchDesc.outputs ∧
    exState2.param_map.lookup "fetch_out" = none := by
  decide

/-- C9 (amended): result recording applies to the general path and to the
program-input path: after the general handler or the handler of `feed` succeeds,
the operation it returns is the last one of the block and every name of every
output group of the descriptor is bound to a result of that operation. The handler
of `fetch_v2` records nothing: the environment it leaves is the one that input
resolution left. -/
theorem handlers_record_outputs (kind : HandlerKind) (T : Tables) (ctx : IrContext)
    (st st2 : TransState) (op_desc : OpDesc) (operation : Operation)
    (hok : runHandler kind T ctx st op_desc = (.ok operation, st2)) :
    st2.block.getLast? = some operation ∧
    (kind ≠ .fetch → ∀ g ∈ op_desc.outputs, ∀ n ∈ g.2,
      BoundToResultOf operation st2.param_map n) ∧
    (kind = .fetch → ∃ op_info op_inputs st1, LoopkUpOpInfo T ctx op_desc = .ok op_info ∧
      GenerateOperationInput T st op_desc op_info.input_infos = (.ok op_inputs, st1) ∧
      st2.param_map = st1.param_map) := by
  cases kind with
  | general =>
    simp only [runHandler, GeneralOpHandler] at hok
    split at hok
    · simp at hok
    · split at hok
      · simp at hok
      · split at hok
        · simp at hok
        · split at hok
          · simp at hok
          · rename_i st3 hrec
            simp only [Prod.mk.injEq, Except.ok.injEq] at hok
            obtain ⟨hop, hst⟩ := hok
            subst hst
            obtain ⟨hb, hbound⟩ := RecordOpResultMapping_ok _ _ _ _ _ hrec
            refine ⟨?_, ?_, fun h => by cases h⟩
            · rw [hb, ← hop]
              simp [TransState.push_back]
            · intro _
              rw [← hop]
              exact hbound
  | feed =>
    simp only [runHandler, FeedOpHandler] at hok
    split at hok
    · simp at hok
    · split at hok
      · simp at hok
      · split at hok
        · simp at hok
        · split at hok
          · simp at hok
          · split at hok
            · simp at hok
            · rename_i st3 hrec
              simp only [Prod.mk.injEq, Except.ok.injEq] at hok
              obtain ⟨hop, hst⟩ := hok
              subst hst
              obtain ⟨hb, hbound⟩ := RecordOpResultMapping_ok _ _ _ _ _ hrec
              refine ⟨?_, ?_, fun h => by cases h⟩
              · rw [hb, ← hop]
                simp [TransState.push_back]
              · intro _
                rw [← hop]
                exact hbound
  | fetch =>
    simp only [runHandler, FetchOpHandler] at hok
    split at hok
    · simp at hok
    · rename_i op_info hinfo
      split at hok
      · simp at hok
      · rename_i op_inputs st1 hin
        split at hok
        · simp at hok
        · split at hok
          · simp at hok
          · simp at hok
          · simp only [Prod.mk.injEq, Except.ok.injEq] at hok
            obtain ⟨hop, hst⟩ := hok
            subst hst
            refine ⟨?_, fun h => absurd rfl h, fun _ => ⟨op_info, _, st1, hinfo, hin, rfl⟩⟩
            rw [← hop]
            simp [TransState.push_back]

/-- Instance of C9 (amended): the general handler on `exReluDesc` binds `y` to
result 0 of the operation it creates. -/
theorem handlers_record_outputs_witness :
    runHandler (OpTranslator exReluDesc.type) exTables exContext exState2 exReluDesc =
      (.ok exReluOp,
        { block := exState2.block ++ [exReluOp],
          param_map := exState2.param_map ++ [("y", { value := some ⟨2, 0, .dense .FLOAT32 [2]⟩ })] }) ∧
    ∀ g ∈ exReluDesc.outputs, ∀ n ∈ g.2,
      BoundToResultOf exReluOp
        (exState2.param_map ++ [("y", { value := some ⟨2, 0, .dense .FLOAT32 [2]⟩ })]) n :=
  ⟨by decide,
    (handlers_record_outputs (OpTranslator exReluDesc.type) exTables exContext exState2
      { block := exState2.block ++ [exReluOp],
        param_map := exState2.param_map ++ [("y", { value := some ⟨2, 0, .dense .FLOAT32 [2]⟩ })] }
      exReluDesc exReluOp (by decide)).2.1 (by decide)⟩


/-! ### Output resolution -/

theorem resolveOutputSlot_ok_shape (T : Tables) (op_desc : OpDesc) (info : OpOutputInfo)
    (types types2 : List Ty) (m m2 : OpOutputMapping)
    (h : resolveOutputSlot T op_desc info types m = .ok (types2, m2)) :
    ∃ t, types2 = types ++ [t] := by
  unfold resolveOutputSlot at h
  simp only at h
  split_ifs at h
  · simp only [Except.ok.injEq, Prod.mk.injEq] at h
    exact ⟨_, h.1.symm⟩
  · split at h
    · simp only [Except.ok.injEq, Prod.mk.injEq] at h
      exact ⟨_, h.1.symm⟩
    · split at h
      · cases h
      · simp only [Except.ok.injEq, Prod.mk.injEq] at h
        exact ⟨_, h.1.symm⟩
  · split at h
    · cases h
    · simp only [Except.ok.injEq, Prod.mk.injEq] at h
      exact ⟨_, h.1.symm⟩

theorem resolveOutputSlots_length (T : Tables) (op_desc : OpDesc) :
    ∀ (infos : List OpOutputInfo) (types types2 : List Ty) (m m2 : OpOutputMapping),
      resolveOutputSlots T op_desc infos types m = .ok (types2, m2) →
      ∃ added, types2 = types ++ added ∧ added.length = infos.length
  | [], types, types2, m, m2, h => by
    simp only [resolveOutputSlots, Except.ok.injEq, Prod.mk.injEq] at h
    exact ⟨[], by simp [h.1], rfl⟩
  | info :: rest, types, types2, m, m2, h => by
    simp only [resolveOutputSlots] at h
    split at h
    · cases h
    · rename_i types1 m1 hs
      obtain ⟨t, ht⟩ := resolveOutputSlot_ok_shape T op_desc info types types1 m m1 hs
      obtain ⟨added, ha, hl⟩ := resolveOutputSlots_length T op_desc rest types1 types2 m1 m2 h
      refine ⟨t :: added, ?_, by simp [hl]⟩
      rw [ha, ht, List.append_assoc]
      rfl

theorem resolveOutputSlots_append (T : Tables) (op_desc : OpDesc) :
    ∀ (pre post : List OpOutputInfo) (types : List Ty) (m : OpOutputMapping),
      resolveOutputSlots T op_desc (pre ++ post) types m =
        (match resolveOutputSlots T op_desc pre types m with
          | .error e => .error e
          | .ok (types1, m1) => resolveOutputSlots T op_desc post types1 m1)
  | [], post, types, m => by simp [resolveOutputSlots]
  | info :: pre, post, types, m => by
    simp only [List.cons_append, resolveOutputSlots]
    split
    · rfl
    · exact resolveOutputSlots_append T op_desc pre post _ _

theorem lookup_eq_none_iff {β : Type} (l : List (String × β)) (k : String) :
    l.lookup k = none ↔ ∀ p ∈ l, p.1 ≠ k := by
  induction l with
  | nil => simp
  | cons p rest ih =>
    obtain ⟨k1, v1⟩ := p
    by_cases h : k = k1
    · subst h
      simp [List.lookup]
    · have hb : (k == k1) = false := by simpa using h
      simp only [List.lookup, hb, ih, List.mem_cons, forall_eq_or_imp, ne_eq]
      constructor
      · intro h2
        exact ⟨fun e => h e.symm, h2⟩
      · intro h2
        exact h2.2

/-- C8: for an optional output slot whose group the descriptor lacks, output
resolution of the slot succeeds, appends the null type and leaves the
name-to-index map as it is; in a successful output resolution of a schema the null
type stands at the position of the slot; and result recording changes the entry
of a name only for names of groups that the descriptor has, none of which is the
group of the slot. -/
theorem optional_output_absent (T : Tables) (op_desc : OpDesc) (info : OpOutputInfo)
    (hopt : info.optional = true)
    (habs : op_desc.HasOutput (T.GetLegacyArgName op_desc.type info.name) = false) :
    (∀ types arg_to_idx, resolveOutputSlot T op_desc info types arg_to_idx =
      .ok (types ++ [Ty.null], arg_to_idx)) ∧
    (∀ pre post types arg_to_idx,
      GenerateOperationOutput T op_desc (pre ++ info :: post) = .ok (types, arg_to_idx) →
      ∃ types1 map1, GenerateOperationOutput T op_desc pre = .ok (types1, map1) ∧
        types1.length = pre.length ∧
        resolveOutputSlots T op_desc post (types1 ++ [Ty.null]) map1 = .ok (types, arg_to_idx) ∧
        types[pre.length]? = some Ty.null) ∧
    (∀ st operation arg_to_idx r st2,
      RecordOpResultMapping st op_desc operation arg_to_idx = (r, st2) →
      st2.block = st.block ∧
      ∀ n, st2.param_map.lookup n ≠ st.param_map.lookup n →
        ∃ g ∈ op_desc.outputs, g.1 ≠ T.GetLegacyArgName op_desc.type info.name ∧ n ∈ g.2) := by
  have hslot : ∀ types arg_to_idx, resolveOutputSlot T op_desc info types arg_to_idx =
      .ok (types ++ [Ty.null], arg_to_idx) := by
    intro types arg_to_idx
    simp [resolveOutputSlot, habs, hopt]
  refine ⟨hslot, ?_, ?_⟩
  · intro pre post types arg_to_idx h
    unfold GenerateOperationOutput at h ⊢
    rw [resolveOutputSlots_append] at h
    cases hpre : resolveOutputSlots T op_desc pre [] [] with
    | error e => simp [hpre] at h
    | ok p =>
      obtain ⟨types1, map1⟩ := p
      simp only [hpre, resolveOutputSlots, hslot] at h
      obtain ⟨added1, ha1, hl1⟩ := resolveOutputSlots_length T op_desc pre [] types1 [] map1 hpre
      obtain ⟨added2, ha2, _⟩ := resolveOutputSlots_length T op_desc post _ types _ _ h
      have hlen : types1.length = pre.length := by
        rw [ha1]; simpa using hl1
      refine ⟨types1, map1, rfl, hlen, h, ?_⟩
      rw [ha2, List.append_assoc, ← hlen, List.getElem?_append_right (le_refl _)]
      simp
  · intro st operation arg_to_idx r st2 h
    unfold RecordOpResultMapping at h
    cases hs : recordOutputGroups operation arg_to_idx op_desc.outputs st.param_map with
    | mk r1 pm =>
      rw [hs] at h
      simp only [Prod.mk.injEq] at h
      obtain ⟨_, hst⟩ := h
      subst hst
      refine ⟨rfl, ?_⟩
      intro n hn
      by_contra hnot
      apply hn
      simp only
      apply recordOutputGroups_frame operation arg_to_idx _ _ pm r1 hs n
      intro g hg hmem
      apply hnot
      refine ⟨g, hg, ?_, hmem⟩
      have hnone : op_desc.outputs.lookup (T.GetLegacyArgName op_desc.type info.name) = none := by
        simpa [OpDesc.HasOutput] using habs
      exact (lookup_eq_none_iff _ _).1 hnone g hg

/-- Instance of C8: the schema of `exReluDesc` extended by the optional slot `Mask`. -/
theorem optional_output_absent_witness :
    (exMaskSlot.optional = true ∧
      exReluDesc.HasOutput (exTables.GetLegacyArgName exReluDesc.type exMaskSlot.name) = false ∧
      GenerateOperationOutput exTables exReluDesc ([exOutSlot] ++ exMaskSlot :: []) =
        .ok ([.dense .FLOAT32 [2], Ty.null], [("y", 0)])) ∧
    ∃ types1 map1, GenerateOperationOutput exTables exReluDesc [exOutSlot] = .ok (types1, map1) ∧
      types1.length = [exOutSlot].length ∧
      resolveOutputSlots exTables exReluDesc [] (types1 ++ [Ty.null]) map1 =
        .ok ([.dense .FLOAT32 [2], Ty.null], [("y", 0)]) ∧
      [Ty.dense .FLOAT32 [2], Ty.null][[exOutSlot].length]? = some Ty.null :=
  ⟨by decide,
    (optional_output_absent exTables exReluDesc exMaskSlot (by decide) (by decide)).2.1
      [exOutSlot] [] [.dense .FLOAT32 [2], Ty.null] [("y", 0)] (by decide)⟩


/-! ### A slot inside the whole input resolution -/

theorem resolveInputSlots_append (T : Tables) (op_desc : OpDesc) :
    ∀ (pre post : List OpInputInfo) (acc : List OpResult) (st : TransState),
      resolveInputSlots T op_desc (pre ++ post) acc st =
        (match resolveInputSlots T op_desc pre acc st with
          | (.error e, st1) => (.error e, st1)
          | (.ok acc1, st1) => resolveInputSlots T op_desc post acc1 st1)
  | [], post, acc, st => by simp [resolveInputSlots]
  | info :: pre, post, acc, st => by
    simp only [List.cons_append, resolveInputSlots]
    cases hs : resolveInputSlot T op_desc info st with
    | mk r st1 =>
      cases r with
      | error e => rfl
      | ok v => exact resolveInputSlots_append T op_desc pre post _ st1

theorem resolveInputSlots_acc (T : Tables) (op_desc : OpDesc) :
    ∀ (infos : List OpInputInfo) (acc out : List OpResult) (st st1 : TransState),
      resolveInputSlots T op_desc infos acc st = (.ok out, st1) →
      ∃ added, out = acc ++ added ∧ added.length = infos.length
  | [], acc, out, st, st1, h => by
    simp only [resolveInputSlots, Prod.mk.injEq, Except.ok.injEq] at h
    exact ⟨[], by simp [h.1], rfl⟩
  | info :: rest, acc, out, st, st1, h => by
    simp only [resolveInputSlots] at h
    cases hs : resolveInputSlot T op_desc info st with
    | mk r st2 =>
      rw [hs] at h
      cases r with
      | error e => simp at h
      | ok v =>
        obtain ⟨added, ha, hl⟩ := resolveInputSlots_acc T op_desc rest _ out st2 st1 h
        exact ⟨v :: added, by rw [ha, List.append_assoc]; rfl, by simp [hl]⟩

/-- How the slot loop runs through a schema: in a successful input resolution of
the slots `pre ++ info :: post` the pre-pass gives a state, the slots of `pre`
give as many operands, the body of the loop for `info` gives the operand at the
position of `info`, and the slots of `post` follow from the state it leaves. -/
theorem GenerateOperationInput_slot (T : Tables) (st st1 : TransState) (op_desc : OpDesc)
    (pre post : List OpInputInfo) (info : OpInputInfo) (op_inputs : List OpResult)
    (h : GenerateOperationInput T st op_desc (pre ++ info :: post) = (.ok op_inputs, st1)) :
    ∃ stp acc sta r stb, sliceInputGroups op_desc.inputs st = (.ok (), stp) ∧
      resolveInputSlots T op_desc pre [] stp = (.ok acc, sta) ∧ acc.length = pre.length ∧
      resolveInputSlot T op_desc info sta = (.ok r, stb) ∧
      resolveInputSlots T op_desc post (acc ++ [r]) stb = (.ok op_inputs, st1) ∧
      op_inputs[pre.length]? = some r := by
  unfold GenerateOperationInput at h
  cases hp : sliceInputGroups op_desc.inputs st with
  | mk rp stp =>
    rw [hp] at h
    cases rp with
    | error e => simp at h
    | ok u =>
      simp only at h
      rw [resolveInputSlots_append] at h
      cases hpre : resolveInputSlots T op_desc pre [] stp with
      | mk ra sta =>
        rw [hpre] at h
        cases ra with
        | error e => simp at h
        | ok acc =>
          simp only [resolveInputSlots] at h
          cases hs : resolveInputSlot T op_desc info sta with
          | mk rs stb =>
            rw [hs] at h
            cases rs with
            | error e => simp at h
            | ok r =>
              simp only at h
              obtain ⟨a1, ha1, hl1⟩ := resolveInputSlots_acc T op_desc pre [] acc stp sta hpre
              obtain ⟨a2, ha2, _⟩ := resolveInputSlots_acc T op_desc post _ op_inputs stb st1 h
              have hlen : acc.length = pre.length := by rw [ha1]; simpa using hl1
              refine ⟨stp, acc, sta, r, stb, rfl, hpre, hlen, hs, h, ?_⟩
              rw [ha2, List.append_assoc, ← hlen, List.getElem?_append_right (le_refl _)]
              simp


/-! ### Fatal paths of the handlers and of input resolution -/

/-- C11: when the registry has no entry for the resolved target name, each of the
three handlers aborts with a fatal error and leaves block and environment exactly
as on entry; when the registry has an entry, `LoopkUpOpInfo` returns that entry. -/
theorem handlers_abort_without_schema (kind : HandlerKind) (T : Tables) (ctx : IrContext)
    (st : TransState) (op_desc : OpDesc) :
    (ctx.GetRegisteredOpInfo (target_op_name T op_desc) = none →
      runHandler kind T ctx st op_desc = (.error .fatal, st)) ∧
    (∀ op_info, ctx.GetRegisteredOpInfo (target_op_name T op_desc) = some op_info →
      LoopkUpOpInfo T ctx op_desc = .ok op_info) := by
  constructor
  · intro h
    have hl : LoopkUpOpInfo T ctx op_desc = .error .fatal := by
      simp [LoopkUpOpInfo, h]
    cases kind <;> simp [runHandler, GeneralOpHandler, FeedOpHandler, FetchOpHandler, hl]
  · intro op_info h
    simp [LoopkUpOpInfo, h]

/-- Instance of C11: no schema is registered for `pd.relu`; the general handler
aborts and the state is the one on entry. -/
theorem handlers_abort_without_schema_witness :
    exEmptyContext.GetRegisteredOpInfo (target_op_name exTables exReluDesc) = none ∧
    runHandler (OpTranslator exReluDesc.type) exTables exEmptyContext exState2 exReluDesc =
      (.error .fatal, exState2) :=
  ⟨by decide,
    (handlers_abort_without_schema (OpTranslator exReluDesc.type) exTables exEmptyContext
      exState2 exReluDesc).1 (by decide)⟩

theorem InsertSlice_not_sliceable (st : TransState) (defining_info : VariableDefiningInfo)
    (arg_name : String) (h : isSliceable defining_info = false) :
    InsertSliceOperationForTarget st defining_info arg_name = (.error .undefined, st) := by
  unfold isSliceable at h
  unfold InsertSliceOperationForTarget
  cases hval : defining_info.value with
  | none => rfl
  | some A =>
    cases hA : A.type with
    | vec ts =>
      simp only [hval, hA, Bool.and_eq_false_iff, decide_eq_false_iff_not, not_le] at h
      by_cases hk : defining_info.idx_in_vector < 0
      · simp [hA, hk]
      · have hnone : ts[defining_info.idx_in_vector.toNat]? = none := by
          rcases h with h | h
          · exact absurd h hk
          · cases hg : ts[defining_info.idx_in_vector.toNat]? with
            | none => rfl
            | some t => simp [hg] at h
        simp [hA, hk, hnone]
    | null => simp [hA]
    | dense _ _ => simp [hA]
    | other _ => simp [hA]

theorem sliceInputArgs_missing : ∀ (names : List String) (st : TransState),
    (∃ n ∈ names, st.param_map.lookup n = none) →
    ∃ e st2, sliceInputArgs names st = (.error e, st2) ∧
      (∃ extra, st2.block = st.block ++ extra ∧ ∀ op ∈ extra, op.name = "builtin.slice") ∧
      (∀ n, st.param_map.lookup n = none → st2.param_map.lookup n = none) ∧
      ((∀ n ∈ names, isSoundEntry st.param_map n = true) → e = .fatal)
  | [], _, hm => by
    obtain ⟨n, hn, _⟩ := hm
    cases hn
  | n :: rest, st, hm => by
    cases hl : st.param_map.lookup n with
    | none =>
      exact ⟨.fatal, st, by simp [sliceInputArgs, hl], ⟨[], by simp, by simp⟩, fun _ h => h,
        fun _ => rfl⟩
    | some info =>
      have hm2 : ∃ m ∈ rest, st.param_map.lookup m = none := by
        obtain ⟨m, hmem, hnone⟩ := hm
        rcases List.mem_cons.1 hmem with rfl | hmem
        · rw [hl] at hnone; cases hnone
        · exact ⟨m, hmem, hnone⟩
      by_cases hg : info.generated_by_vector = true
      · by_cases hs : isSliceable info = true
        · obtain ⟨A, ts, t, hval, hA, hk, ht⟩ := (isSliceable_iff info).1 hs
          have hm1 : ∃ m ∈ rest,
              (assign st.param_map n
                { value := some { owner := st.block.length, index := 0, type := t } }).lookup m =
                none := by
            obtain ⟨m, hmem, hnone⟩ := hm2
            have hmn : m ≠ n := by
              rintro rfl
              rw [hl] at hnone; cases hnone
            exact ⟨m, hmem, by rw [lookup_assign_ne _ _ hmn]; exact hnone⟩
          obtain ⟨e, st2, h2, ⟨extra, hb, hnames⟩, hkeep, hfatal⟩ := sliceInputArgs_missing rest
            { block := st.block ++
                [{ id := st.block.length, name := "builtin.slice", operands := [some A],
                   attributes := [("index", .Int32Attribute info.idx_in_vector)],
                   output_types := [t] }],
              param_map := assign st.param_map n
                { value := some { owner := st.block.length, index := 0, type := t } } }
            hm1
          refine ⟨e, st2, ?_, ⟨_ :: extra, by simpa using hb, ?_⟩, ?_, ?_⟩
          · simp only [sliceInputArgs, hl, hg, if_true,
              InsertSlice_ok st info n A ts t hval hA hk ht]
            exact h2
          · intro op hop
            rcases List.mem_cons.1 hop with rfl | hop
            · rfl
            · exact hnames op hop
          · intro m hnone
            have hmn : m ≠ n := by
              rintro rfl
              rw [hl] at hnone; cases hnone
            exact hkeep m (by rw [lookup_assign_ne _ _ hmn]; exact hnone)
          · intro hsound
            apply hfatal
            intro m hmem
            simp only [isSoundEntry, lookup_assign]
            by_cases hmn : m = n
            · simp [hmn]
            · have := hsound m (List.mem_cons_of_mem _ hmem)
              simpa [isSoundEntry, hmn] using this
        · have hs2 : isSliceable info = false := by simpa using hs
          refine ⟨.undefined, st, ?_, ⟨[], by simp, by simp⟩, fun _ h => h, ?_⟩
          · simp [sliceInputArgs, hl, hg, InsertSlice_not_sliceable st info n hs2]
          · intro hsound
            have := hsound n (List.mem_cons_self _ _)
            simp [isSoundEntry, hl, hg, hs2] at this
      · obtain ⟨e, st2, h2, hb, hkeep, hfatal⟩ := sliceInputArgs_missing rest st hm2
        refine ⟨e, st2, ?_, hb, hkeep, fun hsound =>
          hfatal (fun m hmem => hsound m (List.mem_cons_of_mem _ hmem))⟩
        simp only [sliceInputArgs, hl, hg]
        simpa using h2

theorem sliceInputArgs_prefix_fatal : ∀ (pre : List String) (st : TransState) (v : String)
    (post : List String), st.param_map.lookup v = none →
    (∀ n ∈ pre, isSoundEntry st.param_map n = true) →
    ∃ st2, sliceInputArgs (pre ++ v :: post) st = (.error .fatal, st2)
  | [], st, v, post, hmiss, _ => ⟨st, by simp [sliceInputArgs, hmiss]⟩
  | n :: pre, st, v, post, hmiss, hsound => by
    cases hl : st.param_map.lookup n with
    | none => exact ⟨st, by simp [sliceInputArgs, hl]⟩
    | some info =>
      have hvn : v ≠ n := by
        rintro rfl
        rw [hl] at hmiss
        cases hmiss
      by_cases hg : info.generated_by_vector = true
      · have hs : isSliceable info = true := by
          have := hsound n (List.mem_cons_self _ _)
          simpa [isSoundEntry, hl, hg] using this
        obtain ⟨A, ts, t, hval, hA, hk, ht⟩ := (isSliceable_iff info).1 hs
        obtain ⟨st2, h2⟩ := sliceInputArgs_prefix_fatal pre
          { block := st.block ++
              [{ id := st.block.length, name := "builtin.slice", operands := [some A],
                 attributes := [("index", .Int32Attribute info.idx_in_vector)],
                 output_types := [t] }],
            param_map := assign st.param_map n
              { value := some { owner := st.block.length, index := 0, type := t } } }
          v post (by rw [lookup_assign_ne _ _ hvn]; exact hmiss)
          (by
            intro m hmem
            simp only [isSoundEntry, lookup_assign]
            by_cases hmn : m = n
            · simp [hmn]
            · have := hsound m (List.mem_cons_of_mem _ hmem)
              simpa [isSoundEntry, hmn] using this)
        refine ⟨st2, ?_⟩
        simp only [List.cons_append, sliceInputArgs, hl, hg, if_true,
          InsertSlice_ok st info n A ts t hval hA hk ht]
        exact h2
      · obtain ⟨st2, h2⟩ := sliceInputArgs_prefix_fatal pre st v post hmiss
          (fun m hmem => hsound m (List.mem_cons_of_mem _ hmem))
        refine ⟨st2, ?_⟩
        simp only [List.cons_append, sliceInputArgs, hl, hg]
        simpa using h2

/-- C12 (as stated) fails: the general handler, run on `exUnstackDesc` from the
state `exState2`, succeeds and leaves `xx` bound to an aggregate of one element
with the index 1. Input resolution of `exAfterUnstackDesc`, which consumes `xx`
and then `q`, a name without entry, stops in the pre-pass at the slice of `xx`,
where the code indexes the aggregate type out of its range: that is undefined
behaviour, not the fatal error of the missing entry. -/
theorem missing_input_after_unsound_entry :
    runHandler (OpTranslator exUnstackDesc.type) exTables exUnstackContext exState2
        exUnstackDesc = (.ok exUnstackOp, exUnsoundState) ∧
    "q" ∈ exAfterUnstackDesc.InputArgumentNames ∧
    exUnsoundState.param_map.lookup "q" = none ∧
    GenerateOperationInput exTables exUnsoundState exAfterUnstackDesc exAddSlots =
      (.error .undefined, exUnsoundState) ∧
    Failure.undefined ≠ Failure.fatal := by
  decide

/-- C12 (amended): when some name of some input group of the descriptor has no entry
in the environment, input resolution does not return: it stops in the pre-pass,
whatever the schema, so the block has grown by slice operations only (no combine
or constant operation was appended) and no name without entry has got one. The
stop is the fatal error of the missing entry whenever the entries of the names
visited before the missing name are sound (an aggregate-bound one can be
sliced). -/
theorem missing_input_aborts_in_prepass (T : Tables) (st : TransState) (op_desc : OpDesc)
    (input_infos : List OpInputInfo) (v : String)
    (hv : v ∈ op_desc.InputArgumentNames)
    (hmiss : st.param_map.lookup v = none) :
    ∃ e st2, GenerateOperationInput T st op_desc input_infos = (.error e, st2) ∧
      sliceInputGroups op_desc.inputs st = (.error e, st2) ∧
      (∃ extra, st2.block = st.block ++ extra ∧ ∀ op ∈ extra, op.name = "builtin.slice") ∧
      st2.param_map.lookup v = none ∧
      (∀ n, st.param_map.lookup n = none → st2.param_map.lookup n = none) ∧
      (∀ pre post, op_desc.InputArgumentNames = pre ++ v :: post →
        (∀ n ∈ pre, isSoundEntry st.param_map n = true) → e = .fatal) := by
  obtain ⟨e, st2, h, hb, hkeep, _⟩ :=
    sliceInputArgs_missing op_desc.InputArgumentNames st ⟨v, hv, hmiss⟩
  have hg : sliceInputGroups op_desc.inputs st = (.error e, st2) := by
    rw [sliceInputGroups_eq]; exact h
  refine ⟨e, st2, ?_, hg, hb, hkeep v hmiss, hkeep, ?_⟩
  · simp [GenerateOperationInput, hg]
  · intro pre post hsplit hsound
    obtain ⟨st3, h3⟩ := sliceInputArgs_prefix_fatal pre st v post hmiss hsound
    rw [hsplit, h3] at h
    simp only [Prod.mk.injEq, Except.error.injEq] at h
    exact h.1.symm

/-- Instance of C12 (amended): `q` has no entry in `exAggState`; the pre-pass slices `b`,
whose entry is sound, and then aborts with the fatal error. -/
theorem missing_input_aborts_in_prepass_witness :
    ("q" ∈ exMissingInputDesc.InputArgumentNames ∧
      exAggState.param_map.lookup "q" = none ∧
      exMissingInputDesc.InputArgumentNames = ["b"] ++ "q" :: [] ∧
      (∀ n ∈ ["b"], isSoundEntry exAggState.param_map n = true) ∧
      GenerateOperationInput exTables exAggState exMissingInputDesc exAddSlots =
        (.error .fatal,
          { block := exAggState.block ++
              [Operation.Create 1 [some exAggregate] [("index", .Int32Attribute 1)]
                 [.dense .INT64 [3]] "builtin.slice"],
            param_map := assign exAggState.param_map "b"
              { value := some ⟨1, 0, .dense .INT64 [3]⟩ } })) ∧
    ∃ e st2, GenerateOperationInput exTables exAggState exMissingInputDesc exAddSlots =
        (.error e, st2) ∧
      sliceInputGroups exMissingInputDesc.inputs exAggState = (.error e, st2) ∧
      (∃ extra, st2.block = exAggState.block ++ extra ∧
        ∀ op ∈ extra, op.name = "builtin.slice") ∧
      st2.param_map.lookup "q" = none ∧
      (∀ n, exAggState.param_map.lookup n = none → st2.param_map.lookup n = none) ∧
      (∀ pre post, exMissingInputDesc.InputArgumentNames = pre ++ "q" :: post →
        (∀ n ∈ pre, isSoundEntry exAggState.param_map n = true) → e = .fatal) :=
  ⟨by decide,
    missing_input_aborts_in_prepass exTables exAggState exMissingInputDesc exAddSlots "q"
      (by decide) (by decide)⟩

/-! ### Attribute resolution -/

theorem mem_keys_assign {β : Type} (m : List (String × β)) (k k2 : String) (v : β) :
    k2 ∈ (assign m k v).map Prod.fst ↔ k2 = k ∨ k2 ∈ m.map Prod.fst := by
  induction m with
  | nil => simp [assign]
  | cons p rest ih =>
    obtain ⟨k1, v1⟩ := p
    by_cases hk : k = k1
    · subst hk
      simp [assign]
    · have hne : (k == k1) = false := by simpa using hk
      simp only [assign, hne, Bool.false_eq_true, if_false, List.map_cons, List.mem_cons, ih]
      tauto

theorem nodup_keys_assign {β : Type} (m : List (String × β)) (k : String) (v : β)
    (h : (m.map Prod.fst).Nodup) : ((assign m k v).map Prod.fst).Nodup := by
  induction m with
  | nil => simp [assign]
  | cons p rest ih =>
    obtain ⟨k1, v1⟩ := p
    simp only [List.map_cons, List.nodup_cons] at h
    by_cases hk : k = k1
    · subst hk
      simpa [assign] using h
    · have hne : (k == k1) = false := by simpa using hk
      simp only [assign, hne, Bool.false_eq_true, if_false, List.map_cons, List.nodup_cons]
      refine ⟨?_, ih h.2⟩
      rw [mem_keys_assign]
      rintro (h1 | h1)
      · exact hk h1.symm
      · exact h.1 h1

theorem translateAttributes_append (T : Tables) (op_desc : OpDesc) :
    ∀ (xs ys : List OpAttributeInfo) (acc : AttributeMap),
      translateAttributes T op_desc (xs ++ ys) acc =
        translateAttributes T op_desc ys (translateAttributes T op_desc xs acc)
  | [], _, _ => rfl
  | x :: xs, ys, acc => by
    simp only [List.cons_append, translateAttributes]
    exact translateAttributes_append T op_desc xs ys _

theorem lookup_translateAttributes_frame (T : Tables) (op_desc : OpDesc) (k : String) :
    ∀ (infos : List OpAttributeInfo) (acc : AttributeMap),
      (∀ a ∈ infos, a.name ≠ k) →
      (translateAttributes T op_desc infos acc).lookup k = acc.lookup k
  | [], _, _ => rfl
  | x :: xs, acc, h => by
    simp only [translateAttributes]
    rw [lookup_translateAttributes_frame T op_desc k xs _
      (fun a ha => h a (List.mem_cons_of_mem _ ha))]
    exact lookup_assign_ne _ _ (fun e => h x (List.mem_cons_self _ _) e.symm)

theorem keys_translateAttributes (T : Tables) (op_desc : OpDesc) :
    ∀ (infos : List OpAttributeInfo) (acc : AttributeMap),
      (acc.map Prod.fst).Nodup →
      ((translateAttributes T op_desc infos acc).map Prod.fst).Nodup ∧
        ∀ k, k ∈ (translateAttributes T op_desc infos acc).map Prod.fst ↔
          k ∈ acc.map Prod.fst ∨ k ∈ infos.map OpAttributeInfo.name
  | [], acc, h => ⟨h, by simp [translateAttributes]⟩
  | x :: xs, acc, h => by
    simp only [translateAttributes]
    obtain ⟨h1, h2⟩ := keys_translateAttributes T op_desc xs _
      (nodup_keys_assign acc x.name
        (T.attribute_translator x.type_name
          (if op_desc.HasAttr (T.GetLegacyAttrName op_desc.type x.name) = true
            then op_desc.GetAttr (T.GetLegacyAttrName op_desc.type x.name)
            else LegacyAttr.blank)) h)
    refine ⟨h1, ?_⟩
    intro k
    rw [h2, mem_keys_assign]
    simp only [List.map_cons, List.mem_cons]
    tauto

/-- C14: attribute resolution is a total function of the descriptor and the slot
list; the keys of the map it returns are pairwise distinct and are exactly the
names of the slots; the value under the name of a slot is the conversion table
applied to the type tag of the slot (the last slot of that name, should a name
occur on several) and to the legacy value found under the legacy attribute name of
the slot, or to the blank value when the descriptor has no such attribute; this
includes the empty attribute when the conversion gives it. -/
theorem attribute_map_of_schema (T : Tables) (op_desc : OpDesc)
    (op_attr_infos : List OpAttributeInfo) :
    ((TranslateOpAttribute T op_attr_infos op_desc).map Prod.fst).Nodup ∧
    (∀ k, k ∈ (TranslateOpAttribute T op_attr_infos op_desc).map Prod.fst ↔
      k ∈ op_attr_infos.map OpAttributeInfo.name) ∧
    (∀ pre info post, op_attr_infos = pre ++ info :: post →
      (∀ a ∈ post, a.name ≠ info.name) →
      (TranslateOpAttribute T op_attr_infos op_desc).lookup info.name =
        some (T.attribute_translator info.type_name
          (if op_desc.HasAttr (T.GetLegacyAttrName op_desc.type info.name) = true
            then op_desc.GetAttr (T.GetLegacyAttrName op_desc.type info.name)
            else LegacyAttr.blank))) := by
  obtain ⟨h1, h2⟩ := keys_translateAttributes T op_desc op_attr_infos [] (by simp)
  refine ⟨h1, fun k => by simpa using h2 k, ?_⟩
  intro pre info post hsplit hlast
  unfold TranslateOpAttribute
  rw [hsplit, translateAttributes_append]
  simp only [translateAttributes]
  rw [lookup_translateAttributes_frame T op_desc info.name post _ hlast, lookup_assign_self]

/-- C13: when the descriptor does not carry the legacy attribute that the slot name
maps to, `GetAttributeAsInput` aborts with a fatal error and the state is the one
on entry, so no constant operation was appended; `TranslateOpAttribute` on the same
descriptor, for an attribute slot of the same name, returns a map that holds under
that name the conversion of the blank value. -/
theorem missing_attribute_fatal_only_as_input (T : Tables) (st : TransState)
    (op_desc : OpDesc) (input_info : OpInputInfo)
    (hno : op_desc.HasAttr (T.GetLegacyAttrName op_desc.type input_info.name) = false) :
    GetAttributeAsInput T st op_desc input_info = (.error .fatal, st) ∧
    ∀ pre attr_info post, attr_info.name = input_info.name →
      (∀ a ∈ post, a.name ≠ attr_info.name) →
      (TranslateOpAttribute T (pre ++ attr_info :: post) op_desc).lookup attr_info.name =
        some (T.attribute_translator attr_info.type_name LegacyAttr.blank) := by
  constructor
  · simp [GetAttributeAsInput, hno]
  · intro pre attr_info post hname hlast
    unfold TranslateOpAttribute
    rw [translateAttributes_append]
    simp only [translateAttributes]
    rw [lookup_translateAttributes_frame T op_desc attr_info.name post _ hlast,
      lookup_assign_self, hname, hno]
    simp

/-- Instance of C13: `exReluDesc` carries no attribute `scale`. -/
theorem missing_attribute_fatal_only_as_input_witness :
    exReluDesc.HasAttr (exTables.GetLegacyAttrName exReluDesc.type exScaleSlot.name) = false ∧
    GetAttributeAsInput exTables exState2 exReluDesc exScaleSlot = (.error .fatal, exState2) ∧
    TranslateOpAttribute exTables exAttrSlots exReluDesc =
      [("scale", .null), ("bias", .null)] :=
  ⟨by decide,
    (missing_attribute_fatal_only_as_input exTables exState2 exReluDesc exScaleSlot
      (by decide)).1,
    by decide⟩


/-! ### Optional inputs and the kind of a synthesized constant -/

/-- C18: for an optional input slot whose own group is absent or empty, the body of
the slot loop gives the null handle and leaves block and environment as they are,
whether or not the slot is a registered mutable attribute, whatever its candidates
are and whether or not the descriptor carries the static attribute; in a
successful input resolution the null handle stands at the position of the
slot. -/
theorem optional_input_absent (T : Tables) (op_desc : OpDesc) (info : OpInputInfo)
    (hopt : info.optional = true) (hown : ownInputVars T op_desc info = []) :
    (∀ st, resolveInputSlot T op_desc info st = (.ok none, st)) ∧
    (∀ st st1 pre post op_inputs,
      GenerateOperationInput T st op_desc (pre ++ info :: post) = (.ok op_inputs, st1) →
      op_inputs[pre.length]? = some none) := by
  have hslot : ∀ st, resolveInputSlot T op_desc info st = (.ok none, st) := by
    intro st
    simp [resolveInputSlot, hown, hopt]
  refine ⟨hslot, ?_⟩
  intro st st1 pre post op_inputs h
  obtain ⟨stp, acc, sta, r, stb, _, _, _, hs, _, hpos⟩ :=
    GenerateOperationInput_slot T st st1 op_desc pre post info op_inputs h
  rw [hslot sta] at hs
  simp only [Prod.mk.injEq, Except.ok.injEq] at hs
  rw [hpos, ← hs.1]

/-- Instance of C18: the optional slot `scale` of a `scale` descriptor that carries
the static attribute and of one that gives the candidate tensor. -/
theorem optional_input_absent_witness :
    (exOptionalScaleSlot.optional = true ∧
      ownInputVars exTables exScaleByAttr exOptionalScaleSlot = [] ∧
      isMutableAttribute exTables exScaleByAttr exOptionalScaleSlot.name = true ∧
      exScaleByAttr.HasAttr
        (exTables.GetLegacyAttrName exScaleByAttr.type exOptionalScaleSlot.name) = true) ∧
    ∀ st, resolveInputSlot exTables exScaleByAttr exOptionalScaleSlot st = (.ok none, st) :=
  ⟨by decide,
    (optional_input_absent exTables exScaleByAttr exOptionalScaleSlot (by decide)
      (by decide)).1⟩

/-- C19: on the fallback path, with the legacy attribute present, the slot's type
tag decides the kind of the constant. If the tag contains `IntArrayAttribute`, an
array-constant operation of element type `INT64` is appended when the converted
attribute is an integer array, and the path aborts otherwise. If the tag does not
contain it, a scalar-constant operation of shape `[1]` is appended whose element
type is `FLOAT32`, `FLOAT64`, `INT32`, `INT64` or `BOOL` for a converted float,
double, int32, int64 or bool attribute. The operand is result 0 of the appended
operation. -/
theorem attribute_input_kind (T : Tables) (st : TransState) (op_desc : OpDesc)
    (info : OpInputInfo)
    (hattr : op_desc.HasAttr (T.GetLegacyAttrName op_desc.type info.name) = true) :
    (contains info.type_name "IntArrayAttribute" = true →
      (∀ vs, T.attribute_translator info.type_name
          (op_desc.GetAttr (T.GetLegacyAttrName op_desc.type info.name)) =
            .IntArrayAttribute vs →
        GetAttributeAsInput T st op_desc info =
          (.ok (some ⟨st.block.length, 0, .dense .INT64 [(vs.length : Int)]⟩),
            { block := st.block ++
                [{ id := st.block.length, name := "pd.full_int_array", operands := [],
                   attributes := [("value", .IntArrayAttribute vs),
                     ("dtype", .DataTypeAttribute .INT64), ("place", .PlaceAttribute true)],
                   output_types := [.dense .INT64 [(vs.length : Int)]] }],
              param_map := st.param_map })) ∧
      ((∀ vs, T.attribute_translator info.type_name
          (op_desc.GetAttr (T.GetLegacyAttrName op_desc.type info.name)) ≠
            .IntArrayAttribute vs) →
        GetAttributeAsInput T st op_desc info = (.error .fatal, st))) ∧
    (contains info.type_name "IntArrayAttribute" = false →
      ∀ data dtype,
        fullOperationData (T.attribute_translator info.type_name
          (op_desc.GetAttr (T.GetLegacyAttrName op_desc.type info.name))) = (data, dtype) →
        GetAttributeAsInput T st op_desc info =
          (.ok (some ⟨st.block.length, 0, .dense dtype [1]⟩),
            { block := st.block ++
                [{ id := st.block.length, name := "pd.full", operands := [],
                   attributes := [("shape", .IntArrayAttribute [1]), ("value", .ScalarData data),
                     ("dtype", .DataTypeAttribute dtype), ("place", .PlaceAttribute true)],
                   output_types := [.dense dtype [1]] }],
              param_map := st.param_map })) ∧
    (∀ bits, fullOperationData (.FloatAttribute bits) = (.ofFloat bits, .FLOAT32)) ∧
    (∀ bits, fullOperationData (.DoubleAttribute bits) = (.ofDouble bits, .FLOAT64)) ∧
    (∀ v, fullOperationData (.Int32Attribute v) = (.ofInt32 v, .INT32)) ∧
    (∀ v, fullOperationData (.Int64Attribute v) = (.ofInt64 v, .INT64)) ∧
    (∀ b, fullOperationData (.BoolAttribute b) = (.ofBool b, .BOOL)) := by
  refine ⟨?_, ?_, fun _ => rfl, fun _ => rfl, fun _ => rfl, fun _ => rfl, fun _ => rfl⟩
  · intro hia
    constructor
    · intro vs hvs
      simp [GetAttributeAsInput, hattr, hia, hvs, InsertFullArrayOperationForAttributeInput,
        BuildFullIntArrayOp, Operation.result, Operation.Create, TransState.push_back]
    · intro hnot
      simp only [GetAttributeAsInput, hattr, hia, Bool.not_true, Bool.false_eq_true, if_false,
        if_true]
      cases hc : T.attribute_translator info.type_name
          (op_desc.GetAttr (T.GetLegacyAttrName op_desc.type info.name)) with
      | IntArrayAttribute vs => exact absurd hc (hnot vs)
      | _ => simp [InsertFullArrayOperationForAttributeInput]
  · intro hia data dtype hd
    simp [GetAttributeAsInput, hattr, hia, hd, InsertFullOperationForAttributeInput,
      BuildFullOp, Operation.result, Operation.Create, TransState.push_back]

/-- Instance of C19: the static attribute `scale` of `exScaleByAttr` is a float; a
scalar constant of element type `FLOAT32` is appended. -/
theorem attribute_input_kind_witness :
    (exScaleByAttr.HasAttr (exTables.GetLegacyAttrName exScaleByAttr.type exScaleSlot.name) =
        true ∧
      contains exScaleSlot.type_name "IntArrayAttribute" = false) ∧
    GetAttributeAsInput exTables exState2 exScaleByAttr exScaleSlot =
      (.ok (some ⟨exState2.block.length, 0, .dense .FLOAT32 [1]⟩),
        { block := exState2.block ++
            [{ id := exState2.block.length, name := "pd.full", operands := [],
               attributes := [("shape", .IntArrayAttribute [1]),
                 ("value", .ScalarData (.ofFloat 1084227584)),
                 ("dtype", .DataTypeAttribute .FLOAT32), ("place", .PlaceAttribute true)],
               output_types := [.dense .FLOAT32 [1]] }],
          param_map := exState2.param_map }) :=
  ⟨by decide,
    (attribute_input_kind exTables exState2 exScaleByAttr exScaleSlot (by decide)).2.1
      (by decide) (.ofFloat 1084227584) .FLOAT32 (by decide)⟩


/-! ### When output resolution aborts -/

theorem mem_of_lookup_eq_some {β : Type} :
    ∀ (l : List (String × β)) (k : String) (v : β), l.lookup k = some v → (k, v) ∈ l
  | [], _, _, h => by simp at h
  | (k1, v1) :: rest, k, v, h => by
    by_cases hk : k = k1
    · subst hk
      simp only [List.lookup, beq_self_eq_true, Option.some.injEq] at h
      subst h
      exact List.mem_cons_self _ _
    · have hb : (k == k1) = false := by simpa using hk
      simp only [List.lookup, hb] at h
      exact List.mem_cons_of_mem _ (mem_of_lookup_eq_some rest k v h)

theorem Output_subset (op_desc : OpDesc) (k : String) :
    ∀ n ∈ op_desc.Output k, n ∈ op_desc.OutputArgumentNames := by
  intro n hn
  unfold OpDesc.Output at hn
  cases hl : op_desc.outputs.lookup k with
  | none => simp [hl] at hn
  | some args =>
    simp only [hl, Option.getD_some] at hn
    exact mem_OutputArgumentNames.2 ⟨(k, args), mem_of_lookup_eq_some _ _ _ hl, hn⟩

theorem translateVarType_ok (T : Tables) (op_desc : OpDesc) (n : String)
    (hdecl : (op_desc.FindVarRecursive n).isSome = true)
    (htotal : ∀ v, (T.type_translator v).isSome = true) :
    ∃ t, translateVarType T op_desc n = .ok t := by
  unfold translateVarType
  cases hf : op_desc.FindVarRecursive n with
  | none => simp [hf] at hdecl
  | some var =>
    have := htotal var
    cases ht : T.type_translator var with
    | none => simp [ht] at this
    | some t => exact ⟨t, by simp [ht]⟩

theorem translateOutputVars_total (T : Tables) (op_desc : OpDesc) (idx : Nat) :
    ∀ (names : List String) (types : List Ty) (m : OpOutputMapping),
      (∀ n ∈ names, ∃ t, translateVarType T op_desc n = .ok t) →
      ∃ r, translateOutputVars T op_desc idx names types m = .ok r
  | [], types, m, _ => ⟨(types, m), rfl⟩
  | n :: rest, types, m, h => by
    obtain ⟨t, ht⟩ := h n (List.mem_cons_self _ _)
    obtain ⟨r, hr⟩ := translateOutputVars_total T op_desc idx rest (types ++ [t])
      (assign m n idx) (fun k hk => h k (List.mem_cons_of_mem _ hk))
    exact ⟨r, by simp only [translateOutputVars, ht]; exact hr⟩

theorem resolveOutputSlot_outcome (T : Tables) (op_desc : OpDesc) (info : OpOutputInfo)
    (types : List Ty) (m : OpOutputMapping)
    (hdecl : ∀ n ∈ op_desc.OutputArgumentNames, (op_desc.FindVarRecursive n).isSome = true)
    (htotal : ∀ v, (T.type_translator v).isSome = true) :
    ((info.optional = false ∧
        op_desc.HasOutput (T.GetLegacyArgName op_desc.type info.name) = false) →
      resolveOutputSlot T op_desc info types m = .error .fatal) ∧
    (¬ (info.optional = false ∧
        op_desc.HasOutput (T.GetLegacyArgName op_desc.type info.name) = false) →
      ∃ r, resolveOutputSlot T op_desc info types m = .ok r) := by
  have hvar : ∀ n ∈ op_desc.Output (T.GetLegacyArgName op_desc.type info.name),
      ∃ t, translateVarType T op_desc n = .ok t :=
    fun n hn => translateVarType_ok T op_desc n (hdecl n (Output_subset op_desc _ n hn)) htotal
  constructor
  · rintro ⟨ho, hh⟩
    simp [resolveOutputSlot, ho, hh]
  · intro hnot
    unfold resolveOutputSlot
    by_cases hh : op_desc.HasOutput (T.GetLegacyArgName op_desc.type info.name) = true
    · simp only [hh, Bool.not_true, Bool.false_eq_true, if_false]
      by_cases hv : outputIsVector info = true
      · simp only [hv, Bool.not_true, Bool.false_eq_true, if_false]
        obtain ⟨r, hr⟩ := translateOutputVars_total T op_desc types.length _ [] m hvar
        rw [hr]
        exact ⟨_, rfl⟩
      · simp only [hv, Bool.not_false, if_true]
        cases hout : op_desc.Output (T.GetLegacyArgName op_desc.type info.name) with
        | nil => exact ⟨_, rfl⟩
        | cons v rest =>
          obtain ⟨t, ht⟩ := hvar v (by rw [hout]; exact List.mem_cons_self _ _)
          simp only [ht]
          exact ⟨_, rfl⟩
    · have hh2 : op_desc.HasOutput (T.GetLegacyArgName op_desc.type info.name) = false := by
        simpa using hh
      have ho : info.optional = true := by
        by_contra hc
        exact hnot ⟨by simpa using hc, hh2⟩
      simp only [hh2, Bool.not_false, if_true, ho]
      exact ⟨_, rfl⟩

theorem resolveOutputSlots_outcome (T : Tables) (op_desc : OpDesc)
    (hdecl : ∀ n ∈ op_desc.OutputArgumentNames, (op_desc.FindVarRecursive n).isSome = true)
    (htotal : ∀ v, (T.type_translator v).isSome = true) :
    ∀ (infos : List OpOutputInfo) (types : List Ty) (m : OpOutputMapping),
      ((∃ info ∈ infos, info.optional = false ∧
          op_desc.HasOutput (T.GetLegacyArgName op_desc.type info.name) = false) →
        resolveOutputSlots T op_desc infos types m = .error .fatal) ∧
      ((¬ ∃ info ∈ infos, info.optional = false ∧
          op_desc.HasOutput (T.GetLegacyArgName op_desc.type info.name) = false) →
        ∃ r, resolveOutputSlots T op_desc infos types m = .ok r)
  | [], types, m => by
    constructor
    · rintro ⟨info, hmem, _⟩
      cases hmem
    · intro _
      exact ⟨_, rfl⟩
  | info :: rest, types, m => by
    obtain ⟨hbad, hgood⟩ := resolveOutputSlot_outcome T op_desc info types m hdecl htotal
    by_cases hb : info.optional = false ∧
        op_desc.HasOutput (T.GetLegacyArgName op_desc.type info.name) = false
    · constructor
      · intro _
        simp only [resolveOutputSlots, hbad hb]
      · intro hnot
        exact absurd ⟨info, List.mem_cons_self _ _, hb⟩ hnot
    · obtain ⟨⟨types1, m1⟩, hr⟩ := hgood hb
      obtain ⟨ih1, ih2⟩ := resolveOutputSlots_outcome T op_desc hdecl htotal rest types1 m1
      constructor
      · rintro ⟨info2, hmem, h2⟩
        simp only [resolveOutputSlots, hr]
        apply ih1
        rcases List.mem_cons.1 hmem with rfl | hmem
        · exact absurd h2 hb
        · exact ⟨info2, hmem, h2⟩
      · intro hnot
        simp only [resolveOutputSlots, hr]
        apply ih2
        rintro ⟨info2, hmem, h2⟩
        exact hnot ⟨info2, List.mem_cons_of_mem _ hmem, h2⟩

/-- C15: when every variable named in the output groups of the descriptor is
declared and the type conversion has a result for every variable, output
resolution aborts with a fatal error if and only if some output slot of the schema
is not optional and the descriptor lacks its group; otherwise it returns a
result. -/
theorem output_resolution_fatal_iff (T : Tables) (op_desc : OpDesc)
    (output_infos : List OpOutputInfo)
    (hdecl : ∀ n ∈ op_desc.OutputArgumentNames, (op_desc.FindVarRecursive n).isSome = true)
    (htotal : ∀ v, (T.type_translator v).isSome = true) :
    (GenerateOperationOutput T op_desc output_infos = .error .fatal ↔
      ∃ info ∈ output_infos, info.optional = false ∧
        op_desc.HasOutput (T.GetLegacyArgName op_desc.type info.name) = false) ∧
    ((¬ ∃ info ∈ output_infos, info.optional = false ∧
        op_desc.HasOutput (T.GetLegacyArgName op_desc.type info.name) = false) →
      ∃ r, GenerateOperationOutput T op_desc output_infos = .ok r) := by
  obtain ⟨h1, h2⟩ := resolveOutputSlots_outcome T op_desc hdecl htotal output_infos [] []
  refine ⟨⟨?_, h1⟩, h2⟩
  intro hf
  by_contra hnot
  obtain ⟨r, hr⟩ := h2 hnot
  unfold GenerateOperationOutput at hf
  rw [hr] at hf
  cases hf

/-- Instance of C15: `exReluDesc` declares its output `y`; the required slot `Mask`
has no group, so output resolution of a schema with that slot aborts. -/
theorem output_resolution_fatal_iff_witness :
    ((∀ n ∈ exReluDesc.OutputArgumentNames, (exReluDesc.FindVarRecursive n).isSome = true) ∧
      (∀ v, (exTables.type_translator v).isSome = true)) ∧
    GenerateOperationOutput exTables exReluDesc [exOutSlot, exRequiredMaskSlot] =
      .error .fatal :=
  ⟨⟨by decide, fun _ => rfl⟩,
    (output_resolution_fatal_iff exTables exReluDesc [exOutSlot, exRequiredMaskSlot]
      (by decide) (fun _ => rfl)).1.2
      ⟨exRequiredMaskSlot, by decide, by decide, by decide⟩⟩


/-! ### What output resolution returns -/

theorem translateVarType_ok_iff (T : Tables) (op_desc : OpDesc) (n : String) (t : Ty) :
    translateVarType T op_desc n = .ok t ↔
      ∃ var, op_desc.FindVarRecursive n = some var ∧ T.type_translator var = some t := by
  unfold translateVarType
  cases hf : op_desc.FindVarRecursive n with
  | none => simp
  | some var =>
    cases ht : T.type_translator var with
    | none => simp [ht]
    | some t2 => simp [ht]

theorem translateOutputVars_inv (T : Tables) (op_desc : OpDesc) (idx : Nat) :
    ∀ (names : List String) (types types2 : List Ty) (m m2 : OpOutputMapping),
      translateOutputVars T op_desc idx names types m = .ok (types2, m2) →
      ∃ ts, List.Forall₂ (fun n t => translateVarType T op_desc n = .ok t) names ts ∧
        types2 = types ++ ts ∧ (∀ n ∈ names, m2.lookup n = some idx) ∧
        (∀ n, n ∉ names → m2.lookup n = m.lookup n)
  | [], types, types2, m, m2, h => by
    simp only [translateOutputVars, Except.ok.injEq, Prod.mk.injEq] at h
    exact ⟨[], List.Forall₂.nil, by simp [h.1], fun _ hn => (by cases hn),
      fun _ _ => (by rw [h.2])⟩
  | n :: rest, types, types2, m, m2, h => by
    simp only [translateOutputVars] at h
    split at h
    · cases h
    · rename_i t ht
      obtain ⟨ts, hf, hty, hin, hout⟩ :=
        translateOutputVars_inv T op_desc idx rest _ types2 _ m2 h
      refine ⟨t :: ts, List.Forall₂.cons ht hf, by rw [hty, List.append_assoc]; rfl, ?_, ?_⟩
      · intro k hk
        by_cases hkr : k ∈ rest
        · exact hin k hkr
        · have hkn : k = n := by
            rcases List.mem_cons.1 hk with h1 | h1
            · exact h1
            · exact absurd h1 hkr
          rw [hout k hkr, hkn, lookup_assign_self]
      · intro k hk
        have hkn : k ≠ n := fun e => hk (e ▸ List.mem_cons_self _ _)
        rw [hout k (fun hm => hk (List.mem_cons_of_mem _ hm)), lookup_assign_ne _ _ hkn]

theorem resolveOutputSlot_inv (T : Tables) (op_desc : OpDesc) (info : OpOutputInfo)
    (types types2 : List Ty) (m m2 : OpOutputMapping)
    (h : resolveOutputSlot T op_desc info types m = .ok (types2, m2)) :
    ∃ entry, types2 = types ++ [entry] ∧
      (op_desc.HasOutput (T.GetLegacyArgName op_desc.type info.name) = false →
        info.optional = true ∧ entry = Ty.null ∧ m2 = m) ∧
      (op_desc.HasOutput (T.GetLegacyArgName op_desc.type info.name) = true →
        outputIsVector info = false →
        (op_desc.Output (T.GetLegacyArgName op_desc.type info.name) = [] →
          entry = Ty.null ∧ m2 = m) ∧
        (∀ v rest, op_desc.Output (T.GetLegacyArgName op_desc.type info.name) = v :: rest →
          translateVarType T op_desc v = .ok entry ∧ m2 = assign m v types.length)) ∧
      (op_desc.HasOutput (T.GetLegacyArgName op_desc.type info.name) = true →
        outputIsVector info = true →
        ∃ ts, List.Forall₂ (fun n t => translateVarType T op_desc n = .ok t)
            (op_desc.Output (T.GetLegacyArgName op_desc.type info.name)) ts ∧
          entry = Ty.vec ts ∧
          (∀ n ∈ op_desc.Output (T.GetLegacyArgName op_desc.type info.name),
            m2.lookup n = some types.length) ∧
          (∀ n, n ∉ op_desc.Output (T.GetLegacyArgName op_desc.type info.name) →
            m2.lookup n = m.lookup n)) := by
  unfold resolveOutputSlot at h
  by_cases hh : op_desc.HasOutput (T.GetLegacyArgName op_desc.type info.name) = true
  · have nh : op_desc.HasOutput (T.GetLegacyArgName op_desc.type info.name) = false → False := by
      intro hc; rw [hh] at hc; cases hc
    simp only [hh, Bool.not_true, Bool.false_eq_true, if_false] at h
    by_cases hv : outputIsVector info = true
    · have nv : outputIsVector info = false → False := by
        intro hc; rw [hv] at hc; cases hc
      simp only [hv, Bool.not_true, Bool.false_eq_true, if_false] at h
      split at h
      · cases h
      · rename_i ts1 m1 hr
        simp only [Except.ok.injEq, Prod.mk.injEq] at h
        obtain ⟨ts, hf, hty, hin, hout⟩ := translateOutputVars_inv T op_desc _ _ _ _ _ _ hr
        refine ⟨Ty.vec ts1, h.1.symm, fun hc => (nh hc).elim, fun _ hc => (nv hc).elim, ?_⟩
        intro _ _
        rw [← h.2]
        exact ⟨ts, hf, by rw [hty]; simp, hin, hout⟩
    · have hv2 : outputIsVector info = false := by simpa using hv
      have nv : outputIsVector info = true → False := fun hc => hv hc
      simp only [hv2, Bool.not_false, if_true] at h
      split at h
      · rename_i hout
        simp only [Except.ok.injEq, Prod.mk.injEq] at h
        refine ⟨Ty.null, h.1.symm, fun hc => (nh hc).elim, ?_, fun _ hc => (nv hc).elim⟩
        intro _ _
        refine ⟨fun _ => ⟨rfl, h.2.symm⟩, ?_⟩
        intro v rest hvr
        rw [hout] at hvr
        cases hvr
      · rename_i v rest hout
        split at h
        · cases h
        · rename_i t ht
          simp only [Except.ok.injEq, Prod.mk.injEq] at h
          refine ⟨t, h.1.symm, fun hc => (nh hc).elim, ?_, fun _ hc => (nv hc).elim⟩
          intro _ _
          refine ⟨fun hnil => ?_, ?_⟩
          · rw [hout] at hnil
            cases hnil
          · intro v2 rest2 hvr
            rw [hout] at hvr
            cases hvr
            exact ⟨ht, h.2.symm⟩
  · have hh2 : op_desc.HasOutput (T.GetLegacyArgName op_desc.type info.name) = false := by
      simpa using hh
    simp only [hh2, Bool.not_false, if_true] at h
    by_cases ho : info.optional = true
    · simp only [ho, if_true, Except.ok.injEq, Prod.mk.injEq] at h
      exact ⟨Ty.null, h.1.symm, fun _ => ⟨ho, rfl, h.2.symm⟩,
        fun hc => (hh hc).elim, fun hc => (hh hc).elim⟩
    · simp [ho] at h

theorem Output_of_not_HasOutput (op_desc : OpDesc) (k : String)
    (h : op_desc.HasOutput k = false) : op_desc.Output k = [] := by
  unfold OpDesc.HasOutput at h
  unfold OpDesc.Output
  cases hl : op_desc.outputs.lookup k with
  | none => rfl
  | some args => simp [hl] at h

theorem resolveOutputSlot_frame (T : Tables) (op_desc : OpDesc) (info : OpOutputInfo)
    (types types2 : List Ty) (m m2 : OpOutputMapping)
    (h : resolveOutputSlot T op_desc info types m = .ok (types2, m2)) (n : String)
    (hn : n ∉ op_desc.Output (T.GetLegacyArgName op_desc.type info.name)) :
    m2.lookup n = m.lookup n := by
  obtain ⟨entry, _, habs, hsingle, hvec⟩ := resolveOutputSlot_inv T op_desc info _ _ _ _ h
  by_cases hh : op_desc.HasOutput (T.GetLegacyArgName op_desc.type info.name) = true
  · by_cases hv : outputIsVector info = true
    · obtain ⟨ts, _, _, _, hout⟩ := hvec hh hv
      exact hout n hn
    · obtain ⟨h1, h2⟩ := hsingle hh (by simpa using hv)
      cases ho : op_desc.Output (T.GetLegacyArgName op_desc.type info.name) with
      | nil => rw [(h1 ho).2]
      | cons v rest =>
        rw [(h2 v rest ho).2]
        apply lookup_assign_ne
        intro e
        apply hn
        rw [ho, e]
        exact List.mem_cons_self _ _
  · rw [(habs (by simpa using hh)).2.2]

theorem resolveOutputSlots_frame (T : Tables) (op_desc : OpDesc) (n : String) :
    ∀ (infos : List OpOutputInfo) (types types2 : List Ty) (m m2 : OpOutputMapping),
      resolveOutputSlots T op_desc infos types m = .ok (types2, m2) →
      (∀ info ∈ infos, n ∉ op_desc.Output (T.GetLegacyArgName op_desc.type info.name)) →
      m2.lookup n = m.lookup n
  | [], types, types2, m, m2, h, _ => by
    simp only [resolveOutputSlots, Except.ok.injEq, Prod.mk.injEq] at h
    rw [h.2]
  | info :: rest, types, types2, m, m2, h, hn => by
    simp only [resolveOutputSlots] at h
    split at h
    · cases h
    · rename_i types1 m1 hs
      rw [resolveOutputSlots_frame T op_desc n rest types1 types2 m1 m2 h
        (fun i hi => hn i (List.mem_cons_of_mem _ hi)),
        resolveOutputSlot_frame T op_desc info types types1 m m1 hs n
          (hn info (List.mem_cons_self _ _))]

/-- C16 (as stated) fails in two ways: the entry of an optional aggregate-class slot
whose group the descriptor lacks is the null type, not an aggregate type; and a
variable named by the groups of two slots is mapped, in the returned map, to the
position of the later slot only. -/
theorem output_slot_entry_deviations :
    GenerateOperationOutput exTables exReluDesc [exOutSlot, exOptionalVectorSlot] =
      .ok ([.dense .FLOAT32 [2], Ty.null], [("y", 0)]) ∧
    outputIsVector exOptionalVectorSlot = true ∧
    Ty.null ≠ Ty.vec [] ∧
    GenerateOperationOutput exTables exSharedOutputDesc [exOutSlot, exXShapeSlot] =
      .ok ([.dense .FLOAT32 [2], .dense .FLOAT32 [2]], [("y", 1)]) ∧
    exSharedOutputDesc.Output (exTables.GetLegacyArgName exSharedOutputDesc.type exOutSlot.name) =
      ["y"] ∧
    ([("y", 1)] : OpOutputMapping).lookup "y" ≠ some 0 := by
  decide

/-! ### The program-output handler -/

theorem findCandidateVar_block (op_desc : OpDesc) (block : List (List VarDesc)) :
    ∀ candidates : List String,
      findCandidateVar { op_desc with block := block } candidates =
        findCandidateVar op_desc candidates
  | [] => rfl
  | c :: cs => by
    simp only [findCandidateVar]
    rw [findCandidateVar_block op_desc block cs]
    rfl

theorem resolveInputSlot_block (T : Tables) (op_desc : OpDesc) (info : OpInputInfo)
    (st : TransState) (block : List (List VarDesc)) (f : VarDesc → Option Ty) :
    resolveInputSlot { T with type_translator := f } { op_desc with block := block } info st =
      resolveInputSlot T op_desc info st := by
  simp only [resolveInputSlot]
  rw [findCandidateVar_block]
  rfl

theorem resolveInputSlots_block (T : Tables) (op_desc : OpDesc)
    (block : List (List VarDesc)) (f : VarDesc → Option Ty) :
    ∀ (infos : List OpInputInfo) (acc : List OpResult) (st : TransState),
      resolveInputSlots { T with type_translator := f } { op_desc with block := block }
          infos acc st =
        resolveInputSlots T op_desc infos acc st
  | [], _, _ => rfl
  | info :: rest, acc, st => by
    simp only [resolveInputSlots, resolveInputSlot_block]
    cases resolveInputSlot T op_desc info st with
    | mk r st1 =>
      cases r with
      | error e => rfl
      | ok v => exact resolveInputSlots_block T op_desc block f rest _ st1

theorem GenerateOperationInput_block (T : Tables) (st : TransState) (op_desc : OpDesc)
    (input_infos : List OpInputInfo) (block : List (List VarDesc)) (f : VarDesc → Option Ty) :
    GenerateOperationInput { T with type_translator := f } st { op_desc with block := block }
        input_infos =
      GenerateOperationInput T st op_desc input_infos := by
  simp only [GenerateOperationInput, resolveInputSlots_block]

/-- C17: when the handler of `fetch_v2` succeeds, the operation it returns is the
one it appended last; its operands are the inputs given by the general input
resolution, its single output type is the type of the first of these operands,
and its attribute map holds exactly `name`, the first of the input argument names
of the descriptor. The declared variables and the type conversion table play no
part: the handler gives the same with any others. -/
theorem fetch_operation_shape (T : Tables) (ctx : IrContext) (st st2 : TransState)
    (op_desc : OpDesc) (operation : Operation)
    (hok : FetchOpHandler T ctx st op_desc = (.ok operation, st2)) :
    (∃ op_info op_inputs st1 input0 rest_inputs name0 rest_names,
      LoopkUpOpInfo T ctx op_desc = .ok op_info ∧
      GenerateOperationInput T st op_desc op_info.input_infos = (.ok op_inputs, st1) ∧
      op_inputs = some input0 :: rest_inputs ∧
      op_desc.InputArgumentNames = name0 :: rest_names ∧
      operation =
        { id := st1.block.length, name := op_info.name, operands := op_inputs,
          attributes := [("name", .StrAttribute name0)], output_types := [input0.type] } ∧
      st2 = { block := st1.block ++ [operation], param_map := st1.param_map }) ∧
    (∀ (block : List (List VarDesc)) (f : VarDesc → Option Ty),
      FetchOpHandler { T with type_translator := f } ctx st { op_desc with block := block } =
        FetchOpHandler T ctx st op_desc) := by
  constructor
  · simp only [FetchOpHandler] at hok
    split at hok
    · simp at hok
    · rename_i op_info hinfo
      split at hok
      · simp at hok
      · rename_i op_inputs st1 hin
        split at hok
        · simp at hok
        · rename_i name0 rest_names hnames
          split at hok
          · simp at hok
          · simp at hok
          · rename_i input0 rest_inputs
            simp only [Prod.mk.injEq, Except.ok.injEq] at hok
            obtain ⟨hop, hst⟩ := hok
            refine ⟨op_info, _, st1, input0, rest_inputs, name0, rest_names, hinfo, hin, rfl,
              hnames, ?_, ?_⟩
            · rw [← hop]; rfl
            · rw [← hst, ← hop]; rfl
  · intro block f
    have hl : LoopkUpOpInfo { T with type_translator := f } ctx { op_desc with block := block } =
        LoopkUpOpInfo T ctx op_desc := rfl
    simp only [FetchOpHandler, hl, GenerateOperationInput_block]
    rfl

/-- Instance of C17: the handler of `fetch_v2` on `exFetchDesc`. -/
theorem fetch_operation_shape_witness :
    FetchOpHandler exTables exContext exState2 exFetchDesc =
      (.ok exFetchOp, { block := exState2.block ++ [exFetchOp],
                        param_map := exState2.param_map }) ∧
    ∀ (block : List (List VarDesc)) (f : VarDesc → Option Ty),
      FetchOpHandler { exTables with type_translator := f } exContext exState2
          { exFetchDesc with block := block } =
        FetchOpHandler exTables exContext exState2 exFetchDesc :=
  ⟨by decide,
    (fetch_operation_shape exTables exContext exState2
      { block := exState2.block ++ [exFetchOp], param_map := exState2.param_map }
      exFetchDesc exFetchOp (by decide)).2⟩


/-! ### The block only grows -/

theorem AppendsAuxiliary_refl (st : TransState) : AppendsAuxiliary st st :=
  ⟨[], by simp, by simp⟩

theorem AppendsAuxiliary_trans {st st1 st2 : TransState}
    (h1 : AppendsAuxiliary st st1) (h2 : AppendsAuxiliary st1 st2) :
    AppendsAuxiliary st st2 := by
  obtain ⟨e1, hb1, hn1⟩ := h1
  obtain ⟨e2, hb2, hn2⟩ := h2
  refine ⟨e1 ++ e2, by rw [hb2, hb1, List.append_assoc], ?_⟩
  intro op hop
  rcases List.mem_append.1 hop with h | h
  · exact hn1 op h
  · exact hn2 op h

theorem AppendsAuxiliary_push (st : TransState) (op : Operation)
    (h : isAuxiliary op = true) : AppendsAuxiliary st (st.push_back op) :=
  ⟨[op], rfl, by simpa using h⟩

theorem GetAttributeAsInput_aux (T : Tables) (st st1 : TransState) (op_desc : OpDesc)
    (info : OpInputInfo) (r : Except Failure OpResult)
    (h : GetAttributeAsInput T st op_desc info = (r, st1)) : AppendsAuxiliary st st1 := by
  unfold GetAttributeAsInput at h
  by_cases hattr : op_desc.HasAttr (T.GetLegacyAttrName op_desc.type info.name) = true
  · simp only [hattr, Bool.not_true, Bool.false_eq_true, if_false] at h
    generalize hins : (if contains info.type_name "IntArrayAttribute" = true then
      InsertFullArrayOperationForAttributeInput st
        (T.attribute_translator info.type_name
          (op_desc.GetAttr (T.GetLegacyAttrName op_desc.type info.name)))
      else InsertFullOperationForAttributeInput st
        (T.attribute_translator info.type_name
          (op_desc.GetAttr (T.GetLegacyAttrName op_desc.type info.name)))) = inserted at h
    obtain ⟨r1, st2⟩ := inserted
    have hext : AppendsAuxiliary st st2 := by
      by_cases hia : contains info.type_name "IntArrayAttribute" = true
      · rw [if_pos hia] at hins
        generalize T.attribute_translator info.type_name
          (op_desc.GetAttr (T.GetLegacyAttrName op_desc.type info.name)) = attr at hins
        cases attr <;>
          simp only [InsertFullArrayOperationForAttributeInput, BuildFullIntArrayOp,
            Prod.mk.injEq] at hins <;>
          obtain ⟨_, rfl⟩ := hins <;>
          first
          | exact AppendsAuxiliary_refl st
          | exact AppendsAuxiliary_push st _ (by simp [isAuxiliary, Operation.Create])
      · rw [if_neg hia] at hins
        simp only [InsertFullOperationForAttributeInput, BuildFullOp, Prod.mk.injEq] at hins
        obtain ⟨_, rfl⟩ := hins
        exact AppendsAuxiliary_push st _ (by simp [isAuxiliary, Operation.Create])
    cases r1 with
    | error e =>
      simp only [Prod.mk.injEq] at h
      rw [← h.2]; exact hext
    | ok op =>
      simp only at h
      split at h <;> simp only [Prod.mk.injEq] at h <;> rw [← h.2] <;> exact hext
  · simp only [hattr, Bool.not_false, if_true, Prod.mk.injEq] at h
    rw [← h.2]
    exact AppendsAuxiliary_refl st

theorem bindInputVars_aux (info : OpInputInfo) (vars : List String) (st st1 : TransState)
    (r : Except Failure OpResult)
    (h : bindInputVars info vars st = (r, st1)) : AppendsAuxiliary st st1 := by
  unfold bindInputVars at h
  by_cases hvec : inputIsVector info = true
  · simp only [hvec, Bool.not_true, Bool.false_eq_true, if_false] at h
    cases hc : InsertCombineOperationForTarget st vars with
    | mk r1 st2 =>
      have hext : AppendsAuxiliary st st2 := by
        unfold InsertCombineOperationForTarget at hc
        split at hc
        · simp only [Prod.mk.injEq] at hc
          rw [← hc.2]; exact AppendsAuxiliary_refl st
        · simp only [Prod.mk.injEq] at hc
          rw [← hc.2]
          exact AppendsAuxiliary_push st _ (by simp [isAuxiliary, Operation.Create])
      rw [hc] at h
      cases r1 with
      | error e =>
        simp only [Prod.mk.injEq] at h
        rw [← h.2]; exact hext
      | ok op =>
        simp only at h
        split at h <;> simp only [Prod.mk.injEq] at h <;> rw [← h.2] <;> exact hext
  · simp only [hvec, Bool.not_false, if_true] at h
    cases vars with
    | nil =>
      simp only [Prod.mk.injEq] at h
      rw [← h.2]; exact AppendsAuxiliary_refl st
    | cons var0 rest =>
      simp only [Prod.mk.injEq] at h
      rw [← h.2]
      exact ⟨[], by simp, by simp⟩

theorem resolveInputSlot_aux (T : Tables) (op_desc : OpDesc) (info : OpInputInfo)
    (st st1 : TransState) (r : Except Failure OpResult)
    (h : resolveInputSlot T op_desc info st = (r, st1)) : AppendsAuxiliary st st1 := by
  unfold resolveInputSlot at h
  simp only at h
  split_ifs at h
  · simp only [Prod.mk.injEq] at h
    rw [← h.2]; exact AppendsAuxiliary_refl st
  · split at h
    · exact GetAttributeAsInput_aux T st st1 op_desc info r h
    · exact bindInputVars_aux info _ st st1 r h
  · exact bindInputVars_aux info _ st st1 r h

theorem resolveInputSlots_aux (T : Tables) (op_desc : OpDesc) :
    ∀ (infos : List OpInputInfo) (acc : List OpResult) (st st1 : TransState)
      (r : Except Failure (List OpResult)),
      resolveInputSlots T op_desc infos acc st = (r, st1) → AppendsAuxiliary st st1
  | [], acc, st, st1, r, h => by
    simp only [resolveInputSlots, Prod.mk.injEq] at h
    rw [← h.2]; exact AppendsAuxiliary_refl st
  | info :: rest, acc, st, st1, r, h => by
    simp only [resolveInputSlots] at h
    cases hs : resolveInputSlot T op_desc info st with
    | mk r1 st2 =>
      have hext := resolveInputSlot_aux T op_desc info st st2 r1 hs
      rw [hs] at h
      cases r1 with
      | error e =>
        simp only [Prod.mk.injEq] at h
        rw [← h.2]; exact hext
      | ok v =>
        exact AppendsAuxiliary_trans hext (resolveInputSlots_aux T op_desc rest _ st2 st1 r h)

theorem GenerateOperationInput_aux (T : Tables) (st st1 : TransState) (op_desc : OpDesc)
    (input_infos : List OpInputInfo) (op_inputs : List OpResult)
    (h : GenerateOperationInput T st op_desc input_infos = (.ok op_inputs, st1)) :
    AppendsAuxiliary st st1 := by
  obtain ⟨stp, hpre, hslots⟩ := GenerateOperationInput_ok_split T st st1 op_desc _ _ h
  obtain ⟨extraP, hbP, hnamesP, _⟩ := sliceInputArgs_frame _ st stp hpre
  have h1 : AppendsAuxiliary st stp :=
    ⟨extraP, hbP, fun op hop => by simp [isAuxiliary, hnamesP op hop]⟩
  exact AppendsAuxiliary_trans h1 (resolveInputSlots_aux T op_desc _ _ stp st1 _ hslots)

/-- C20: after a successful call of the general handler, of the handler of `feed` or
of the handler of `fetch_v2`, the block is the block on entry, followed by
auxiliary operations (slice, combine, constant), followed last by the operation
that the handler returns; the handler of `feed` appends no auxiliary operation. -/
theorem handlers_append_only (kind : HandlerKind) (T : Tables) (ctx : IrContext)
    (st st2 : TransState) (op_desc : OpDesc) (operation : Operation)
    (hok : runHandler kind T ctx st op_desc = (.ok operation, st2)) :
    ∃ aux, st2.block = st.block ++ aux ++ [operation] ∧
      (∀ op ∈ aux, isAuxiliary op = true) ∧ (kind = .feed → aux = []) := by
  cases kind with
  | general =>
    simp only [runHandler, GeneralOpHandler] at hok
    split at hok
    · simp at hok
    · split at hok
      · simp at hok
      · rename_i op_inputs st1 hin
        split at hok
        · simp at hok
        · split at hok
          · simp at hok
          · rename_i st3 hrec
            simp only [Prod.mk.injEq, Except.ok.injEq] at hok
            obtain ⟨hop, hst⟩ := hok
            subst hst
            obtain ⟨hb, _⟩ := RecordOpResultMapping_ok _ _ _ _ _ hrec
            obtain ⟨aux, haux, hn⟩ := GenerateOperationInput_aux T st st1 op_desc _ _ hin
            refine ⟨aux, ?_, hn, fun h => by cases h⟩
            rw [hb, ← hop]
            simp [TransState.push_back, haux]
  | feed =>
    simp only [runHandler, FeedOpHandler] at hok
    split at hok
    · simp at hok
    · split at hok
      · simp at hok
      · split at hok
        · simp at hok
        · split at hok
          · simp at hok
          · split at hok
            · simp at hok
            · rename_i st3 hrec
              simp only [Prod.mk.injEq, Except.ok.injEq] at hok
              obtain ⟨hop, hst⟩ := hok
              subst hst
              obtain ⟨hb, _⟩ := RecordOpResultMapping_ok _ _ _ _ _ hrec
              refine ⟨[], ?_, by simp, fun _ => rfl⟩
              rw [hb, ← hop]
              simp [TransState.push_back]
  | fetch =>
    simp only [runHandler, FetchOpHandler] at hok
    split at hok
    · simp at hok
    · split at hok
      · simp at hok
      · rename_i op_inputs st1 hin
        split at hok
        · simp at hok
        · split at hok
          · simp at hok
          · simp at hok
          · simp only [Prod.mk.injEq, Except.ok.injEq] at hok
            obtain ⟨hop, hst⟩ := hok
            subst hst
            obtain ⟨aux, haux, hn⟩ := GenerateOperationInput_aux T st st1 op_desc _ _ hin
            refine ⟨aux, ?_, hn, fun h => by cases h⟩
            rw [← hop]
            simp [TransState.push_back, haux]

/-- Instance of C20: the general handler on `exAddDeclared` from `exAggState` appends
two slices and a combine and then the translated operation. -/
theorem handlers_append_only_witness :
    runHandler (OpTranslator exAddDeclared.type) exTables exAddContext exAggState exAddDeclared =
      (.ok exAddOp,
        { block := exAddStateAfter.block ++ [exAddOp],
          param_map := exAddStateAfter.param_map ++
            [("c", { value := some ⟨4, 0, .dense .FLOAT32 [3]⟩ })] }) ∧
    ∃ aux, exAddStateAfter.block ++ [exAddOp] = exAggState.block ++ aux ++ [exAddOp] ∧
      (∀ op ∈ aux, isAuxiliary op = true) ∧
      (OpTranslator exAddDeclared.type = .feed → aux = []) :=
  ⟨by decide,
    handlers_append_only (OpTranslator exAddDeclared.type) exTables exAddContext exAggState
      { block := exAddStateAfter.block ++ [exAddOp],
        param_map := exAddStateAfter.param_map ++
          [("c", { value := some ⟨4, 0, .dense .FLOAT32 [3]⟩ })] }
      exAddDeclared exAddOp (by decide)⟩

/-! ### Well-formedness of block and environment -/

theorem isDefinedIn_iff (block : List Operation) (v : Value) :
    isDefinedIn block (some v) = true ↔
      ∃ op ∈ block, op.result v.index = .ok (some v) := by
  simp [isDefinedIn, isResultOf]

theorem isDefinedIn_append (block extra : List Operation) (r : OpResult)
    (h : isDefinedIn block r = true) : isDefinedIn (block ++ extra) r = true := by
  cases r with
  | none => rfl
  | some v =>
    simp only [isDefinedIn, List.any_append, Bool.or_eq_true] at h ⊢
    exact Or.inl h

theorem operandsPrecede_append : ∀ (a b earlier : List Operation),
    operandsPrecede earlier (a ++ b) =
      (operandsPrecede earlier a && operandsPrecede (earlier ++ a) b)
  | [], b, earlier => by simp [operandsPrecede]
  | op :: a, b, earlier => by
    have ih := operandsPrecede_append a b (earlier ++ [op])
    rw [List.append_assoc, List.singleton_append] at ih
    rw [List.cons_append, operandsPrecede, operandsPrecede, ih, Bool.and_assoc]

theorem operandsPrecede_split : ∀ (block earlier pre : List Operation) (op : Operation)
    (post : List Operation), operandsPrecede earlier block = true → block = pre ++ op :: post →
    ∀ r ∈ op.operands, isDefinedIn (earlier ++ pre) r = true := by
  intro block earlier pre op post h hb r hr
  subst hb
  rw [operandsPrecede_append] at h
  simp only [operandsPrecede, Bool.and_eq_true, List.all_eq_true] at h
  exact h.2.1 r hr

theorem operandsPrecede_of_split : ∀ (block earlier : List Operation),
    (∀ pre op post, block = pre ++ op :: post →
      ∀ r ∈ op.operands, isDefinedIn (earlier ++ pre) r = true) →
    operandsPrecede earlier block = true
  | [], _, _ => rfl
  | op :: rest, earlier, h => by
    simp only [operandsPrecede, Bool.and_eq_true, List.all_eq_true]
    refine ⟨fun r hr => by simpa using h [] op rest rfl r hr, ?_⟩
    apply operandsPrecede_of_split rest
    intro pre op2 post hb r hr
    have := h (op :: pre) op2 post (by rw [hb]; rfl) r hr
    simpa using this

theorem idsArePositions_append : ∀ (a b : List Operation) (start : Nat),
    idsArePositions start (a ++ b) =
      (idsArePositions start a && idsArePositions (start + a.length) b)
  | [], b, start => by simp [idsArePositions]
  | op :: a, b, start => by
    have ih := idsArePositions_append a b (start + 1)
    have hlen : start + 1 + a.length = start + (op :: a).length := by
      simp only [List.length_cons]; omega
    rw [hlen] at ih
    rw [List.cons_append, idsArePositions, idsArePositions, ih, Bool.and_assoc]

theorem isWellFormedEnv_iff (st : TransState) :
    isWellFormedEnv st = true ↔
      ∀ n info, st.param_map.lookup n = some info → isDefinedIn st.block info.value = true := by
  unfold isWellFormedEnv
  rw [List.all_eq_true]
  constructor
  · intro h n info hl
    obtain ⟨hmem⟩ : ∃ _ : (n, info) ∈ st.param_map, True := ⟨mem_of_lookup_eq_some _ _ _ hl, trivial⟩
    have := h (n, info) hmem
    simpa [hl] using this
  · intro h entry _
    cases hl : st.param_map.lookup entry.1 with
    | none => rfl
    | some info => simpa using h entry.1 info hl

theorem GrowsWellFormed_refl (st : TransState) (h : isWellFormedEnv st = true) :
    GrowsWellFormed st st :=
  ⟨h, [], by simp, rfl, rfl⟩

theorem GrowsWellFormed_trans {st st1 st2 : TransState}
    (h1 : GrowsWellFormed st st1) (h2 : GrowsWellFormed st1 st2) : GrowsWellFormed st st2 := by
  obtain ⟨_, e1, hb1, ho1, hi1⟩ := h1
  obtain ⟨hw2, e2, hb2, ho2, hi2⟩ := h2
  refine ⟨hw2, e1 ++ e2, by rw [hb2, hb1, List.append_assoc], ?_, ?_⟩
  · rw [operandsPrecede_append, ho1, ← hb1, ho2]
    rfl
  · rw [hb1, List.length_append] at hi2
    rw [idsArePositions_append, hi1, hi2]
    rfl

theorem GrowsWellFormed_env (st : TransState) (pm : TranslationContext)
    (henv : ∀ n info, pm.lookup n = some info → isDefinedIn st.block info.value = true) :
    GrowsWellFormed st { block := st.block, param_map := pm } :=
  ⟨(isWellFormedEnv_iff _).2 henv, [], by simp, rfl, rfl⟩

theorem GrowsWellFormed_push (st : TransState) (op : Operation) (pm : TranslationContext)
    (hid : op.id = st.block.length)
    (hops : ∀ r ∈ op.operands, isDefinedIn st.block r = true)
    (henv : ∀ n info, pm.lookup n = some info →
      isDefinedIn (st.block ++ [op]) info.value = true) :
    GrowsWellFormed st { block := st.block ++ [op], param_map := pm } := by
  refine ⟨(isWellFormedEnv_iff _).2 henv, [op], rfl, ?_, ?_⟩
  · simp only [operandsPrecede, Bool.and_true, List.all_eq_true]
    exact hops
  · simp [idsArePositions, hid]

theorem isDefinedIn_result (block : List Operation) (op : Operation) (idx : Nat) (r : OpResult)
    (hop : op ∈ block) (hres : op.result idx = .ok r) : isDefinedIn block r = true := by
  cases r with
  | none => rfl
  | some v =>
    have hidx : v.index = idx := by
      unfold Operation.result at hres
      split at hres
      · cases hres
      · cases hres
        rfl
    exact (isDefinedIn_iff block v).2 ⟨op, hop, by rw [hidx]; exact hres⟩

theorem isDefinedIn_push_result (block : List Operation) (op : Operation) (idx : Nat)
    (r : OpResult) (hres : op.result idx = .ok r) : isDefinedIn (block ++ [op]) r = true :=
  isDefinedIn_result _ op idx r (by simp) hres

theorem sliceInputArgs_wf : ∀ (names : List String) (st st2 : TransState),
    isWellFormedEnv st = true → sliceInputArgs names st = (.ok (), st2) →
    GrowsWellFormed st st2
  | [], st, st2, hwf, h => by
    simp only [sliceInputArgs, Prod.mk.injEq, true_and] at h
    subst h
    exact GrowsWellFormed_refl st hwf
  | n :: rest, st, st2, hwf, h => by
    obtain ⟨info, hl, hcase⟩ := sliceInputArgs_cons_ok n rest st st2 h
    rcases hcase with ⟨_, hrest⟩ | ⟨_, A, ts, t, hval, hA, hk, ht, hrest⟩
    · exact sliceInputArgs_wf rest st st2 hwf hrest
    · have hold := (isWellFormedEnv_iff st).1 hwf
      have hstep := GrowsWellFormed_push st
        { id := st.block.length, name := "builtin.slice", operands := [some A],
          attributes := [("index", .Int32Attribute info.idx_in_vector)], output_types := [t] }
        (assign st.param_map n { value := some { owner := st.block.length, index := 0, type := t } })
        rfl
        (by
          intro r hr
          simp only [List.mem_singleton] at hr
          subst hr
          rw [← hval]
          exact hold n info hl)
        (by
          intro m info2 hl2
          rw [lookup_assign] at hl2
          split_ifs at hl2
          · cases hl2
            exact isDefinedIn_push_result _ _ 0 _ (by simp [Operation.result])
          · exact isDefinedIn_append _ _ _ (hold m info2 hl2))
      exact GrowsWellFormed_trans hstep (sliceInputArgs_wf rest _ st2 hstep.1 hrest)

theorem GetAttributeAsInput_wf (T : Tables) (st st1 : TransState) (op_desc : OpDesc)
    (info : OpInputInfo) (r : OpResult) (hwf : isWellFormedEnv st = true)
    (h : GetAttributeAsInput T st op_desc info = (.ok r, st1)) :
    GrowsWellFormed st st1 ∧ isDefinedIn st1.block r = true := by
  have hold := (isWellFormedEnv_iff st).1 hwf
  have hkeep : ∀ (op : Operation) n i, st.param_map.lookup n = some i →
      isDefinedIn (st.block ++ [op]) i.value = true :=
    fun op n i hl => isDefinedIn_append _ _ _ (hold n i hl)
  unfold GetAttributeAsInput at h
  by_cases hattr : op_desc.HasAttr (T.GetLegacyAttrName op_desc.type info.name) = true
  · simp only [hattr, Bool.not_true, Bool.false_eq_true, if_false] at h
    by_cases hia : contains info.type_name "IntArrayAttribute" = true
    · simp only [hia, if_true] at h
      generalize T.attribute_translator info.type_name
        (op_desc.GetAttr (T.GetLegacyAttrName op_desc.type info.name)) = attr at h
      cases attr <;>
        simp only [InsertFullArrayOperationForAttributeInput, BuildFullIntArrayOp,
          Operation.result, Operation.Create, TransState.push_back, List.getElem?_cons_zero,
          Prod.mk.injEq, Except.ok.injEq, reduceCtorEq, false_and] at h
      obtain ⟨hr, hst⟩ := h
      subst hr hst
      exact ⟨GrowsWellFormed_push st _ _ rfl (by simp) (hkeep _),
        isDefinedIn_push_result _ _ 0 _ (by simp [Operation.result])⟩
    · simp only [hia, Bool.false_eq_true, if_false, InsertFullOperationForAttributeInput,
        BuildFullOp, Operation.result, Operation.Create, TransState.push_back,
        List.getElem?_cons_zero, Prod.mk.injEq, Except.ok.injEq] at h
      obtain ⟨hr, hst⟩ := h
      subst hr hst
      exact ⟨GrowsWellFormed_push st _ _ rfl (by simp) (hkeep _),
        isDefinedIn_push_result _ _ 0 _ (by simp [Operation.result])⟩
  · simp [hattr] at h

theorem collectCombineArgs_defined (block : List Operation) (param_map : TranslationContext)
    (hold : ∀ n info, param_map.lookup n = some info → isDefinedIn block info.value = true) :
    ∀ (names : List String) (src_values : List OpResult) (types_in_vec : List Ty),
      collectCombineArgs param_map names = .ok (src_values, types_in_vec) →
      ∀ r ∈ src_values, isDefinedIn block r = true
  | [], src_values, types_in_vec, h, r, hr => by
    simp only [collectCombineArgs, Except.ok.injEq, Prod.mk.injEq] at h
    rw [← h.1] at hr
    cases hr
  | n :: rest, src_values, types_in_vec, h, r, hr => by
    simp only [collectCombineArgs] at h
    cases hl : param_map.lookup n with
    | none => simp [hl] at h
    | some info =>
      cases hv : info.value with
      | none => simp [hl, hv] at h
      | some v =>
        cases hc : collectCombineArgs param_map rest with
        | error e => simp [hl, hv, hc] at h
        | ok p =>
          obtain ⟨vals, tys⟩ := p
          simp only [hl, hv, hc, Except.ok.injEq, Prod.mk.injEq] at h
          rw [← h.1] at hr
          rcases List.mem_cons.1 hr with rfl | hr
          · rw [← hv]
            exact hold n info hl
          · exact collectCombineArgs_defined block param_map hold rest vals tys hc r hr

theorem bindInputVars_wf (info : OpInputInfo) (vars : List String) (st st1 : TransState)
    (r : OpResult) (hwf : isWellFormedEnv st = true)
    (h : bindInputVars info vars st = (.ok r, st1)) :
    GrowsWellFormed st st1 ∧ isDefinedIn st1.block r = true := by
  have hold := (isWellFormedEnv_iff st).1 hwf
  unfold bindInputVars at h
  by_cases hvec : inputIsVector info = true
  · simp only [hvec, Bool.not_true, Bool.false_eq_true, if_false,
      InsertCombineOperationForTarget] at h
    cases hc : collectCombineArgs st.param_map vars with
    | error e => simp [hc] at h
    | ok p =>
      obtain ⟨vals, tys⟩ := p
      simp only [hc, Operation.result, Operation.Create, TransState.push_back,
        List.getElem?_cons_zero, Prod.mk.injEq, Except.ok.injEq] at h
      obtain ⟨hr, hst⟩ := h
      subst hr hst
      exact ⟨GrowsWellFormed_push st _ _ rfl
          (collectCombineArgs_defined st.block st.param_map hold vars vals tys hc)
          (fun n i hl => isDefinedIn_append _ _ _ (hold n i hl)),
        isDefinedIn_push_result _ _ 0 _ (by simp [Operation.result])⟩
  · simp only [hvec, Bool.not_false, if_true] at h
    cases vars with
    | nil => simp at h
    | cons var0 rest =>
      simp only [subscript] at h
      cases hl : st.param_map.lookup var0 with
      | some d =>
        simp only [hl, Prod.mk.injEq, Except.ok.injEq] at h
        obtain ⟨hr, hst⟩ := h
        subst hr hst
        exact ⟨GrowsWellFormed_refl st hwf, hold var0 d hl⟩
      | none =>
        simp only [hl, Prod.mk.injEq, Except.ok.injEq] at h
        obtain ⟨hr, hst⟩ := h
        subst hr hst
        refine ⟨GrowsWellFormed_env st _ ?_, rfl⟩
        intro n i hl2
        rw [lookup_assign] at hl2
        split_ifs at hl2
        · cases hl2
          rfl
        · exact hold n i hl2

theorem resolveInputSlot_wf (T : Tables) (op_desc : OpDesc) (info : OpInputInfo)
    (st st1 : TransState) (r : OpResult) (hwf : isWellFormedEnv st = true)
    (h : resolveInputSlot T op_desc info st = (.ok r, st1)) :
    GrowsWellFormed st st1 ∧ isDefinedIn st1.block r = true := by
  unfold resolveInputSlot at h
  simp only at h
  split_ifs at h
  · simp only [Prod.mk.injEq, Except.ok.injEq] at h
    obtain ⟨hr, hst⟩ := h
    subst hr hst
    exact ⟨GrowsWellFormed_refl st hwf, rfl⟩
  · split at h
    · exact GetAttributeAsInput_wf T st st1 op_desc info r hwf h
    · exact bindInputVars_wf info _ st st1 r hwf h
  · exact bindInputVars_wf info _ st st1 r hwf h

theorem resolveInputSlots_wf (T : Tables) (op_desc : OpDesc) :
    ∀ (infos : List OpInputInfo) (acc : List OpResult) (st st1 : TransState)
      (op_inputs : List OpResult), isWellFormedEnv st = true →
      (∀ r ∈ acc, isDefinedIn st.block r = true) →
      resolveInputSlots T op_desc infos acc st = (.ok op_inputs, st1) →
      GrowsWellFormed st st1 ∧ ∀ r ∈ op_inputs, isDefinedIn st1.block r = true
  | [], acc, st, st1, op_inputs, hwf, hacc, h => by
    simp only [resolveInputSlots, Prod.mk.injEq, Except.ok.injEq] at h
    obtain ⟨hr, hst⟩ := h
    subst hr hst
    exact ⟨GrowsWellFormed_refl st hwf, hacc⟩
  | info :: rest, acc, st, st1, op_inputs, hwf, hacc, h => by
    simp only [resolveInputSlots] at h
    cases hs : resolveInputSlot T op_desc info st with
    | mk r1 st2 =>
      rw [hs] at h
      cases r1 with
      | error e => simp at h
      | ok v =>
        obtain ⟨hg, hv⟩ := resolveInputSlot_wf T op_desc info st st2 v hwf hs
        obtain ⟨extra, hb, _, _⟩ := hg.2
        have hacc2 : ∀ r ∈ acc ++ [v], isDefinedIn st2.block r = true := by
          intro r hr
          rcases List.mem_append.1 hr with hr | hr
          · rw [hb]
            exact isDefinedIn_append _ _ _ (hacc r hr)
          · simp only [List.mem_singleton] at hr
            subst hr
            exact hv
        obtain ⟨hg2, hres⟩ :=
          resolveInputSlots_wf T op_desc rest _ st2 st1 op_inputs hg.1 hacc2 h
        exact ⟨GrowsWellFormed_trans hg hg2, hres⟩

theorem GenerateOperationInput_wf (T : Tables) (st st1 : TransState) (op_desc : OpDesc)
    (input_infos : List OpInputInfo) (op_inputs : List OpResult)
    (hwf : isWellFormedEnv st = true)
    (h : GenerateOperationInput T st op_desc input_infos = (.ok op_inputs, st1)) :
    GrowsWellFormed st st1 ∧ ∀ r ∈ op_inputs, isDefinedIn st1.block r = true := by
  obtain ⟨stp, hpre, hslots⟩ := GenerateOperationInput_ok_split T st st1 op_desc _ _ h
  have hg := sliceInputArgs_wf _ st stp hwf hpre
  obtain ⟨hg2, hres⟩ := resolveInputSlots_wf T op_desc _ [] stp st1 op_inputs hg.1
    (fun r hr => by cases hr) hslots
  exact ⟨GrowsWellFormed_trans hg hg2, hres⟩

theorem recordOutputArgs_defined (block : List Operation) (operation : Operation)
    (hop : operation ∈ block) (arg_to_idx : OpOutputMapping) :
    ∀ (args : List String) (c : Nat) (pm pm2 : TranslationContext) (r : Except Failure Unit),
      recordOutputArgs operation arg_to_idx args c pm = (r, pm2) →
      (∀ n info, pm.lookup n = some info → isDefinedIn block info.value = true) →
      ∀ n info, pm2.lookup n = some info → isDefinedIn block info.value = true
  | [], c, pm, pm2, r, h, hold => by
    simp only [recordOutputArgs, Prod.mk.injEq] at h
    rw [← h.2]
    exact hold
  | a :: rest, c, pm, pm2, r, h, hold => by
    simp only [recordOutputArgs] at h
    split at h
    · simp only [Prod.mk.injEq] at h
      rw [← h.2]
      exact hold
    · split at h
      · simp only [Prod.mk.injEq] at h
        rw [← h.2]
        exact hold
      · simp only [Prod.mk.injEq] at h
        rw [← h.2]
        exact hold
      · rename_i idx hidx _ value hres
        refine recordOutputArgs_defined block operation hop arg_to_idx rest _ _ pm2 r h ?_
        intro n info hl
        by_cases hna : n = a
        · rw [lookup_assign, if_pos hna] at hl
          cases hl
          exact isDefinedIn_result block operation idx _ hop hres
        · rw [lookup_assign, if_neg hna] at hl
          exact hold n info hl

theorem recordOutputGroups_defined (block : List Operation) (operation : Operation)
    (hop : operation ∈ block) (arg_to_idx : OpOutputMapping) :
    ∀ (groups : List (String × List String)) (pm pm2 : TranslationContext)
      (r : Except Failure Unit),
      recordOutputGroups operation arg_to_idx groups pm = (r, pm2) →
      (∀ n info, pm.lookup n = some info → isDefinedIn block info.value = true) →
      ∀ n info, pm2.lookup n = some info → isDefinedIn block info.value = true
  | [], pm, pm2, r, h, hold => by
    simp only [recordOutputGroups, Prod.mk.injEq] at h
    rw [← h.2]
    exact hold
  | (key, args) :: rest, pm, pm2, r, h, hold => by
    simp only [recordOutputGroups] at h
    cases hs : recordOutputArgs operation arg_to_idx args 0 pm with
    | mk r1 pm1 =>
      have h1 := recordOutputArgs_defined block operation hop arg_to_idx args 0 pm pm1 r1 hs hold
      rw [hs] at h
      cases r1 with
      | error e =>
        simp only [Prod.mk.injEq] at h
        rw [← h.2]
        exact h1
      | ok u =>
        exact recordOutputGroups_defined block operation hop arg_to_idx rest pm1 pm2 r h h1

theorem RecordOpResultMapping_wf (st st2 : TransState) (op_desc : OpDesc)
    (operation : Operation) (arg_to_idx : OpOutputMapping) (r : Except Failure Unit)
    (hwf : isWellFormedEnv st = true) (hop : operation ∈ st.block)
    (h : RecordOpResultMapping st op_desc operation arg_to_idx = (r, st2)) :
    GrowsWellFormed st st2 := by
  unfold RecordOpResultMapping at h
  cases hs : recordOutputGroups operation arg_to_idx op_desc.outputs st.param_map with
  | mk r1 pm =>
    rw [hs] at h
    simp only [Prod.mk.injEq] at h
    rw [← h.2]
    exact GrowsWellFormed_env st pm
      (recordOutputGroups_defined st.block operation hop arg_to_idx _ _ pm r1 hs
        ((isWellFormedEnv_iff st).1 hwf))

theorem push_back_wf (st : TransState) (op_inputs : List OpResult)
    (attribute_map : AttributeMap) (op_output_types : List Ty) (op_name : String)
    (hwf : isWellFormedEnv st = true)
    (hops : ∀ r ∈ op_inputs, isDefinedIn st.block r = true) :
    GrowsWellFormed st
      (st.push_back
        (Operation.Create st.block.length op_inputs attribute_map op_output_types op_name)) :=
  GrowsWellFormed_push st _ st.param_map rfl hops
    (fun n i hl => isDefinedIn_append _ _ _ ((isWellFormedEnv_iff st).1 hwf n i hl))

theorem push_record_wf (st st3 : TransState) (op_desc : OpDesc) (operation : Operation)
    (arg_to_idx : OpOutputMapping) (r : Except Failure Unit)
    (hwf : isWellFormedEnv st = true)
    (h : RecordOpResultMapping (st.push_back operation) op_desc operation arg_to_idx = (r, st3))
    (hid : operation.id = st.block.length)
    (hops : ∀ r ∈ operation.operands, isDefinedIn st.block r = true) :
    GrowsWellFormed st st3 := by
  have hg2 : GrowsWellFormed st (st.push_back operation) :=
    GrowsWellFormed_push st operation st.param_map hid hops
      (fun n i hl => isDefinedIn_append _ _ _ ((isWellFormedEnv_iff st).1 hwf n i hl))
  exact GrowsWellFormed_trans hg2
    (RecordOpResultMapping_wf _ _ _ _ _ _ hg2.1 (by simp [TransState.push_back]) h)

theorem runHandler_wf (kind : HandlerKind) (T : Tables) (ctx : IrContext)
    (st st2 : TransState) (op_desc : OpDesc) (operation : Operation)
    (hwf : isWellFormedEnv st = true)
    (hok : runHandler kind T ctx st op_desc = (.ok operation, st2)) :
    GrowsWellFormed st st2 := by
  cases kind with
  | general =>
    simp only [runHandler, GeneralOpHandler] at hok
    split at hok
    · simp at hok
    · split at hok
      · simp at hok
      · rename_i op_inputs st1 hin
        split at hok
        · simp at hok
        · split at hok
          · simp at hok
          · rename_i st3 hrec
            simp only [Prod.mk.injEq, Except.ok.injEq] at hok
            obtain ⟨_, hst⟩ := hok
            subst hst
            obtain ⟨hg1, hres⟩ := GenerateOperationInput_wf T st st1 op_desc _ _ hwf hin
            exact GrowsWellFormed_trans hg1
              (push_record_wf st1 st3 op_desc _ _ _ hg1.1 hrec rfl hres)
  | feed =>
    simp only [runHandler, FeedOpHandler] at hok
    split at hok
    · simp at hok
    · split at hok
      · simp at hok
      · split at hok
        · simp at hok
        · split at hok
          · simp at hok
          · split at hok
            · simp at hok
            · rename_i st3 hrec
              simp only [Prod.mk.injEq, Except.ok.injEq] at hok
              obtain ⟨_, hst⟩ := hok
              subst hst
              exact push_record_wf st st3 op_desc _ _ _ hwf hrec rfl (fun r hr => by cases hr)
  | fetch =>
    simp only [runHandler, FetchOpHandler] at hok
    split at hok
    · simp at hok
    · split at hok
      · simp at hok
      · rename_i op_inputs st1 hin
        split at hok
        · simp at hok
        · split at hok
          · simp at hok
          · simp at hok
          · simp only [Prod.mk.injEq, Except.ok.injEq] at hok
            obtain ⟨_, hst⟩ := hok
            subst hst
            obtain ⟨hg1, hres⟩ := GenerateOperationInput_wf T st st1 op_desc _ _ hwf hin
            exact GrowsWellFormed_trans hg1 (push_back_wf st1 _ _ _ _ hg1.1 hres)

/-- C21: well-formedness of block and environment is kept by every handler. If on
entry every value bound in the environment is a result of an operation of the
block, and every non-null operand of every operation of the block is a result of
an operation placed earlier, then after a successful call of the general handler,
of the handler of `feed` or of the handler of `fetch_v2` both hold again. The
block afterwards is the block on entry followed by the new operations, and every
non-null operand of each new operation is a result of an operation placed before
it; operations that carried their positions as identities still do. -/
theorem handlers_preserve_well_formedness (kind : HandlerKind) (T : Tables) (ctx : IrContext)
    (st st2 : TransState) (op_desc : OpDesc) (operation : Operation)
    (henv : isWellFormedEnv st = true) (hblock : isWellFormedBlock st.block = true)
    (hok : runHandler kind T ctx st op_desc = (.ok operation, st2)) :
    (isWellFormedEnv st2 = true ∧ isWellFormedBlock st2.block = true) ∧
      (∀ n info v, st2.param_map.lookup n = some info → info.value = some v →
        ∃ producer ∈ st2.block, producer.result v.index = .ok (some v)) ∧
      (∃ added, st2.block = st.block ++ added ∧
        ∀ pre op post, added = pre ++ op :: post → ∀ v, some v ∈ op.operands →
          ∃ producer ∈ st.block ++ pre, producer.result v.index = .ok (some v)) ∧
      (idsArePositions 0 st.block = true → idsArePositions 0 st2.block = true) := by
  obtain ⟨hw2, extra, hb, ho, hi⟩ := runHandler_wf kind T ctx st st2 op_desc operation henv hok
  refine ⟨⟨hw2, ?_⟩, ?_, ⟨extra, hb, ?_⟩, ?_⟩
  · unfold isWellFormedBlock at hblock ⊢
    rw [hb, operandsPrecede_append, hblock, List.nil_append, ho]
    rfl
  · intro n info v hl hv
    have := (isWellFormedEnv_iff st2).1 hw2 n info hl
    rw [hv] at this
    exact (isDefinedIn_iff _ v).1 this
  · intro pre op post hsplit v hv
    exact (isDefinedIn_iff _ v).1 (operandsPrecede_split extra st.block pre op post ho hsplit _ hv)
  · intro hids
    rw [hb, idsArePositions_append, hids, Nat.zero_add, hi]
    rfl

theorem isWellFormedBlock_forward_reference :
    isWellFormedBlock exForwardReference = false ∧
      isWellFormedBlock exForwardReference.reverse = true ∧
      isWellFormedEnv { block := [], param_map := [("x", { value := some (exValue 0) })] } =
        false := by
  decide

/-- Instance of C21: `exAggState` is well-formed; the general handler on
`exAddDeclared` appends two slices, a combine and the translated operation, and
the state it leaves is well-formed again. -/
theorem handlers_preserve_well_formedness_witness :
    isWellFormedEnv exAggState = true ∧ isWellFormedBlock exAggState.block = true ∧
    runHandler (OpTranslator exAddDeclared.type) exTables exAddContext exAggState exAddDeclared =
      (.ok exAddOp, exAddFinalState) ∧
    ((isWellFormedEnv exAddFinalState = true ∧ isWellFormedBlock exAddFinalState.block = true) ∧
      (∀ n info v, exAddFinalState.param_map.lookup n = some info → info.value = some v →
        ∃ producer ∈ exAddFinalState.block, producer.result v.index = .ok (some v)) ∧
      (∃ added, exAddFinalState.block = exAggState.block ++ added ∧
        ∀ pre op post, added = pre ++ op :: post → ∀ v, some v ∈ op.operands →
          ∃ producer ∈ exAggState.block ++ pre, producer.result v.index = .ok (some v)) ∧
      (idsArePositions 0 exAggState.block = true →
        idsArePositions 0 exAddFinalState.block = true)) :=
  ⟨by decide, by decide, by decide,
    handlers_preserve_well_formedness (OpTranslator exAddDeclared.type) exTables exAddContext
      exAggState exAddFinalState exAddDeclared exAddOp (by decide) (by decide) (by decide)⟩

/-! ### Names without a recorded index -/

theorem resolveOutputSlot_recorded (T : Tables) (op_desc : OpDesc) (info : OpOutputInfo)
    (types types2 : List Ty) (m m2 : OpOutputMapping)
    (h : resolveOutputSlot T op_desc info types m = .ok (types2, m2)) (n : String) :
    (n ∈ recordedNames T op_desc info → m2.lookup n = some types.length) ∧
      (n ∉ recordedNames T op_desc info → m2.lookup n = m.lookup n) := by
  obtain ⟨entry, _, habs, hsingle, hvec⟩ := resolveOutputSlot_inv T op_desc info _ _ _ _ h
  unfold recordedNames
  by_cases hh : op_desc.HasOutput (T.GetLegacyArgName op_desc.type info.name) = true
  · by_cases hv : outputIsVector info = true
    · obtain ⟨ts, _, _, hin, hout⟩ := hvec hh hv
      simp only [hh, hv, Bool.not_true, Bool.false_eq_true, if_false]
      exact ⟨hin n, hout n⟩
    · have hv2 : outputIsVector info = false := by simpa using hv
      obtain ⟨h1, h2⟩ := hsingle hh hv2
      simp only [hh, hv2, Bool.not_true, Bool.not_false, Bool.false_eq_true, if_false, if_true]
      cases ho : op_desc.Output (T.GetLegacyArgName op_desc.type info.name) with
      | nil =>
        rw [(h1 ho).2]
        simp
      | cons v rest =>
        rw [(h2 v rest ho).2]
        simp only [List.take_succ_cons, List.take_zero, List.mem_singleton]
        constructor
        · intro e
          rw [e, lookup_assign_self]
        · intro e
          exact lookup_assign_ne _ _ e
  · have hh2 : op_desc.HasOutput (T.GetLegacyArgName op_desc.type info.name) = false := by
      simpa using hh
    rw [(habs hh2).2.2]
    simp [hh2]

theorem resolveOutputSlots_recorded (T : Tables) (op_desc : OpDesc) (n : String) :
    ∀ (infos : List OpOutputInfo) (types types2 : List Ty) (m m2 : OpOutputMapping),
      resolveOutputSlots T op_desc infos types m = .ok (types2, m2) →
      (m2.lookup n = none ↔
        m.lookup n = none ∧ ∀ info ∈ infos, n ∉ recordedNames T op_desc info)
  | [], types, types2, m, m2, h => by
    simp only [resolveOutputSlots, Except.ok.injEq, Prod.mk.injEq] at h
    rw [h.2]
    simp
  | info :: rest, types, types2, m, m2, h => by
    simp only [resolveOutputSlots] at h
    split at h
    · cases h
    · rename_i types1 m1 hs
      rw [resolveOutputSlots_recorded T op_desc n rest types1 types2 m1 m2 h]
      obtain ⟨hin, hout⟩ := resolveOutputSlot_recorded T op_desc info types types1 m m1 hs n
      by_cases hn : n ∈ recordedNames T op_desc info
      · rw [hin hn]
        simp only [reduceCtorEq, false_and, false_iff, not_and, not_forall]
        intro _
        exact ⟨info, List.mem_cons_self _ _, fun hc => hc hn⟩
      · rw [hout hn]
        simp only [List.mem_cons, forall_eq_or_imp, hn, not_false_eq_true, true_and]

theorem GenerateOperationOutput_recorded (T : Tables) (op_desc : OpDesc)
    (infos : List OpOutputInfo) (types : List Ty) (arg_to_idx : OpOutputMapping)
    (h : GenerateOperationOutput T op_desc infos = .ok (types, arg_to_idx)) (n : String) :
    arg_to_idx.lookup n = none ↔ ∀ info ∈ infos, n ∉ recordedNames T op_desc info := by
  rw [resolveOutputSlots_recorded T op_desc n infos [] types [] arg_to_idx h]
  simp

theorem recordOutputArgs_error (operation : Operation) (arg_to_idx : OpOutputMapping) :
    ∀ (args : List String) (c : Nat) (pm pm2 : TranslationContext) (e : Failure),
      recordOutputArgs operation arg_to_idx args c pm = (.error e, pm2) → e = .fatal
  | [], c, pm, pm2, e, h => by simp [recordOutputArgs] at h
  | a :: rest, c, pm, pm2, e, h => by
    simp only [recordOutputArgs] at h
    split at h
    · simp only [Prod.mk.injEq, Except.error.injEq] at h
      exact h.1.symm
    · rename_i idx hidx
      split at h
      · rename_i e2 hres
        unfold Operation.result at hres
        split at hres
        · simp only [Except.error.injEq] at hres
          simp only [Prod.mk.injEq, Except.error.injEq] at h
          rw [← h.1, ← hres]
        · cases hres
      · rename_i hres
        unfold Operation.result at hres
        split at hres <;> cases hres
      · exact recordOutputArgs_error operation arg_to_idx rest _ _ pm2 e h

theorem recordOutputArgs_indexed (operation : Operation) (arg_to_idx : OpOutputMapping) :
    ∀ (args : List String) (c : Nat) (pm pm2 : TranslationContext),
      recordOutputArgs operation arg_to_idx args c pm = (.ok (), pm2) →
      ∀ n ∈ args, ∃ idx, arg_to_idx.lookup n = some idx
  | [], c, pm, pm2, _, n, hn => by cases hn
  | a :: rest, c, pm, pm2, h, n, hn => by
    simp only [recordOutputArgs] at h
    split at h
    · simp at h
    · rename_i idx hidx
      split at h
      · simp at h
      · simp at h
      · rcases List.mem_cons.1 hn with rfl | hn
        · exact ⟨idx, hidx⟩
        · exact recordOutputArgs_indexed operation arg_to_idx rest _ _ pm2 h n hn

theorem recordOutputGroups_indexed (operation : Operation) (arg_to_idx : OpOutputMapping) :
    ∀ (groups : List (String × List String)) (pm pm2 : TranslationContext),
      recordOutputGroups operation arg_to_idx groups pm = (.ok (), pm2) →
      ∀ g ∈ groups, ∀ n ∈ g.2, ∃ idx, arg_to_idx.lookup n = some idx
  | [], pm, pm2, _, g, hg => by cases hg
  | (key, args) :: rest, pm, pm2, h, g, hg => by
    simp only [recordOutputGroups] at h
    cases hs : recordOutputArgs operation arg_to_idx args 0 pm with
    | mk r1 pm1 =>
      rw [hs] at h
      cases r1 with
      | error e => simp at h
      | ok u =>
        rcases List.mem_cons.1 hg with rfl | hg
        · exact recordOutputArgs_indexed operation arg_to_idx args 0 pm pm1 hs
        · exact recordOutputGroups_indexed operation arg_to_idx rest pm1 pm2 h g hg

theorem recordOutputGroups_error (operation : Operation) (arg_to_idx : OpOutputMapping) :
    ∀ (groups : List (String × List String)) (pm pm2 : TranslationContext) (e : Failure),
      recordOutputGroups operation arg_to_idx groups pm = (.error e, pm2) → e = .fatal
  | [], pm, pm2, e, h => by simp [recordOutputGroups] at h
  | (key, args) :: rest, pm, pm2, e, h => by
    simp only [recordOutputGroups] at h
    cases hs : recordOutputArgs operation arg_to_idx args 0 pm with
    | mk r1 pm1 =>
      rw [hs] at h
      cases r1 with
      | error e1 =>
        simp only [Prod.mk.injEq, Except.error.injEq] at h
        rw [← h.1]
        exact recordOutputArgs_error operation arg_to_idx args 0 pm pm1 e1 hs
      | ok u => exact recordOutputGroups_error operation arg_to_idx rest pm1 pm2 e h

theorem RecordOpResultMapping_unrecorded (st : TransState) (op_desc : OpDesc)
    (operation : Operation) (arg_to_idx : OpOutputMapping) (v : String)
    (hv : v ∈ op_desc.OutputArgumentNames) (hnone : arg_to_idx.lookup v = none) :
    ∃ param_map, RecordOpResultMapping st op_desc operation arg_to_idx =
      (.error .fatal, { block := st.block, param_map := param_map }) := by
  unfold RecordOpResultMapping
  cases hs : recordOutputGroups operation arg_to_idx op_desc.outputs st.param_map with
  | mk r pm =>
    cases r with
    | error e =>
      rw [recordOutputGroups_error operation arg_to_idx _ _ pm e hs]
      exact ⟨pm, rfl⟩
    | ok u =>
      obtain ⟨g, hg, hn⟩ := mem_OutputArgumentNames.1 hv
      obtain ⟨idx, hidx⟩ := recordOutputGroups_indexed operation arg_to_idx _ _ pm hs g hg v hn
      rw [hnone] at hidx
      cases hidx

theorem RecordOpResultMapping_indexed (st st2 : TransState) (op_desc : OpDesc)
    (operation : Operation) (arg_to_idx : OpOutputMapping)
    (h : RecordOpResultMapping st op_desc operation arg_to_idx = (.ok (), st2)) :
    ∀ n ∈ op_desc.OutputArgumentNames, ∃ idx, arg_to_idx.lookup n = some idx := by
  intro n hn
  cases hl : arg_to_idx.lookup n with
  | some idx => exact ⟨idx, rfl⟩
  | none =>
    obtain ⟨pm, hf⟩ := RecordOpResultMapping_unrecorded st op_desc operation arg_to_idx n hn hl
    rw [hf] at h
    cases h

theorem runHandler_indexed (kind : HandlerKind) (T : Tables) (ctx : IrContext)
    (st st2 : TransState) (op_desc : OpDesc) (op_info : OpInfo) (operation : Operation)
    (hkind : kind ≠ .fetch) (hinfo : LoopkUpOpInfo T ctx op_desc = .ok op_info)
    (hok : runHandler kind T ctx st op_desc = (.ok operation, st2)) :
    ∃ types arg_to_idx,
      GenerateOperationOutput T op_desc op_info.output_infos = .ok (types, arg_to_idx) ∧
        ∀ n ∈ op_desc.OutputArgumentNames, ∃ idx, arg_to_idx.lookup n = some idx := by
  cases kind with
  | general =>
    simp only [runHandler, GeneralOpHandler, hinfo] at hok
    split at hok
    · simp at hok
    · split at hok
      · simp at hok
      · rename_i types arg_to_idx hout
        split at hok
        · simp at hok
        · rename_i u st3 hrec
          exact ⟨types, arg_to_idx, hout, RecordOpResultMapping_indexed _ _ _ _ _ hrec⟩
  | feed =>
    simp only [runHandler, FeedOpHandler, hinfo] at hok
    split at hok
    · simp at hok
    · rename_i types arg_to_idx hout
      split at hok
      · simp at hok
      · split at hok
        · simp at hok
        · split at hok
          · simp at hok
          · rename_i u st3 hrec
            exact ⟨types, arg_to_idx, hout, RecordOpResultMapping_indexed _ _ _ _ _ hrec⟩
  | fetch => exact absurd rfl hkind

/-- C22 (amended): on the general path and on the path of `feed`, the handler
succeeds only if every variable name of every output group of the descriptor
received an index from output resolution. A name receives an index exactly when
some output slot of the schema records it: as the first name of the group of a
singleton-class slot, or as a name of the group of an aggregate-class slot. If
some name of an output group is recorded by no slot, the handler never succeeds;
when input resolution and output resolution succeed (and, for `feed`, the read
of `col`), it stops at recording with a fatal error, and the block then holds
the translated operation as its last operation. -/
theorem recording_needs_slot_index (kind : HandlerKind) (T : Tables) (ctx : IrContext)
    (st : TransState) (op_desc : OpDesc) (op_info : OpInfo)
    (hkind : kind ≠ .fetch) (hinfo : LoopkUpOpInfo T ctx op_desc = .ok op_info) :
    (∀ operation st2, runHandler kind T ctx st op_desc = (.ok operation, st2) →
      ∃ types arg_to_idx,
        GenerateOperationOutput T op_desc op_info.output_infos = .ok (types, arg_to_idx) ∧
          ∀ n ∈ op_desc.OutputArgumentNames, ∃ idx, arg_to_idx.lookup n = some idx) ∧
    (∀ types arg_to_idx,
      GenerateOperationOutput T op_desc op_info.output_infos = .ok (types, arg_to_idx) →
      ∀ n, arg_to_idx.lookup n = none ↔
        ∀ info ∈ op_info.output_infos, n ∉ recordedNames T op_desc info) ∧
    (∀ v ∈ op_desc.OutputArgumentNames,
      (∀ info ∈ op_info.output_infos, v ∉ recordedNames T op_desc info) →
      (∀ operation st2, runHandler kind T ctx st op_desc ≠ (.ok operation, st2)) ∧
      (kind = .general → ∀ op_inputs st1 types arg_to_idx,
        GenerateOperationInput T st op_desc op_info.input_infos = (.ok op_inputs, st1) →
        GenerateOperationOutput T op_desc op_info.output_infos = .ok (types, arg_to_idx) →
        ∃ param_map, runHandler kind T ctx st op_desc =
          (.error .fatal,
            { block := st1.block ++
                [Operation.Create st1.block.length op_inputs
                  (TranslateOpAttribute T op_info.attr_infos op_desc) types op_info.name],
              param_map := param_map })) ∧
      (kind = .feed → ∀ types arg_to_idx col,
        GenerateOperationOutput T op_desc op_info.output_infos = .ok (types, arg_to_idx) →
        op_desc.GetAttrIfExistsInt "col" = .ok col →
        ∃ name0 param_map, op_desc.OutputArgumentNames.head? = some name0 ∧
          runHandler kind T ctx st op_desc =
            (.error .fatal,
              { block := st.block ++
                  [Operation.Create st.block.length []
                    [("name", .StrAttribute name0), ("col", .Int32Attribute col)] types
                    op_info.name],
                param_map := param_map }))) := by
  refine ⟨fun operation st2 hok =>
      runHandler_indexed kind T ctx st st2 op_desc op_info operation hkind hinfo hok,
    fun types arg_to_idx hout n => GenerateOperationOutput_recorded T op_desc _ _ _ hout n, ?_⟩
  intro v hv hrec
  refine ⟨?_, ?_, ?_⟩
  · intro operation st2 hok
    obtain ⟨types, arg_to_idx, hout, hall⟩ :=
      runHandler_indexed kind T ctx st st2 op_desc op_info operation hkind hinfo hok
    obtain ⟨idx, hidx⟩ := hall v hv
    rw [(GenerateOperationOutput_recorded T op_desc _ _ _ hout v).2 hrec] at hidx
    cases hidx
  · intro hk op_inputs st1 types arg_to_idx hin hout
    subst hk
    have hnone := (GenerateOperationOutput_recorded T op_desc _ _ _ hout v).2 hrec
    obtain ⟨pm, hf⟩ := RecordOpResultMapping_unrecorded
      (st1.push_back (Operation.Create st1.block.length op_inputs
        (TranslateOpAttribute T op_info.attr_infos op_desc) types op_info.name))
      op_desc
      (Operation.Create st1.block.length op_inputs
        (TranslateOpAttribute T op_info.attr_infos op_desc) types op_info.name)
      arg_to_idx v hv hnone
    refine ⟨pm, ?_⟩
    simp only [runHandler, GeneralOpHandler, hinfo, hin, hout, hf]
    rfl
  · intro hk types arg_to_idx col hout hcol
    subst hk
    have hnone := (GenerateOperationOutput_recorded T op_desc _ _ _ hout v).2 hrec
    cases hnames : op_desc.OutputArgumentNames with
    | nil =>
      rw [hnames] at hv
      cases hv
    | cons name0 rest =>
      obtain ⟨pm, hf⟩ := RecordOpResultMapping_unrecorded
        (st.push_back (Operation.Create st.block.length []
          [("name", .StrAttribute name0), ("col", .Int32Attribute col)] types op_info.name))
        op_desc
        (Operation.Create st.block.length []
          [("name", .StrAttribute name0), ("col", .Int32Attribute col)] types op_info.name)
        arg_to_idx v hv hnone
      refine ⟨name0, pm, rfl, ?_⟩
      simp only [runHandler, FeedOpHandler, hinfo, hout, hnames, hcol, hf]
      rfl

/-- C22 (as stated) fails when a name is recorded through another slot. The group
`XShape` of `exSharedOutputDesc` is mapped by no output slot of the schema, yet
its name `y` has the index 0, from the slot `Out`, and the general handler
succeeds. The group `Out` of `exSecondNameDesc`, the group of a singleton-class
slot, has the second name `z` different from its first, yet `z` has the index 1,
from the slot `XShape`, and the general handler succeeds. -/
theorem unrecorded_name_cases_can_succeed :
    (LoopkUpOpInfo exTables exReshapeContext exSharedOutputDesc = .ok exReshapeInfo ∧
      ("XShape", ["y"]) ∈ exSharedOutputDesc.outputs ∧
      (∀ info ∈ exReshapeInfo.output_infos,
        exTables.GetLegacyArgName exSharedOutputDesc.type info.name ≠ "XShape") ∧
      GenerateOperationOutput exTables exSharedOutputDesc exReshapeInfo.output_infos =
        .ok ([.dense .FLOAT32 [2]], [("y", 0)]) ∧
      (runHandler (OpTranslator exSharedOutputDesc.type) exTables exReshapeContext exState2
          exSharedOutputDesc).1 =
        .ok (Operation.Create 2 [some (exValue 0)] [] [.dense .FLOAT32 [2]] "pd.reshape2")) ∧
    (LoopkUpOpInfo exTables exReshapeContext exSecondNameDesc = .ok exUnbindInfo ∧
      outputIsVector exOutSlot = false ∧
      exSecondNameDesc.Output (exTables.GetLegacyArgName exSecondNameDesc.type exOutSlot.name) =
        ["y", "z"] ∧
      GenerateOperationOutput exTables exSecondNameDesc exUnbindInfo.output_infos =
        .ok ([.dense .FLOAT32 [2], .dense .FLOAT32 [3]], [("y", 0), ("z", 1)]) ∧
      (runHandler (OpTranslator exSecondNameDesc.type) exTables exReshapeContext exState2
          exSecondNameDesc).1 =
        .ok (Operation.Create 2 [some (exValue 0)] []
          [.dense .FLOAT32 [2], .dense .FLOAT32 [3]] "pd.unbind")) := by
  decide

/-- Instance of C22 (amended): the name `q` of the group `Mask` of `exUnmappedDesc` is
recorded by no output slot of `exReluInfo`; the general handler stops with a
fatal error after it has appended the translated operation. -/
theorem recording_needs_slot_index_witness :
    OpTranslator exUnmappedDesc.type ≠ .fetch ∧
    LoopkUpOpInfo exTables exContext exUnmappedDesc = .ok exReluInfo ∧
    "q" ∈ exUnmappedDesc.OutputArgumentNames ∧
    (∀ info ∈ exReluInfo.output_infos, "q" ∉ recordedNames exTables exUnmappedDesc info) ∧
    runHandler (OpTranslator exUnmappedDesc.type) exTables exContext exState2 exUnmappedDesc =
      (.error .fatal, exUnmappedFailState) ∧
    ((∀ operation st2,
        runHandler (OpTranslator exUnmappedDesc.type) exTables exContext exState2
          exUnmappedDesc ≠ (.ok operation, st2)) ∧
      (OpTranslator exUnmappedDesc.type = .general → ∀ op_inputs st1 types arg_to_idx,
        GenerateOperationInput exTables exState2 exUnmappedDesc exReluInfo.input_infos =
          (.ok op_inputs, st1) →
        GenerateOperationOutput exTables exUnmappedDesc exReluInfo.output_infos =
          .ok (types, arg_to_idx) →
        ∃ param_map,
          runHandler (OpTranslator exUnmappedDesc.type) exTables exContext exState2
              exUnmappedDesc =
            (.error .fatal,
              { block := st1.block ++
                  [Operation.Create st1.block.length op_inputs
                    (TranslateOpAttribute exTables exReluInfo.attr_infos exUnmappedDesc) types
                    exReluInfo.name],
                param_map := param_map })) ∧
      (OpTranslator exUnmappedDesc.type = .feed → ∀ types arg_to_idx col,
        GenerateOperationOutput exTables exUnmappedDesc exReluInfo.output_infos =
          .ok (types, arg_to_idx) →
        exUnmappedDesc.GetAttrIfExistsInt "col" = .ok col →
        ∃ name0 param_map, exUnmappedDesc.OutputArgumentNames.head? = some name0 ∧
          runHandler (OpTranslator exUnmappedDesc.type) exTables exContext exState2
              exUnmappedDesc =
            (.error .fatal,
              { block := exState2.block ++
                  [Operation.Create exState2.block.length []
                    [("name", .StrAttribute name0), ("col", .Int32Attribute col)] types
                    exReluInfo.name],
                param_map := param_map }))) :=
  ⟨by decide, by decide, by decide, by decide, by decide,
    (recording_needs_slot_index (OpTranslator exUnmappedDesc.type) exTables exContext exState2
      exUnmappedDesc exReluInfo (by decide) (by decide)).2.2 "q" (by decide) (by decide)⟩


/-! ### The returned map of output resolution -/

theorem resolveOutputSlots_keep (T : Tables) (op_desc : OpDesc) (n : String) :
    ∀ (infos : List OpOutputInfo) (types types2 : List Ty) (m m2 : OpOutputMapping),
      resolveOutputSlots T op_desc infos types m = .ok (types2, m2) →
      (∀ info ∈ infos, n ∉ recordedNames T op_desc info) →
      m2.lookup n = m.lookup n
  | [], types, types2, m, m2, h, _ => by
    simp only [resolveOutputSlots, Except.ok.injEq, Prod.mk.injEq] at h
    rw [h.2]
  | info :: rest, types, types2, m, m2, h, hn => by
    simp only [resolveOutputSlots] at h
    split at h
    · cases h
    · rename_i types1 m1 hs
      rw [resolveOutputSlots_keep T op_desc n rest types1 types2 m1 m2 h
        (fun i hi => hn i (List.mem_cons_of_mem _ hi)),
        (resolveOutputSlot_recorded T op_desc info types types1 m m1 hs n).2
          (hn info (List.mem_cons_self _ _))]

/-- C16 (amended): in a successful output resolution the type list has one entry per
slot of the schema, the entry of a slot standing at the position of the slot. A
slot whose group the descriptor lacks has the null type and records no name. For
a singleton-class slot whose group the descriptor has, the entry is the null type
when the group has no name and otherwise the translated declared type of the
first variable of the group, and the slot records that name with its position.
For an aggregate-class slot whose group the descriptor has, the entry is the
aggregate of the translated declared types of the variables of the group in
their order, and the slot records every name of the group with its position. In
the returned map a name has the position of the last slot, in schema order, that
records it, and a name that no slot records has no position. -/
theorem output_types_per_slot (T : Tables) (op_desc : OpDesc) (pre post : List OpOutputInfo)
    (info : OpOutputInfo) (types : List Ty) (arg_to_idx : OpOutputMapping)
    (hok : GenerateOperationOutput T op_desc (pre ++ info :: post) = .ok (types, arg_to_idx)) :
    types.length = (pre ++ info :: post).length ∧
    (∀ n ∈ recordedNames T op_desc info,
      (∀ later ∈ post, n ∉ recordedNames T op_desc later) →
      arg_to_idx.lookup n = some pre.length) ∧
    (∀ n, arg_to_idx.lookup n = none ↔
      ∀ slot ∈ pre ++ info :: post, n ∉ recordedNames T op_desc slot) ∧
    ∃ types1 map1 entry map2,
      GenerateOperationOutput T op_desc pre = .ok (types1, map1) ∧
      types1.length = pre.length ∧
      resolveOutputSlot T op_desc info types1 map1 = .ok (types1 ++ [entry], map2) ∧
      types[pre.length]? = some entry ∧
      (op_desc.HasOutput (T.GetLegacyArgName op_desc.type info.name) = false →
        entry = Ty.null ∧ map2 = map1 ∧ recordedNames T op_desc info = []) ∧
      (op_desc.HasOutput (T.GetLegacyArgName op_desc.type info.name) = true →
        outputIsVector info = false →
        (op_desc.Output (T.GetLegacyArgName op_desc.type info.name) = [] →
          entry = Ty.null ∧ map2 = map1 ∧ recordedNames T op_desc info = []) ∧
        (∀ v rest, op_desc.Output (T.GetLegacyArgName op_desc.type info.name) = v :: rest →
          (∃ var, op_desc.FindVarRecursive v = some var ∧
            T.type_translator var = some entry) ∧
          map2 = assign map1 v pre.length ∧ recordedNames T op_desc info = [v])) ∧
      (op_desc.HasOutput (T.GetLegacyArgName op_desc.type info.name) = true →
        outputIsVector info = true →
        ∃ ts, List.Forall₂
            (fun n t => ∃ var, op_desc.FindVarRecursive n = some var ∧
              T.type_translator var = some t)
            (op_desc.Output (T.GetLegacyArgName op_desc.type info.name)) ts ∧
          entry = Ty.vec ts ∧
          recordedNames T op_desc info =
            op_desc.Output (T.GetLegacyArgName op_desc.type info.name) ∧
          ∀ n ∈ op_desc.Output (T.GetLegacyArgName op_desc.type info.name),
            map2.lookup n = some pre.length) := by
  have hnone := fun n => GenerateOperationOutput_recorded T op_desc _ _ _ hok n
  unfold GenerateOperationOutput at hok ⊢
  obtain ⟨added, hadd, hlen⟩ := resolveOutputSlots_length T op_desc _ [] types [] arg_to_idx hok
  refine ⟨by rw [hadd]; simpa using hlen, ?_, hnone, ?_⟩
  all_goals rw [resolveOutputSlots_append] at hok
  all_goals cases hpre : resolveOutputSlots T op_desc pre [] [] with
    | error e => simp [hpre] at hok
    | ok p => ?_
  all_goals obtain ⟨types1, map1⟩ := p
  all_goals simp only [hpre, resolveOutputSlots] at hok
  all_goals cases hs : resolveOutputSlot T op_desc info types1 map1 with
    | error e => simp [hs] at hok
    | ok q => ?_
  all_goals obtain ⟨types2, map2⟩ := q
  all_goals simp only [hs] at hok
  all_goals obtain ⟨added1, ha1, hl1⟩ :=
    resolveOutputSlots_length T op_desc pre [] types1 [] map1 hpre
  all_goals have hlen1 : types1.length = pre.length := by rw [ha1]; simpa using hl1
  · intro n hn hlater
    rw [resolveOutputSlots_keep T op_desc n post types2 types map2 arg_to_idx hok hlater,
      (resolveOutputSlot_recorded T op_desc info types1 types2 map1 map2 hs n).1 hn, hlen1]
  · obtain ⟨entry, hty, habs, hsingle, hvec⟩ :=
      resolveOutputSlot_inv T op_desc info types1 types2 map1 map2 hs
    obtain ⟨added2, ha2, _⟩ := resolveOutputSlots_length T op_desc post _ types _ _ hok
    subst hty
    refine ⟨types1, map1, entry, map2, rfl, hlen1, hs, ?_, ?_, ?_, ?_⟩
    · rw [ha2, List.append_assoc, ← hlen1, List.getElem?_append_right (le_refl _)]
      simp
    · intro hh
      exact ⟨(habs hh).2.1, (habs hh).2.2, by simp [recordedNames, hh]⟩
    · intro hh hv
      obtain ⟨h1, h2⟩ := hsingle hh hv
      refine ⟨fun ho => ⟨(h1 ho).1, (h1 ho).2, by simp [recordedNames, hh, hv, ho]⟩, ?_⟩
      intro v rest ho
      obtain ⟨ht, hm⟩ := h2 v rest ho
      exact ⟨(translateVarType_ok_iff T op_desc v entry).1 ht, by rw [hm, hlen1],
        by simp [recordedNames, hh, hv, ho]⟩
    · intro hh hv
      obtain ⟨ts, hf, he, hin, _⟩ := hvec hh hv
      refine ⟨ts, ?_, he, by simp [recordedNames, hh, hv], ?_⟩
      · exact hf.imp (fun {n t} h => (translateVarType_ok_iff T op_desc n t).1 h)
      · intro n hn
        rw [hin n hn, hlen1]

/-- Instance of C16: `exSecondNameDesc` with the singleton-class slots `XShape` and
`Out`, in this order. The slot `XShape` records `z` with position 0; the later
slot `Out`, whose group is `y`, `z`, records only `y`, so `z` keeps position 0 in
the returned map. -/
theorem output_types_per_slot_witness :
    GenerateOperationOutput exTables exSecondNameDesc ([] ++ exXShapeSlot :: [exOutSlot]) =
      .ok ([.dense .FLOAT32 [3], .dense .FLOAT32 [2]], [("z", 0), ("y", 1)]) ∧
    recordedNames exTables exSecondNameDesc exXShapeSlot = ["z"] ∧
    recordedNames exTables exSecondNameDesc exOutSlot = ["y"] ∧
    [Ty.dense .FLOAT32 [3], Ty.dense .FLOAT32 [2]].length =
      ([] ++ exXShapeSlot :: [exOutSlot]).length ∧
    (∀ n ∈ recordedNames exTables exSecondNameDesc exXShapeSlot,
      (∀ later ∈ [exOutSlot], n ∉ recordedNames exTables exSecondNameDesc later) →
      ([("z", 0), ("y", 1)] : OpOutputMapping).lookup n = some 0) ∧
    (∀ n, ([("z", 0), ("y", 1)] : OpOutputMapping).lookup n = none ↔
      ∀ slot ∈ [] ++ exXShapeSlot :: [exOutSlot],
        n ∉ recordedNames exTables exSecondNameDesc slot) :=
  have h := output_types_per_slot exTables exSecondNameDesc [] [exOutSlot] exXShapeSlot
    [.dense .FLOAT32 [3], .dense .FLOAT32 [2]] [("z", 0), ("y", 1)] (by decide)
  ⟨by decide, by decide, by decide, h.1, h.2.1, h.2.2.1⟩

end Paddle.Translator
